import Mathlib

/-! Steam inventory pipeline: embedding and verified properties.

A shallow embedding of the inventory aggregation pipeline of the repository
(`steam_api.go`, `cache.go`, `console.go`, `telegram_bot.go`, `gui.go`).

Modelling conventions

* A Go `map[string]T` is a list of bindings with at most one binding per key
  (`GoMap`).  Go leaves the iteration order of a map unspecified, so every
  `range` over a map whose order can be observed takes the order as a
  parameter (`rangeOrder`), constrained only to be a rearrangement.
* An HTTP exchange is an explicit input: the server is a function from the
  request number and the request URL to the outcome of that request.
* Loops without a bound take a fuel argument and return `none` when it runs out.
* `time.Now()` is an explicit argument; instants and durations are integers.
* `float64` values are kept abstract (a type parameter `F`); the conversion of a scanned
  token to a `float64` is a parameter of `parsePrice`.
* The functions of the Go library (`strings`, `fmt`, `regexp`) are modelled for the
  calls the program makes; each regular expression has its own matcher.
* Debug printing and `time.Sleep` calls have no effect on the results and are left out.
-/

namespace SteamInventory

/-! ## Go maps -/

/-- A Go `map[string]α`, kept as a list of bindings with pairwise different keys. -/
abbrev GoMap (α : Type) := List (String × α)

namespace GoMap

/-- The read `v, ok := m[k]`. -/
def get {α : Type} (m : GoMap α) (k : String) : Option α :=
  List.lookup k m

/-- The write `m[k] = v`: any earlier binding of `k` is replaced. -/
def set {α : Type} (m : GoMap α) (k : String) (v : α) : GoMap α :=
  (k, v) :: m.filter (fun e => e.1 != k)

/-- The values bound in the map. -/
def values {α : Type} (m : GoMap α) : List α :=
  m.map Prod.snd

/-- The keys bound in the map. -/
def keys {α : Type} (m : GoMap α) : List String :=
  m.map Prod.fst

end GoMap

/-! ## Data model (`steam_api.go`) -/

/-- The Go struct `Asset`. -/
structure Asset where
  AppID : Int
  ContextID : String
  AssetID : String
  ClassID : String
  InstanceID : String
  Amount : String
deriving DecidableEq, Repr

/-- The Go struct `Description` (the Go field `Type` is spelled `Type_`). -/
structure Description where
  AppID : Int
  ClassID : String
  InstanceID : String
  IconURL : String
  IconURLLarge : String
  Name : String
  MarketName : String
  MarketHashName : String
  Type_ : String
  Tradable : Int
  Marketable : Int
  Commodity : Int
  MarketTradableRestriction : Int
deriving DecidableEq, Repr

/-- The Go struct `SteamInventoryResponse`: one decoded inventory page. -/
structure SteamInventoryResponse where
  Assets : List Asset
  Descriptions : List Description
  TotalCount : Int
  Success : Int
  Error : String
  MoreItems : Int
  LastAssetID : String
deriving DecidableEq, Repr

/-- Outcome of `client.Get(apiURL)` followed by the JSON decoding of the body:
either the transport failed, or a response with a status code arrived whose
body decodes (`some`) or does not decode (`none`). -/
inductive HttpResult where
  | transportError : HttpResult
  | response (statusCode : Int) (decoded : Option SteamInventoryResponse) : HttpResult
deriving DecidableEq, Repr

/-- The map key `desc.ClassID + "_" + desc.InstanceID`. -/
def descKey (desc : Description) : String :=
  desc.ClassID ++ "_" ++ desc.InstanceID

/-- The map key `asset.ClassID + "_" + asset.InstanceID`. -/
def assetKey (asset : Asset) : String :=
  asset.ClassID ++ "_" ++ asset.InstanceID

/-! ## `fetchAllInventory` (`steam_api.go`, lines 55-144) -/

/-- The local variables of `fetchAllInventory` that live across iterations,
plus `requests`, the URLs requested so far (oldest first). -/
structure FetchState where
  allAssets : List Asset
  descMap : GoMap Description
  totalCount : Int
  startAssetID : String
  page : Nat
  requests : List String
deriving DecidableEq, Repr

/-- The state before the first iteration (lines 56-61). -/
def FetchState.init : FetchState :=
  { allAssets := [], descMap := [], totalCount := 0, startAssetID := "", page := 0, requests := [] }

/-- The request URL of one iteration (lines 65-68). -/
def apiURL (steamID appID contextID startAssetID : String) : String :=
  let url := "https://steamcommunity.com/inventory/" ++ steamID ++ "/" ++ appID ++ "/" ++ contextID
  if startAssetID ≠ "" then url ++ "?start_assetid=" ++ startAssetID else url

/-- The loop over `inventory.Descriptions` (lines 112-117): a description is
stored only when its key is not bound yet. -/
def mergeDescriptions (descMap : GoMap Description) (descs : List Description) : GoMap Description :=
  descs.foldl
    (fun m desc =>
      let key := descKey desc
      if (m.get key).isSome then m else m.set key desc)
    descMap

/-- The `for` loop of lines 63-132, run for at most `fuel` iterations. -/
def fetchLoop (server : Nat → String → HttpResult) (steamID appID contextID : String) :
    Nat → FetchState → Option FetchState
  | 0, _ => none
  | fuel + 1, st =>
    let page := st.page + 1
    let url := apiURL steamID appID contextID st.startAssetID
    let st := { st with page := page, requests := st.requests ++ [url] }
    match server page url with
    | .transportError => some st
    | .response statusCode decoded =>
      if statusCode ≠ 200 then some st
      else
        match decoded with
        | none => some st
        | some inventory =>
          if inventory.Success ≠ 1 then some st
          else
            let st := { st with
              allAssets := st.allAssets ++ inventory.Assets
              descMap := mergeDescriptions st.descMap inventory.Descriptions
              totalCount := inventory.TotalCount }
            if inventory.MoreItems ≠ 1 ∨ inventory.LastAssetID = "" then some st
            else
              fetchLoop server steamID appID contextID fuel
                { st with startAssetID := inventory.LastAssetID }

/-- The function `fetchAllInventory`: the page loop, then the `range` over
`descMap` (lines 134-136) in the order `rangeOrder` picks. -/
def fetchAllInventory (rangeOrder : GoMap Description → GoMap Description)
    (server : Nat → String → HttpResult) (steamID appID contextID : String) (fuel : Nat) :
    Option (List Asset × List Description × Int) :=
  (fetchLoop server steamID appID contextID fuel FetchState.init).map
    (fun st => (st.allAssets, (rangeOrder st.descMap).values, st.totalCount))

/-! ### Describing a run of the fetcher -/

/-- A response at which the loop stops without accumulating anything: transport
error, status other than 200, undecodable body, or success flag other than 1. -/
def HttpResult.failing : HttpResult → Bool
  | .transportError => true
  | .response _ none => true
  | .response statusCode (some inventory) => statusCode != 200 || inventory.Success != 1

/-- Starting at request number `n + 1` with cursor `cursor`, the server hands
out exactly the pages `pages` as accepted pages: each is served with status 200
and success flag 1, each but the last reports more items and a cursor, and the
run ends either at a last page without continuation or at a failing response. -/
def AcceptedRun (server : Nat → String → HttpResult) (steamID appID contextID : String) :
    Nat → String → List SteamInventoryResponse → Prop
  | n, cursor, [] => (server (n + 1) (apiURL steamID appID contextID cursor)).failing = true
  | n, cursor, p :: ps =>
    server (n + 1) (apiURL steamID appID contextID cursor) = .response 200 (some p) ∧
    p.Success = 1 ∧
    (if p.MoreItems = 1 ∧ p.LastAssetID ≠ "" then
      AcceptedRun server steamID appID contextID (n + 1) p.LastAssetID ps
    else ps = [])

/-- Starting at request number `n + 1` with cursor `cursor`, the server hands
out the pages `pages`, each accepted and each reporting more items and a cursor. -/
def ServedPages (server : Nat → String → HttpResult) (steamID appID contextID : String) :
    Nat → String → List SteamInventoryResponse → Prop
  | _, _, [] => True
  | n, cursor, p :: ps =>
    server (n + 1) (apiURL steamID appID contextID cursor) = .response 200 (some p) ∧
    p.Success = 1 ∧ p.MoreItems = 1 ∧ p.LastAssetID ≠ "" ∧
    ServedPages server steamID appID contextID (n + 1) p.LastAssetID ps

/-- The cursor in force after the pages `pages`, starting from `cursor`. -/
def cursorAfter (cursor : String) (pages : List SteamInventoryResponse) : String :=
  (pages.getLast?.map (·.LastAssetID)).getD cursor

/-- The total count after the pages `pages`: the one of the last page, `dflt` without a page. -/
def lastTotal (dflt : Int) (pages : List SteamInventoryResponse) : Int :=
  (pages.getLast?.map (·.TotalCount)).getD dflt

/-- All descriptions of the pages, in page order and within-page order. -/
def allPageDescriptions (pages : List SteamInventoryResponse) : List Description :=
  pages.flatMap (·.Descriptions)

/-- All assets of the pages, in page order and within-page order. -/
def allPageAssets (pages : List SteamInventoryResponse) : List Asset :=
  pages.flatMap (·.Assets)

/-! ## Result cache (`cache.go`) -/

/-- The Go struct `InventoryItem` (`telegram_bot.go`, `gui.go`); `F` stands for `float64`. -/
structure InventoryItem (F : Type) where
  Name : String
  MarketName : String
  Type_ : String
  Price : String
  PriceValue : F
  AssetID : String
deriving DecidableEq, Repr

/-- The Go struct `CachedInventory`; instants are integers. -/
structure CachedInventory (F : Type) where
  Data : List (InventoryItem F)
  ExpiresAt : Int
  CreatedAt : Int
deriving DecidableEq, Repr

/-- The Go struct `Cache` without its mutex: every operation below is one
critical section, so a run of the cache is a sequence of operations. -/
structure Cache (F : Type) where
  items : GoMap (CachedInventory F)
  ttl : Int
deriving DecidableEq, Repr

/-- The function `NewCache`: an empty cache with the given TTL. -/
def NewCache (F : Type) (ttl : Int) : Cache F :=
  { items := [], ttl := ttl }

/-- The method `Cache.Get` (lines 35-50), with `now` the value of `time.Now()`;
the `nil` slice is the empty list. -/
def Cache.Get {F : Type} (c : Cache F) (now : Int) (key : String) : List (InventoryItem F) × Bool :=
  match c.items.get key with
  | none => ([], false)
  | some item =>
    if now > item.ExpiresAt then ([], false)
    else (item.Data, true)

/-- The method `Cache.Set` (lines 53-62); `now` and `now2` are the two readings
of `time.Now()`, for `ExpiresAt` and for `CreatedAt`. -/
def Cache.Set {F : Type} (c : Cache F) (now now2 : Int) (key : String)
    (data : List (InventoryItem F)) : Cache F :=
  { c with items := c.items.set key { Data := data, ExpiresAt := now + c.ttl, CreatedAt := now2 } }

/-- One tick of the loop in `Cache.cleanup` (lines 70-77): every binding with
`now.After(item.ExpiresAt)` is deleted. -/
def Cache.cleanupTick {F : Type} (c : Cache F) (now : Int) : Cache F :=
  { c with items := c.items.filter (fun e => !(decide (now > e.2.ExpiresAt))) }

/-- One operation on the cache, with the clock readings it makes. -/
inductive CacheOp (F : Type) where
  | Set (now now2 : Int) (key : String) (data : List (InventoryItem F)) : CacheOp F
  | Get (now : Int) (key : String) : CacheOp F
  | cleanupTick (now : Int) : CacheOp F
deriving DecidableEq, Repr

/-- The instant at which an operation reads the clock (first reading). -/
def CacheOp.time {F : Type} : CacheOp F → Int
  | .Set now _ _ _ => now
  | .Get now _ => now
  | .cleanupTick now => now

/-- Whether the operation is a `Set` of the key `k`. -/
def CacheOp.setsKey {F : Type} (k : String) : CacheOp F → Bool
  | .Set _ _ key _ => key == k
  | _ => false

/-- The cache after one operation (`Get` only reads). -/
def Cache.step {F : Type} (c : Cache F) : CacheOp F → Cache F
  | .Set now now2 key data => c.Set now now2 key data
  | .Get _ _ => c
  | .cleanupTick now => c.cleanupTick now

/-- The cache after a sequence of operations. -/
def Cache.run {F : Type} (c : Cache F) (ops : List (CacheOp F)) : Cache F :=
  ops.foldl Cache.step c

/-! ## Join of assets and descriptions -/

/-- The loop building `descMap` from the description list
(`telegram_bot.go` lines 454-458, `gui.go` lines 271-275, `console.go` lines 213-217):
a later description overwrites an earlier one with the same key. -/
def buildDescMap (descriptions : List Description) : GoMap Description :=
  descriptions.foldl (fun m desc => m.set (descKey desc) desc) []

/-- The variables of `processInventoryItems` that live across iterations, plus
`lookups`, the market-hash names passed to `getMarketPrice` so far (oldest first). -/
structure JoinState (F : Type) where
  priceCache : GoMap String
  items : List (InventoryItem F)
  processedCount : Nat
  lookups : List String
deriving DecidableEq, Repr

/-- The state before the first asset (`telegram_bot.go` lines 460-462). -/
def JoinState.init (F : Type) : JoinState F :=
  { priceCache := [], items := [], processedCount := 0, lookups := [] }

/-- The price-cache consultation shared by the three front ends
(`telegram_bot.go` lines 472-477, `gui.go` lines 288-293, `console.go` lines 255-260):
returns the price, the new price cache and the new lookup log.
`getMarketPrice i appID name` is the answer of the `i`-th call (counting from 0) of the scan. -/
def cachedPrice (getMarketPrice : Nat → String → String → String) (appID : String)
    (priceCache : GoMap String) (lookups : List String) (marketHashName : String) :
    String × GoMap String × List String :=
  match priceCache.get marketHashName with
  | some price => (price, priceCache, lookups)
  | none =>
    let price := getMarketPrice lookups.length appID marketHashName
    (price, priceCache.set marketHashName price, lookups ++ [marketHashName])

/-- The body of the loop over the assets in `processInventoryItems`
(`telegram_bot.go` lines 464-499). -/
def processAsset {F : Type} (getMarketPrice : Nat → String → String → String)
    (parsePrice : String → F) (appID : String) (descMap : GoMap Description)
    (st : JoinState F) (asset : Asset) : JoinState F :=
  let key := assetKey asset
  match descMap.get key with
  | none => st
  | some desc =>
    if desc.Marketable ≠ 1 ∨ desc.MarketHashName = "" then st
    else
      let r := cachedPrice getMarketPrice appID st.priceCache st.lookups desc.MarketHashName
      let price := r.1
      let st := { st with priceCache := r.2.1, lookups := r.2.2 }
      if price = "" then st
      else
        let priceValue := parsePrice price
        let item : InventoryItem F :=
          { Name := desc.Name, MarketName := desc.MarketName, Type_ := desc.Type_,
            Price := price, PriceValue := priceValue, AssetID := asset.AssetID }
        { st with items := st.items ++ [item], processedCount := st.processedCount + 1 }

/-- The whole of `processInventoryItems`, as the final loop state. -/
def processInventoryState {F : Type} (getMarketPrice : Nat → String → String → String)
    (parsePrice : String → F) (assets : List Asset) (descriptions : List Description)
    (appID : String) : JoinState F :=
  assets.foldl (processAsset getMarketPrice parsePrice appID (buildDescMap descriptions))
    (JoinState.init F)

/-- The function `processInventoryItems` (`telegram_bot.go` lines 453-502; the copy in
`gui.go` lines 270-317 differs only in its pauses). -/
def processInventoryItems {F : Type} (getMarketPrice : Nat → String → String → String)
    (parsePrice : String → F) (assets : List Asset) (descriptions : List Description)
    (appID : String) : List (InventoryItem F) :=
  (processInventoryState getMarketPrice parsePrice assets descriptions appID).items

/-- The names `processInventoryItems` passes to `getMarketPrice`, in call order. -/
def processInventoryLookups {F : Type} (getMarketPrice : Nat → String → String → String)
    (parsePrice : String → F) (assets : List Asset) (descriptions : List Description)
    (appID : String) : List String :=
  (processInventoryState getMarketPrice parsePrice assets descriptions appID).lookups

/-! ### The join loop of the command-line front end (`console.go`, lines 223-293) -/

/-- The `float64` operations the join loop uses. -/
structure Float64Ops (F : Type) where
  zero : F
  add : F → F → F
  lt : F → F → Bool

/-- The variables of the CLI join loop (lines 223-232), plus `lookups`, the
market-hash names passed to `getMarketPrice` so far (oldest first). -/
structure CliState (F : Type) where
  priceCache : GoMap String
  marketableItems : Nat
  totalValue : F
  minPrice : F
  maxPrice : F
  minPriceItem : String
  maxPriceItem : String
  skippedNoDesc : Nat
  skippedNotMarketable : Nat
  skippedNoHash : Nat
  lookups : List String
deriving DecidableEq, Repr

/-- The state before the first asset (lines 223-232). -/
def CliState.init {F : Type} (ops : Float64Ops F) : CliState F :=
  { priceCache := [], marketableItems := 0, totalValue := ops.zero, minPrice := ops.zero,
    maxPrice := ops.zero, minPriceItem := "", maxPriceItem := "", skippedNoDesc := 0,
    skippedNotMarketable := 0, skippedNoHash := 0, lookups := [] }

/-- The body of the CLI join loop (lines 236-293); the printing of the item is left out. -/
def cliProcessAsset {F : Type} (ops : Float64Ops F)
    (getMarketPrice : Nat → String → String → String) (parsePrice : String → F)
    (appID : String) (descMap : GoMap Description) (st : CliState F) (asset : Asset) :
    CliState F :=
  let key := assetKey asset
  match descMap.get key with
  | none => { st with skippedNoDesc := st.skippedNoDesc + 1 }
  | some desc =>
    if desc.Marketable ≠ 1 then { st with skippedNotMarketable := st.skippedNotMarketable + 1 }
    else if desc.MarketHashName = "" then { st with skippedNoHash := st.skippedNoHash + 1 }
    else
      let r := cachedPrice getMarketPrice appID st.priceCache st.lookups desc.MarketHashName
      let price := r.1
      let st := { st with priceCache := r.2.1, lookups := r.2.2 }
      if price = "" then st
      else
        let priceValue := parsePrice price
        let st := { st with totalValue := ops.add st.totalValue priceValue }
        let st :=
          if st.marketableItems = 0 then
            { st with minPrice := priceValue, maxPrice := priceValue,
                      minPriceItem := desc.Name, maxPriceItem := desc.Name }
          else
            let st :=
              if ops.lt priceValue st.minPrice then
                { st with minPrice := priceValue, minPriceItem := desc.Name }
              else st
            if ops.lt st.maxPrice priceValue then
              { st with maxPrice := priceValue, maxPriceItem := desc.Name }
            else st
        { st with marketableItems := st.marketableItems + 1 }

/-- The CLI join loop over all assets (lines 213-293), as the final loop state. -/
def cliJoin {F : Type} (ops : Float64Ops F) (getMarketPrice : Nat → String → String → String)
    (parsePrice : String → F) (assets : List Asset) (descriptions : List Description)
    (appID : String) : CliState F :=
  assets.foldl (cliProcessAsset ops getMarketPrice parsePrice appID (buildDescMap descriptions))
    (CliState.init ops)

/-! ## Worked example data -/

/-- A description with the given key parts, name, market-hash name and marketable flag. -/
def demoDesc (classID instanceID name marketHashName : String) (marketable : Int) :
    Description :=
  { AppID := 730, ClassID := classID, InstanceID := instanceID, IconURL := "",
    IconURLLarge := "", Name := name, MarketName := name, MarketHashName := marketHashName,
    Type_ := "Rifle", Tradable := 1, Marketable := marketable, Commodity := 0,
    MarketTradableRestriction := 0 }

/-- An asset with the given asset id and key parts. -/
def demoAsset (assetID classID instanceID : String) : Asset :=
  { AppID := 730, ContextID := "2", AssetID := assetID, ClassID := classID,
    InstanceID := instanceID, Amount := "1" }

/-- First page: two assets, one description, more items to come, cursor `A2`. -/
def demoPage1 : SteamInventoryResponse :=
  { Assets := [demoAsset "A1" "c1" "i1", demoAsset "A2" "c2" "i0"],
    Descriptions := [demoDesc "c1" "i1" "first" "AK" 1],
    TotalCount := 3, Success := 1, Error := "", MoreItems := 1, LastAssetID := "A2" }

/-- Second page: redefines the key `c1_i1`, adds `c2_i0`, reports no continuation. -/
def demoPage2 : SteamInventoryResponse :=
  { Assets := [demoAsset "A3" "c1" "i1"],
    Descriptions := [demoDesc "c1" "i1" "second" "AK" 1, demoDesc "c2" "i0" "case" "" 1],
    TotalCount := 7, Success := 1, Error := "", MoreItems := 0, LastAssetID := "" }

/-- A page like `demoPage2` that reports a continuation with cursor `A3`. -/
def demoPage2More : SteamInventoryResponse :=
  { demoPage2 with MoreItems := 1, LastAssetID := "A3" }

/-- A decodable body whose success flag is 0 although it carries an asset and a description. -/
def demoRejectedPage : SteamInventoryResponse :=
  { Assets := [demoAsset "A9" "c9" "i9"], Descriptions := [demoDesc "c9" "i9" "late" "M4" 1],
    TotalCount := 99, Success := 0, Error := "busy", MoreItems := 1, LastAssetID := "A9" }

/-- A server that answers by URL: the two demo pages, anything else fails in transport. -/
def demoServer : Nat → String → HttpResult :=
  fun _ url =>
    if url = "https://steamcommunity.com/inventory/765/730/2" then .response 200 (some demoPage1)
    else if url = "https://steamcommunity.com/inventory/765/730/2?start_assetid=A2" then
      .response 200 (some demoPage2)
    else .transportError

/-- A server that answers by request number: two continuing pages, then a rejected body. -/
def demoFailingServer : Nat → String → HttpResult :=
  fun n _ =>
    match n with
    | 1 => .response 200 (some demoPage1)
    | 2 => .response 200 (some demoPage2More)
    | _ => .response 200 (some demoRejectedPage)

/-- A priced item, with price values counted in kopecks. -/
def demoItem : InventoryItem Int :=
  { Name := "first", MarketName := "first", Type_ := "Rifle", Price := "15,50 (lowest)",
    PriceValue := 1550, AssetID := "A1" }

/-- A cache with TTL 10 in which `k` was set at instant 0. -/
def demoCache : Cache Int :=
  (NewCache Int 10).Set 0 0 "k" [demoItem]

/-- Integer arithmetic standing in for `float64`. -/
def demoOps : Float64Ops Int :=
  { zero := 0, add := fun a b => a + b, lt := fun a b => decide (a < b) }

/-- A price endpoint that knows one name only. -/
def demoPrices : String → String :=
  fun name => if name = "AK" then "15,50 (lowest)" else ""

/-- A stand-in for `parsePrice`: the length of the price string. -/
def demoParsePrice : String → Int :=
  fun price => price.length

/-- Descriptions with pairwise distinct keys: priced, without price, without market-hash
name, and not marketable. -/
def demoDescriptions : List Description :=
  [demoDesc "c1" "i1" "first" "AK" 1, demoDesc "c4" "i0" "sticker" "STICKER" 1,
   demoDesc "c2" "i0" "case" "" 1, demoDesc "c3" "i0" "medal" "MEDAL" 0]

/-- Assets: two stacks of `c1_i1`, one of each other description, one without description. -/
def demoAssets : List Asset :=
  [demoAsset "A1" "c1" "i1", demoAsset "A2" "c2" "i0", demoAsset "A3" "c1" "i1",
   demoAsset "A4" "c9" "i9", demoAsset "A5" "c3" "i0", demoAsset "A6" "c4" "i0",
   demoAsset "A7" "c4" "i0"]

/-! ## Statistics (`gui.go`, lines 319-341) -/

/-- The Go struct `InventoryData` (`gui.go`, lines 26-36); `Duration` is an integer. -/
structure InventoryData (F : Type) where
  Items : List (InventoryItem F)
  TotalItems : Int
  MarketableItems : Int
  TotalValue : F
  MinPrice : F
  MaxPrice : F
  MinPriceItem : String
  MaxPriceItem : String
  Duration : Int
deriving DecidableEq, Repr

/-- The body of the loop of `calculateStatistics` (lines 330-340) for one item. -/
def statisticsStep {F : Type} (ops : Float64Ops F) (data : InventoryData F)
    (item : InventoryItem F) : InventoryData F :=
  let data := { data with TotalValue := ops.add data.TotalValue item.PriceValue }
  let data :=
    if ops.lt item.PriceValue data.MinPrice then
      { data with MinPrice := item.PriceValue, MinPriceItem := item.Name }
    else data
  if ops.lt data.MaxPrice item.PriceValue then
    { data with MaxPrice := item.PriceValue, MaxPriceItem := item.Name }
  else data

/-- The function `calculateStatistics` (`gui.go`, lines 319-341), returning the updated record. -/
def calculateStatistics {F : Type} (ops : Float64Ops F) (data : InventoryData F) :
    InventoryData F :=
  match data.Items with
  | [] => data
  | first :: _ =>
    let data := { data with
      MarketableItems := data.Items.length
      MinPrice := first.PriceValue
      MaxPrice := first.PriceValue
      MinPriceItem := first.Name
      MaxPriceItem := first.Name }
    data.Items.foldl (statisticsStep ops) data

/-- The record `scanInventoryGUIWithProgress` hands to `calculateStatistics`
(`gui.go`, lines 212-214 and 248-250): every numeric field is zero, every string empty. -/
def InventoryData.fresh {F : Type} (ops : Float64Ops F) (items : List (InventoryItem F))
    (totalItems : Int) : InventoryData F :=
  { Items := items, TotalItems := totalItems, MarketableItems := 0, TotalValue := ops.zero,
    MinPrice := ops.zero, MaxPrice := ops.zero, MinPriceItem := "", MaxPriceItem := "",
    Duration := 0 }

/-- A priced item with the given name and price value. -/
def demoPriced (name : String) (value : Int) : InventoryItem Int :=
  { Name := name, MarketName := name, Type_ := "Rifle", Price := "", PriceValue := value,
    AssetID := name }

/-! ## Go library functions used by the parsers

Strings are handled as lists of characters (the inputs are valid UTF-8, on which Go's
byte-wise search and replacement of valid UTF-8 patterns agrees with the character-wise one). -/

/-- White space in the sense of Go's `unicode.IsSpace` (also the set `fmt` skips). -/
def isSpace (c : Char) : Bool :=
  let n := c.toNat
  n == 9 || n == 10 || n == 11 || n == 12 || n == 13 || n == 32 || n == 0x85 || n == 0xA0 ||
    n == 0x1680 || (0x2000 ≤ n && n ≤ 0x200A) || n == 0x2028 || n == 0x2029 || n == 0x202F ||
    n == 0x205F || n == 0x3000

/-- Go's `strings.TrimSpace`: leading and trailing white space removed. -/
def strings.TrimSpace (s : List Char) : List Char :=
  (s.dropWhile isSpace).rdropWhile isSpace

/-- The replacement loop of `strings.Replace` for a non-empty `old`: the first `n`
non-overlapping occurrences of `old`, found left to right, are replaced by `new`;
`skip` counts the characters of a matched occurrence still to be passed over. -/
def strings.replaceCount (old new : List Char) : Nat → Nat → List Char → List Char
  | _, _, [] => []
  | n, skip + 1, _ :: cs => strings.replaceCount old new n skip cs
  | 0, 0, c :: cs => c :: cs
  | n + 1, 0, c :: cs =>
    if old.isPrefixOf (c :: cs) then new ++ strings.replaceCount old new n (old.length - 1) cs
    else c :: strings.replaceCount old new (n + 1) 0 cs

/-- Go's `strings.Replace(s, old, new, n)` for a non-empty `old` (the only use in this
program): a negative `n` replaces every occurrence. -/
def strings.Replace (s old new : List Char) (n : Int) : List Char :=
  if old = new ∨ n = 0 then s
  else strings.replaceCount old new (if n < 0 then s.length + 1 else n.toNat) 0 s

/-- The constant `decimalDigits` of `fmt/scan.go`. -/
def fmt.decimalDigits : List Char := "0123456789".data

/-- The constant `hexadecimalDigits` of `fmt/scan.go`. -/
def fmt.hexadecimalDigits : List Char := "0123456789aAbBcCdDeEfF".data

/-- The method `ss.SkipSpace` of `fmt/scan.go` as `Sscanf` uses it: white space is skipped,
a newline is an error (`none`). -/
def fmt.SkipSpace : List Char → Option (List Char)
  | [] => some []
  | c :: cs =>
    if c.toNat = 10 then none
    else if isSpace c then fmt.SkipSpace cs
    else some (c :: cs)

/-- The method `ss.accept` of `fmt/scan.go` on a pair (token so far, input left): the next
character is consumed into the token when it is one of `ok`. -/
def fmt.accept (ok : List Char) (st : List Char × List Char) : Bool × List Char × List Char :=
  match st.2 with
  | [] => (false, st)
  | c :: cs => if c ∈ ok then (true, st.1 ++ [c], cs) else (false, st)

/-- The loop `for s.accept(ok) {}`. -/
def fmt.acceptAll (ok : List Char) : List Char → List Char → List Char × List Char
  | buf, [] => (buf, [])
  | buf, c :: cs => if c ∈ ok then fmt.acceptAll ok (buf ++ [c]) cs else (buf, c :: cs)

/-- The method `ss.floatToken` of `fmt/scan.go`: the longest run of input that looks like
a floating-point number (without checking that it has any digit). -/
def fmt.floatToken (input : List Char) : List Char :=
  -- NaN?
  let a1 := fmt.accept "nN".data ([], input)
  let a2 := if a1.1 then fmt.accept "aA".data a1.2 else (false, a1.2)
  let a3 := if a2.1 then fmt.accept "nN".data a2.2 else (false, a2.2)
  if a3.1 then a3.2.1
  else
    -- leading sign?
    let b0 := fmt.accept "+-".data a3.2
    -- Inf?
    let b1 := fmt.accept "iI".data b0.2
    let b2 := if b1.1 then fmt.accept "nN".data b1.2 else (false, b1.2)
    let b3 := if b2.1 then fmt.accept "fF".data b2.2 else (false, b2.2)
    if b3.1 then b3.2.1
    else
      let z := fmt.accept "0".data b3.2
      let x := if z.1 then fmt.accept "xX".data z.2 else (false, z.2)
      let digits := if x.1 then fmt.hexadecimalDigits ++ "_".data else fmt.decimalDigits ++ "_".data
      let exp := if x.1 then "pP".data else "eEpP".data
      -- digits?
      let d := fmt.acceptAll digits x.2.1 x.2.2
      -- decimal point, fraction?
      let p := fmt.accept ".".data d
      let f := if p.1 then fmt.acceptAll digits p.2.1 p.2.2 else p.2
      -- exponent?
      let e := fmt.accept exp f
      if e.1 then
        let s := fmt.accept "+-".data e.2
        (fmt.acceptAll (fmt.decimalDigits ++ "_".data) s.2.1 s.2.2).1
      else e.2.1

/-- The call `fmt.Sscanf(str, "%f", &value)`: white space is skipped, the float token is
read and converted.  `convertFloat` stands for the conversion of the token to a `float64`
(`ss.convertFloat`, that is `strconv.ParseFloat`), `none` when it reports an error.
The result is `none` when `value` is left untouched.  The width limit of the scanner
(2^30 characters) is out of reach of the texts handled here and is left out. -/
def fmt.Sscanf_f {F : Type} (convertFloat : String → Option F) (str : List Char) : Option F :=
  match fmt.SkipSpace str with
  | none => none
  | some [] => none
  | some (c :: cs) => convertFloat (String.mk (fmt.floatToken (c :: cs)))

/-! ## `parsePrice` (`steam_api.go`, lines 194-205) -/

/-- The string normalisation of `parsePrice` (lines 195-200). -/
def normalizePrice (priceStr : String) : List Char :=
  let s := strings.TrimSpace priceStr.data
  let s := strings.Replace s " (lowest)".data [] 1
  let s := strings.Replace s "руб.".data [] 1
  let s := strings.Replace s ",".data ".".data 1
  let s := strings.Replace s " ".data [] (-1)
  strings.TrimSpace s

/-- The function `parsePrice` of `steam_api.go`: `value` starts as `zero` and is
overwritten when the scan succeeds. -/
def parsePrice {F : Type} (convertFloat : String → Option F) (zero : F) (priceStr : String) : F :=
  (fmt.Sscanf_f convertFloat (normalizePrice priceStr)).getD zero

/-- A decimal number `mantissa / 10 ^ scale`. -/
structure Decimal where
  mantissa : Nat
  scale : Nat
deriving DecidableEq, Repr

/-- The number written by a list of decimal digits. -/
def natOfDigits (ds : List Char) : Nat :=
  ds.foldl (fun n c => 10 * n + (c.toNat - 48)) 0

/-- A reading of plain decimal literals `digits` or `digits.digits` as exact decimal
numbers; everything else is rejected. It stands in for `strconv.ParseFloat` in examples. -/
def decimalLiteral (token : String) : Option Decimal :=
  let ip := token.data.takeWhile Char.isDigit
  match token.data.dropWhile Char.isDigit with
  | [] => if ip = [] then none else some { mantissa := natOfDigits ip, scale := 0 }
  | c :: fp =>
    if c = '.' ∧ fp.all Char.isDigit ∧ (ip ≠ [] ∨ fp ≠ []) then
      some { mantissa := natOfDigits (ip ++ fp), scale := fp.length }
    else none

/-! ## `resolveSteamID` and `getSteamIDFromVanity` (`steam_api.go`, lines 207-262) -/

/-- The test `regexp.MustCompile("^\d+$").MatchString(s)`: one or more ASCII digits and
nothing else. -/
def matchAllDigits (s : List Char) : Bool :=
  !s.isEmpty && s.all Char.isDigit

/-- The first submatch of the leftmost match of a regular expression of the shape
`pat(C+)`, with `pat` a literal and `C` the character class `p`: at the first position
where `pat` is followed by a character of the class, the longest run of such characters. -/
def findAfter (pat : List Char) (p : Char → Bool) : List Char → Option (List Char)
  | [] => none
  | c :: cs =>
    if pat.isPrefixOf (c :: cs) && (((c :: cs).drop pat.length).head?.map p).getD false then
      some (((c :: cs).drop pat.length).takeWhile p)
    else findAfter pat p cs

/-- The first submatch of `regexp.MustCompile("profiles/(\d+)")`. -/
def findProfilesID (s : List Char) : Option (List Char) :=
  findAfter "profiles/".data Char.isDigit s

/-- The first submatch of `regexp.MustCompile("id/([^/]+)")`. -/
def findVanityName (s : List Char) : Option (List Char) :=
  findAfter "id/".data (fun c => c != '/') s

/-- The first submatch of the leftmost match of a regular expression of the shape
`open(C+)close`, with `open` and `close` literals and `C` the character class `p`, for a
`close` that begins outside the class: at the first position where `open` is followed by
one or more characters of the class and then by `close`, those characters. -/
def findBetween (openTag closeTag : List Char) (p : Char → Bool) :
    List Char → Option (List Char)
  | [] => none
  | c :: cs =>
    let r := (c :: cs).drop openTag.length
    if openTag.isPrefixOf (c :: cs) && !(r.takeWhile p).isEmpty &&
        closeTag.isPrefixOf (r.dropWhile p) then
      some (r.takeWhile p)
    else findBetween openTag closeTag p cs

/-- The first submatch of `regexp.MustCompile("<steamID64>(\d+)</steamID64>")`. -/
def findSteamID64 (s : List Char) : Option (List Char) :=
  findBetween "<steamID64>".data "</steamID64>".data Char.isDigit s

/-- Outcome of the profile request of `getSteamIDFromVanity`: the request could not be
built, the transport failed, or a response arrived with a status code and the text that
`readBody` got from its single `Read` of at most 10000 bytes. -/
inductive VanityResult where
  | requestError : VanityResult
  | transportError : VanityResult
  | response (statusCode : Int) (bodyText : String) : VanityResult
deriving DecidableEq, Repr

/-- The URL `getSteamIDFromVanity` requests (line 230) for a trimmed name. -/
def vanityURL (vanityName : String) : String :=
  "https://steamcommunity.com/id/" ++ vanityName ++ "/?xml=1"

/-- The function `getSteamIDFromVanity` (lines 228-262); `net` answers a request by URL. -/
def getSteamIDFromVanity (net : String → VanityResult) (vanityName : String) : String :=
  let vanityName := String.mk (strings.TrimSpace vanityName.data)
  match net (vanityURL vanityName) with
  | .requestError => ""
  | .transportError => ""
  | .response statusCode bodyText =>
    if statusCode ≠ 200 then ""
    else
      match findSteamID64 bodyText.data with
      | none => ""
      | some digits => String.mk digits

/-- The function `resolveSteamID` (lines 207-226).  The second component lists the names
with which `getSteamIDFromVanity` was called. -/
def resolveSteamID (net : String → VanityResult) (input : String) : String × List String :=
  let input := strings.TrimSpace input.data
  if matchAllDigits input then (String.mk input, [])
  else
    match findProfilesID input with
    | some digits => (String.mk digits, [])
    | none =>
      match findVanityName input with
      | some vanityName =>
        (getSteamIDFromVanity net (String.mk vanityName), [String.mk vanityName])
      | none => (getSteamIDFromVanity net (String.mk input), [String.mk input])

/-- A profile server that knows the vanity name `gaben`. -/
def demoVanityNet : String → VanityResult :=
  fun url =>
    if url = "https://steamcommunity.com/id/gaben/?xml=1" then
      .response 200 "<profile><steamID64>76561197960287930</steamID64></profile>"
    else if url = "https://steamcommunity.com/id/ghost/?xml=1" then
      .response 200 "<response><error>The specified profile could not be found.</error></response>"
    else .transportError

/-! ## `getMarketPrice` (`steam_api.go`, lines 146-192) -/

/-- The Go struct `MarketPriceResponse`. -/
structure MarketPriceResponse where
  Success : Bool
  LowestPrice : String
  MedianPrice : String
  Volume : String
deriving DecidableEq, Repr

/-- Outcome of the price request: the request could not be built, the transport failed,
or a response arrived with a status code and a body that decodes (`some`) or not (`none`). -/
inductive PriceResult where
  | requestError : PriceResult
  | transportError : PriceResult
  | response (statusCode : Int) (decoded : Option MarketPriceResponse) : PriceResult
deriving DecidableEq, Repr

/-- The URL of the price request (lines 147-148); `queryEscape` stands for `url.QueryEscape`. -/
def marketURL (queryEscape : String → String) (appID marketHashName : String) : String :=
  "https://steamcommunity.com/market/priceoverview/?appid=" ++ appID ++
    "&currency=5&market_hash_name=" ++ queryEscape marketHashName

/-- The function `getMarketPrice` (lines 146-192); `net` answers a request by URL. -/
def getMarketPrice (queryEscape : String → String) (net : String → PriceResult)
    (appID marketHashName : String) : String :=
  match net (marketURL queryEscape appID marketHashName) with
  | .requestError => ""
  | .transportError => ""
  | .response statusCode decoded =>
    if statusCode ≠ 200 then ""
    else
      match decoded with
      | none => ""
      | some priceResp =>
        if !priceResp.Success then ""
        else if priceResp.LowestPrice ≠ "" then
          String.mk (strings.TrimSpace priceResp.LowestPrice.data) ++ " (lowest)"
        else ""

/-- A price answer with white space around the lowest price. -/
def demoPriceAnswer : MarketPriceResponse :=
  { Success := true, LowestPrice := " 15,50 руб. ", MedianPrice := "", Volume := "" }

/-- A price answer whose `success` is false. -/
def demoPriceRefusal : MarketPriceResponse :=
  { Success := false, LowestPrice := "15,50 руб.", MedianPrice := "", Volume := "" }

/-! ## Rate limiter (`cache.go`, lines 81-118) -/

/-- The Go struct `RateLimiter`: `requests` is the number of permits buffered in the
channel made by `make(chan struct{}, 1)`, `capacity` the size of its buffer. -/
structure RateLimiter where
  requests : Nat
  capacity : Nat
deriving DecidableEq, Repr

/-- The function `NewRateLimiter`: an empty channel with a buffer of one. -/
def NewRateLimiter : RateLimiter :=
  { requests := 0, capacity := 1 }

/-- What happens to a rate limiter: a tick of the ticker reaches `allowRequests`, or a
call of `Wait` completes. -/
inductive RateEvent where
  | tick : RateEvent
  | waitDone : RateEvent
deriving DecidableEq, Repr

/-- One event.  A tick runs the `select` of `allowRequests` (lines 103-106): the permit is
sent when the buffer has room and dropped otherwise.  `Wait` (line 112) completes only by
receiving a permit; without one it stays blocked and the event cannot happen (`none`).
A permit handed straight to a blocked `Wait` is a tick followed by its completion. -/
def RateLimiter.step (rl : RateLimiter) : RateEvent → Option RateLimiter
  | .tick => some (if rl.requests < rl.capacity then { rl with requests := rl.requests + 1 } else rl)
  | .waitDone => if 0 < rl.requests then some { rl with requests := rl.requests - 1 } else none

/-- A sequence of events, `none` when one of them cannot happen. -/
def RateLimiter.run (rl : RateLimiter) : List RateEvent → Option RateLimiter
  | [] => some rl
  | e :: es =>
    match rl.step e with
    | none => none
    | some rl2 => rl2.run es

/-! ## `scanInventory` (`telegram_bot.go`, lines 231-394) -/

/-- The cache key of `scanInventory` (line 233): `fmt.Sprintf("%s_%s", steamID, appID)`. -/
def scanCacheKey (steamID appID : String) : String :=
  steamID ++ "_" ++ appID

/-- The key a cache operation is about, if any. -/
def CacheOp.key {F : Type} : CacheOp F → Option String
  | .Set _ _ key _ => some key
  | .Get _ key => some key
  | .cleanupTick _ => none

/-- How a scan ended. -/
inductive ScanOutcome (F : Type) where
  | cacheHit (cachedData : List (InventoryItem F)) : ScanOutcome F
  | unresolved : ScanOutcome F
  | timedOut : ScanOutcome F
  | emptyInventory : ScanOutcome F
  | noMarketableItems : ScanOutcome F
  | scanned (items : List (InventoryItem F)) : ScanOutcome F
deriving DecidableEq, Repr

/-- What a scan gets from outside: the clock readings of its cache operations, the profile
server, the result of `fetchAllInventory(resolvedID, appID, contextID)` (`none` when it does
not arrive within the two minutes of line 315), the price endpoint and `parsePrice`. -/
structure ScanEnv (F : Type) where
  nowGet : Int
  nowSet : Int
  nowSet2 : Int
  vanityNet : String → VanityResult
  inventory : String → String → String → Option (List Asset × List Description × Int)
  getMarketPrice : Nat → String → String → String
  parsePrice : String → F

/-- The function `scanInventory` as far as the result cache is concerned: the cache
operations it performs, in order, and how it ends.  The messages sent, the wait on the rate
limiter and the statistics are left out, and so is the in-place sort that `sendTopItems`
applies afterwards to the slice handed to `Set`. -/
def scanInventory {F : Type} (env : ScanEnv F) (cache : Cache F) (steamID appID : String) :
    List (CacheOp F) × ScanOutcome F :=
  let cacheKey := scanCacheKey steamID appID
  let got := cache.Get env.nowGet cacheKey
  if got.2 then ([.Get env.nowGet cacheKey], .cacheHit got.1)
  else
    let resolvedID := (resolveSteamID env.vanityNet steamID).1
    if resolvedID = "" then ([.Get env.nowGet cacheKey], .unresolved)
    else
      match env.inventory resolvedID appID "2" with
      | none => ([.Get env.nowGet cacheKey], .timedOut)
      | some (assets, descriptions, totalCount) =>
        if totalCount = 0 then ([.Get env.nowGet cacheKey], .emptyInventory)
        else
          let maxItems := 50
          let assets := if assets.length > maxItems then assets.take maxItems else assets
          let items :=
            processInventoryItems env.getMarketPrice env.parsePrice assets descriptions appID
          if items.length = 0 then ([.Get env.nowGet cacheKey], .noMarketableItems)
          else
            ([.Get env.nowGet cacheKey, .Set env.nowSet env.nowSet2 cacheKey items],
              .scanned items)

/-! ## Requests of the fetcher -/

/-- The URLs `fetchAllInventory` requests, in order. -/
def fetchAllInventoryRequests (server : Nat → String → HttpResult)
    (steamID appID contextID : String) (fuel : Nat) : Option (List String) :=
  (fetchLoop server steamID appID contextID fuel FetchState.init).map (·.requests)

/-- Whether an accepted page makes the loop go on (line 126). -/
def pageContinues (p : SteamInventoryResponse) : Bool :=
  decide (p.MoreItems = 1) && decide (p.LastAssetID ≠ "")

/-- An accepted empty page that reports more items and the cursor `next`. -/
def morePage : SteamInventoryResponse :=
  { Assets := [], Descriptions := [], TotalCount := 1, Success := 1, Error := "",
    MoreItems := 1, LastAssetID := "next" }

/-- A server that answers every request with `morePage`. -/
def endlessServer : Nat → String → HttpResult :=
  fun _ _ => .response 200 (some morePage)

/-- A server that answers the first `n + 1` requests with `morePage` and then fails. -/
def cappedServer (n : Nat) : Nat → String → HttpResult :=
  fun k _ => if k ≤ n + 1 then .response 200 (some morePage) else .transportError

/-- A scan environment over the demo data. -/
def demoEnv : ScanEnv Int :=
  { nowGet := 100, nowSet := 130, nowSet2 := 130, vanityNet := demoVanityNet,
    inventory := fun _ _ _ => some (demoAssets, demoDescriptions, 7),
    getMarketPrice := fun _ _ name => demoPrices name, parsePrice := demoParsePrice }

/-! ## `parsePrice` of the command-line front end (`console.go`, lines 467-477) -/

/-- The string normalisation of the `parsePrice` of `console.go` (lines 468-472); it has
no step that removes the spaces. -/
def normalizePriceConsole (priceStr : String) : List Char :=
  let s := strings.TrimSpace priceStr.data
  let s := strings.Replace s " (lowest)".data [] 1
  let s := strings.Replace s "руб.".data [] 1
  let s := strings.Replace s ",".data ".".data 1
  strings.TrimSpace s

/-- The function `parsePrice` of `console.go`. -/
def parsePriceConsole {F : Type} (convertFloat : String → Option F) (zero : F)
    (priceStr : String) : F :=
  (fmt.Sscanf_f convertFloat (normalizePriceConsole priceStr)).getD zero

/-! ## `sendTopItems` (`telegram_bot.go`, lines 396-419) -/

/-- The body of the inner loop (lines 400-402) on the slice `items`: the entries at `i`
and `j` are exchanged when the price value at `i` is less than the one at `j`. -/
def exchangeIfLess {F : Type} (ops : Float64Ops F) (items : List (InventoryItem F))
    (i j : Nat) : List (InventoryItem F) :=
  match items[i]?, items[j]? with
  | some a, some b =>
    if ops.lt a.PriceValue b.PriceValue then (items.set i b).set j a else items
  | _, _ => items

/-- The inner loop `for j := ...; j < len(items); j++` (lines 399-403), with `n` the
number of iterations left, that is `len(items) - j`. -/
def sortInnerLoop {F : Type} (ops : Float64Ops F) (i : Nat) :
    Nat → Nat → List (InventoryItem F) → List (InventoryItem F)
  | 0, _, items => items
  | n + 1, j, items => sortInnerLoop ops i n (j + 1) (exchangeIfLess ops items i j)

/-- The outer loop `for i := ...; i < len(items)-1; i++` (lines 398-404), with `n` the
number of iterations left, that is `len(items) - 1 - i`. -/
def sortOuterLoop {F : Type} (ops : Float64Ops F) :
    Nat → Nat → List (InventoryItem F) → List (InventoryItem F)
  | 0, _, items => items
  | n + 1, i, items =>
    sortOuterLoop ops n (i + 1) (sortInnerLoop ops i (items.length - (i + 1)) (i + 1) items)

/-- The sort of `sendTopItems` (lines 398-404): the slice after the two loops. -/
def sortByPriceDescending {F : Type} (ops : Float64Ops F) (items : List (InventoryItem F)) :
    List (InventoryItem F) :=
  sortOuterLoop ops (items.length - 1) 0 items

/-- The function `sendTopItems`: the slice as the in-place sort leaves it, and the items
the report lists (lines 408-416), in the order of the report. The text of the message is
left out. -/
def sendTopItems {F : Type} (ops : Float64Ops F) (items : List (InventoryItem F)) :
    List (InventoryItem F) × List (InventoryItem F) :=
  let items := sortByPriceDescending ops items
  let topCount := if items.length < 5 then items.length else 5
  (items, (List.range topCount).filterMap (fun i => items[i]?))

/-- Seven priced items, two pairs of them with equal price values. -/
def demoTopItems : List (InventoryItem Int) :=
  [demoPriced "a" 10, demoPriced "b" 5, demoPriced "c" 20, demoPriced "d" 20,
    demoPriced "e" 5, demoPriced "f" 7, demoPriced "g" 30]

/-! ## The comparisons of `float64` -/

/-- The facts about the comparison `<` of `float64` that the order properties rest on,
with `isNaN` telling the NaN values. They hold for the IEEE 754 numbers of Go: a comparison
with a NaN is false, and on the other values (the infinities and both zeros included) `<`
is irreflexive and transitive, and a value that is not NaN lies above `a` or below `c`
whenever `a < c`. -/
structure Float64Ops.Ordered {F : Type} (ops : Float64Ops F) (isNaN : F → Bool) : Prop where
  lt_nan_left : ∀ a b, isNaN a = true → ops.lt a b = false
  lt_nan_right : ∀ a b, isNaN b = true → ops.lt a b = false
  lt_irrefl : ∀ a, ops.lt a a = false
  lt_trans : ∀ a b c, ops.lt a b = true → ops.lt b c = true → ops.lt a c = true
  lt_cotrans : ∀ a b c, isNaN b = false → ops.lt a c = true →
    ops.lt a b = true ∨ ops.lt b c = true

/-- The comparison `a <= b` of `float64`: neither value is NaN and `b < a` does not hold. -/
def Float64Ops.le {F : Type} (ops : Float64Ops F) (isNaN : F → Bool) (a b : F) : Bool :=
  !isNaN a && !isNaN b && !ops.lt b a

/-- The comparison `a == b` of `float64`: `a <= b` and `b <= a`. -/
def Float64Ops.eq {F : Type} (ops : Float64Ops F) (isNaN : F → Bool) (a b : F) : Bool :=
  ops.le isNaN a b && ops.le isNaN b a

/-- Integers and one NaN (`none`) standing in for `float64`: an addition with a NaN gives
NaN, a comparison with a NaN is false. -/
def nanOps : Float64Ops (Option Int) :=
  { zero := some 0
    add := fun a b =>
      match a, b with
      | some x, some y => some (x + y)
      | _, _ => none
    lt := fun a b =>
      match a, b with
      | some x, some y => decide (x < y)
      | _, _ => false }

/-- A priced item with the given name and price value, `none` for NaN. -/
def nanPriced (name : String) (value : Option Int) : InventoryItem (Option Int) :=
  { Name := name, MarketName := name, Type_ := "Rifle", Price := "", PriceValue := value,
    AssetID := name }

/-- Seven priced items without a NaN, two pairs of them with equal price values. -/
def nanFreeItems : List (InventoryItem (Option Int)) :=
  [nanPriced "a" (some 10), nanPriced "b" (some 5), nanPriced "c" (some 20),
    nanPriced "d" (some 20), nanPriced "e" (some 5), nanPriced "f" (some 7),
    nanPriced "g" (some 30)]

/-- Seven priced items, the third with a NaN price value. -/
def nanItems : List (InventoryItem (Option Int)) :=
  [nanPriced "a" (some 1), nanPriced "b" (some 2), nanPriced "n" none,
    nanPriced "c" (some 3), nanPriced "d" (some 4), nanPriced "e" (some 5),
    nanPriced "f" (some 6)]

/-! ## The texts `strconv.ParseFloat` accepts without a digit -/

/-- The texts without a decimal digit that `strconv.ParseFloat` accepts (function `special`
of `strconv/atof.go`), in lower case: NaN, and the infinities with an optional sign. Every
other text without a digit is a syntax error. -/
def strconv.specialTokens : List (List Char) :=
  ["nan".data, "inf".data, "+inf".data, "-inf".data, "infinity".data, "+infinity".data,
    "-infinity".data]

/-- The text is one of the special texts, in any letter case. -/
def strconv.isSpecial (tok : List Char) : Bool :=
  strconv.specialTokens.contains (tok.map Char.toLower)

/-- The text begins with `nan`, `inf`, `+inf` or `-inf`, in any letter case. -/
def strconv.startsSpecial (s : List Char) : Bool :=
  ["nan".data, "inf".data, "+inf".data, "-inf".data].any
    (fun p => p.isPrefixOf (s.map Char.toLower))

/-- A reading of the text `nan` (any letter case) as NaN (`none`) and of plain decimal
literals as exact decimal numbers; everything else is rejected. It stands in for
`strconv.ParseFloat` in examples with a NaN. -/
def nanLiteral (token : String) : Option (Option Decimal) :=
  if token.data.map Char.toLower = "nan".data then some none
  else (decimalLiteral token).map some

/-- The reading `decimalLiteral` restricted to the range of `float64`: a literal of value
2^1024 - 2^970 or more rounds beyond the greatest `float64`, and `strconv.ParseFloat`
reports a range error for it. -/
def rangedLiteral (token : String) : Option Decimal :=
  (decimalLiteral token).bind (fun d =>
    if d.mantissa < ((2 ^ 128) ^ 8 - (2 ^ 97) ^ 10) * 10 ^ d.scale then some d else none)

/-! # Theorems -/

/-! ## Go map lemmas -/

theorem GoMap.get_set {α : Type} (m : GoMap α) (k k' : String) (v : α) :
    (m.set k v).get k' = if k' = k then some v else m.get k' := by
  unfold GoMap.set GoMap.get
  rw [List.lookup_cons]
  by_cases h : k' = k
  · simp [h]
  · have hb : (k' == k) = false := by simpa using h
    simp only [hb, if_neg h]
    induction m with
    | nil => simp
    | cons e m ih =>
      obtain ⟨a, b⟩ := e
      by_cases ha : a = k
      · subst ha
        have : (k' == a) = false := hb
        simp [List.filter_cons, List.lookup_cons, this, ih]
      · have hne : (a != k) = true := by simpa using ha
        simp only [List.filter_cons, hne, if_true, List.lookup_cons]
        rw [ih]

theorem GoMap.get_filter_of_keep {α : Type} (m : GoMap α) (p : String × α → Bool) (k : String)
    (hkeep : ∀ v, (k, v) ∈ m → p (k, v) = true) :
    GoMap.get (m.filter p) k = m.get k := by
  unfold GoMap.get
  induction m with
  | nil => simp
  | cons e m ih =>
    obtain ⟨a, b⟩ := e
    have ih' := ih (fun v hv => hkeep v (List.mem_cons_of_mem _ hv))
    by_cases hak : k = a
    · subst hak
      have hp : p (k, b) = true := hkeep b (List.mem_cons_self _ _)
      simp [List.filter_cons, hp, List.lookup_cons]
    · have hb : (k == a) = false := by simpa using hak
      by_cases hp : p (a, b) = true
      · simp [List.filter_cons, hp, List.lookup_cons, hb, ih']
      · simp [List.filter_cons, hp, List.lookup_cons, hb, ih']

theorem GoMap.get_eq_some_mem {α : Type} (m : GoMap α) (k : String) (v : α)
    (h : m.get k = some v) : (k, v) ∈ m := by
  unfold GoMap.get at h
  induction m with
  | nil => simp at h
  | cons e m ih =>
    obtain ⟨a, b⟩ := e
    rw [List.lookup_cons] at h
    by_cases hak : k = a
    · subst hak
      simp at h
      simp [h]
    · have hb : (k == a) = false := by simpa using hak
      simp only [hb] at h
      exact List.mem_cons_of_mem _ (ih h)

theorem GoMap.get_eq_none_iff {α : Type} (m : GoMap α) (k : String) :
    m.get k = none ↔ k ∉ m.keys := by
  unfold GoMap.get GoMap.keys
  induction m with
  | nil => simp
  | cons e m ih =>
    obtain ⟨a, b⟩ := e
    rw [List.lookup_cons]
    by_cases hak : k = a
    · subst hak; simp
    · have hb : (k == a) = false := by simpa using hak
      simp only [hb, List.map_cons, List.mem_cons, hak, false_or]
      exact ih

theorem GoMap.mem_get_of_nodup {α : Type} (m : GoMap α) (k : String) (v : α)
    (hnd : m.keys.Nodup) (h : (k, v) ∈ m) : m.get k = some v := by
  unfold GoMap.get
  unfold GoMap.keys at hnd
  induction m with
  | nil => simp at h
  | cons e m ih =>
    obtain ⟨a, b⟩ := e
    rw [List.lookup_cons]
    simp only [List.map_cons, List.nodup_cons] at hnd
    rcases List.mem_cons.mp h with heq | hmem
    · cases heq; simp
    · have hak : k ≠ a := by
        rintro rfl
        exact hnd.1 (List.mem_map.mpr ⟨(k, v), hmem, rfl⟩)
      have hb : (k == a) = false := by simpa using hak
      simp only [hb]
      exact ih hnd.2 hmem

theorem GoMap.keys_set_nodup {α : Type} (m : GoMap α) (k : String) (v : α)
    (hnd : m.keys.Nodup) : (m.set k v).keys.Nodup := by
  unfold GoMap.set GoMap.keys at *
  simp only [List.map_cons, List.nodup_cons]
  constructor
  · intro hmem
    obtain ⟨e, he, hek⟩ := List.mem_map.mp hmem
    have := (List.mem_filter.mp he).2
    simp at this
    exact this hek
  · exact (List.filter_sublist m).map Prod.fst |>.nodup hnd

theorem GoMap.keys_filter_nodup {α : Type} (m : GoMap α) (p : String × α → Bool)
    (hnd : m.keys.Nodup) : GoMap.keys (m.filter p) |>.Nodup := by
  unfold GoMap.keys at *
  exact ((List.filter_sublist m).map Prod.fst).nodup hnd

theorem GoMap.get_filter_of_pass {α : Type} (m : GoMap α) (p : String × α → Bool) (k : String)
    (v : α) (hget : m.get k = some v) (hp : p (k, v) = true) :
    GoMap.get (m.filter p) k = some v := by
  unfold GoMap.get at *
  induction m with
  | nil => simp at hget
  | cons e m ih =>
    obtain ⟨a, b⟩ := e
    rw [List.lookup_cons] at hget
    by_cases hak : k = a
    · subst hak
      simp only [beq_self_eq_true, Option.some.injEq] at hget
      subst hget
      simp [List.filter_cons, hp, List.lookup_cons]
    · have hb : (k == a) = false := by simpa using hak
      simp only [hb] at hget
      by_cases hpa : p (a, b) = true
      · simp [List.filter_cons, hpa, List.lookup_cons, hb, ih hget]
      · simp [List.filter_cons, hpa, ih hget]

theorem GoMap.get_filter_nodup {α : Type} (m : GoMap α) (p : String × α → Bool) (k : String)
    (hnd : m.keys.Nodup) :
    GoMap.get (m.filter p) k =
      match m.get k with
      | some v => if p (k, v) then some v else none
      | none => none := by
  cases hget : m.get k with
  | none =>
    simp only
    rw [GoMap.get_eq_none_iff] at hget ⊢
    intro hmem
    apply hget
    unfold GoMap.keys at *
    exact ((List.filter_sublist m).map Prod.fst).subset hmem
  | some v =>
    simp only
    by_cases hp : p (k, v) = true
    · rw [if_pos hp]
      exact GoMap.get_filter_of_pass m p k v hget hp
    · rw [if_neg hp]
      rw [GoMap.get_eq_none_iff]
      intro hmem
      unfold GoMap.keys at hmem
      obtain ⟨⟨a, b⟩, hab, hk⟩ := List.mem_map.mp hmem
      simp only at hk
      subst hk
      have hin := (List.mem_filter.mp hab)
      have hget' := GoMap.mem_get_of_nodup m a b hnd hin.1
      rw [hget] at hget'
      cases hget'
      exact hp hin.2

/-! ## Inventory fetcher -/

theorem mergeDescriptions_append (m : GoMap Description) (ds es : List Description) :
    mergeDescriptions m (ds ++ es) = mergeDescriptions (mergeDescriptions m ds) es := by
  unfold mergeDescriptions
  rw [List.foldl_append]

theorem mergeDescriptions_get (ds : List Description) (m : GoMap Description) (k : String) :
    (mergeDescriptions m ds).get k = (m.get k).or (ds.find? (fun d => descKey d == k)) := by
  induction ds generalizing m with
  | nil => simp [mergeDescriptions]
  | cons d ds ih =>
    have hstep : mergeDescriptions m (d :: ds) =
        mergeDescriptions (if (m.get (descKey d)).isSome then m else m.set (descKey d) d) ds := by
      simp [mergeDescriptions]
    rw [hstep, ih, List.find?_cons]
    by_cases hk : descKey d = k
    · subst hk
      cases hg : m.get (descKey d) with
      | none => simp [GoMap.get_set, hg]
      | some v => simp [hg]
    · have hb : (descKey d == k) = false := by simpa using hk
      simp only [hb]
      split
      · rfl
      · rw [GoMap.get_set, if_neg (Ne.symm hk)]

theorem mergeDescriptions_nodup (ds : List Description) (m : GoMap Description)
    (hnd : m.keys.Nodup) : (mergeDescriptions m ds).keys.Nodup := by
  induction ds generalizing m with
  | nil => simpa [mergeDescriptions] using hnd
  | cons d ds ih =>
    have hstep : mergeDescriptions m (d :: ds) =
        mergeDescriptions (if (m.get (descKey d)).isSome then m else m.set (descKey d) d) ds := by
      simp [mergeDescriptions]
    rw [hstep]
    apply ih
    split
    · exact hnd
    · exact GoMap.keys_set_nodup m _ _ hnd

/-- What the loop has accumulated when it stops, for a run that accepts exactly `ps`. -/
theorem fetchLoop_acceptedRun (server : Nat → String → HttpResult)
    (steamID appID contextID : String) (ps : List SteamInventoryResponse) :
    ∀ (st : FetchState) (fuel : Nat),
      AcceptedRun server steamID appID contextID st.page st.startAssetID ps →
      ps.length < fuel →
      ∃ st', fetchLoop server steamID appID contextID fuel st = some st' ∧
        st'.allAssets = st.allAssets ++ allPageAssets ps ∧
        st'.descMap = mergeDescriptions st.descMap (allPageDescriptions ps) ∧
        st'.totalCount = lastTotal st.totalCount ps := by
  induction ps with
  | nil =>
    intro st fuel hrun hfuel
    obtain ⟨f, rfl⟩ : ∃ f, fuel = f + 1 := ⟨fuel - 1, by simp at hfuel; omega⟩
    simp only [AcceptedRun] at hrun
    simp only [fetchLoop]
    cases hs : server (st.page + 1) (apiURL steamID appID contextID st.startAssetID) with
    | transportError =>
      exact ⟨_, rfl, by simp [allPageAssets], by simp [allPageDescriptions, mergeDescriptions],
        by simp [lastTotal]⟩
    | response code body =>
      rw [hs] at hrun
      cases body with
      | none =>
        by_cases hc : code = 200
        · simp only [hc, ne_eq, not_true_eq_false, if_false]
          exact ⟨_, rfl, by simp [allPageAssets], by simp [allPageDescriptions, mergeDescriptions],
            by simp [lastTotal]⟩
        · simp only [ne_eq, hc, not_false_eq_true, if_true]
          exact ⟨_, rfl, by simp [allPageAssets], by simp [allPageDescriptions, mergeDescriptions],
            by simp [lastTotal]⟩
      | some inv =>
        by_cases hc : code = 200
        · have hsx : inv.Success ≠ 1 := by
            simpa [HttpResult.failing, hc] using hrun
          simp only [hc, ne_eq, not_true_eq_false, if_false, hsx, not_false_eq_true, if_true]
          exact ⟨_, rfl, by simp [allPageAssets], by simp [allPageDescriptions, mergeDescriptions],
            by simp [lastTotal]⟩
        · simp only [ne_eq, hc, not_false_eq_true, if_true]
          exact ⟨_, rfl, by simp [allPageAssets], by simp [allPageDescriptions, mergeDescriptions],
            by simp [lastTotal]⟩
  | cons p ps ih =>
    intro st fuel hrun hfuel
    obtain ⟨f, rfl⟩ : ∃ f, fuel = f + 1 := ⟨fuel - 1, by simp at hfuel; omega⟩
    simp only [AcceptedRun] at hrun
    obtain ⟨hserve, hsucc, hrest⟩ := hrun
    simp only [fetchLoop, hserve, ne_eq, not_true_eq_false, if_false, hsucc]
    by_cases hcont : p.MoreItems = 1 ∧ p.LastAssetID ≠ ""
    · rw [if_pos hcont] at hrest
      have hnot : ¬ (¬ p.MoreItems = 1 ∨ p.LastAssetID = "") := by
        rintro (h | h)
        · exact h hcont.1
        · exact hcont.2 h
      rw [if_neg hnot]
      obtain ⟨st', hrun', ha, hd, ht⟩ := ih
        { allAssets := st.allAssets ++ p.Assets
          descMap := mergeDescriptions st.descMap p.Descriptions
          totalCount := p.TotalCount
          startAssetID := p.LastAssetID
          page := st.page + 1
          requests := st.requests ++ [apiURL steamID appID contextID st.startAssetID] }
        f hrest (by simp at hfuel; omega)
      refine ⟨st', hrun', ?_, ?_, ?_⟩
      · rw [ha]; simp [allPageAssets]
      · rw [hd]; simp [allPageDescriptions, mergeDescriptions_append]
      · rw [ht]
        cases ps with
        | nil => simp [lastTotal]
        | cons q qs =>
          obtain ⟨l, hl⟩ : ∃ l, (q :: qs).getLast? = some l :=
            ⟨_, List.getLast?_eq_getLast _ (by simp)⟩
          simp [lastTotal, List.getLast?_cons_cons, hl]
    · rw [if_neg hcont] at hrest
      subst hrest
      have hyes : (¬ p.MoreItems = 1 ∨ p.LastAssetID = "") := by
        by_cases h1 : p.MoreItems = 1
        · right
          by_contra h2
          exact hcont ⟨h1, h2⟩
        · left; exact h1
      rw [if_pos hyes]
      exact ⟨_, rfl, by simp [allPageAssets], by simp [allPageDescriptions], by simp [lastTotal]⟩


/-- Every run of the loop that returns is a run over some list of accepted pages. -/
theorem fetchLoop_some_acceptedRun (server : Nat → String → HttpResult)
    (steamID appID contextID : String) (fuel : Nat) :
    ∀ (st st' : FetchState), fetchLoop server steamID appID contextID fuel st = some st' →
      ∃ ps, AcceptedRun server steamID appID contextID st.page st.startAssetID ps ∧
        ps.length ≤ fuel := by
  induction fuel with
  | zero => intro st st' h; simp [fetchLoop] at h
  | succ f ih =>
    intro st st' h
    simp only [fetchLoop] at h
    cases hs : server (st.page + 1) (apiURL steamID appID contextID st.startAssetID) with
    | transportError =>
      exact ⟨[], by simp [AcceptedRun, hs, HttpResult.failing], by simp⟩
    | response code body =>
      rw [hs] at h
      by_cases hc : code = 200
      · subst hc
        cases body with
        | none => exact ⟨[], by simp [AcceptedRun, hs, HttpResult.failing], by simp⟩
        | some inv =>
          by_cases hsucc : inv.Success = 1
          · by_cases hstop : ¬ inv.MoreItems = 1 ∨ inv.LastAssetID = ""
            · refine ⟨[inv], ?_, by simp⟩
              have hnc : ¬ (inv.MoreItems = 1 ∧ inv.LastAssetID ≠ "") := by
                rintro ⟨h1, h2⟩
                rcases hstop with h3 | h3
                · exact h3 h1
                · exact h2 h3
              simp [AcceptedRun, hs, hsucc, hnc]
            · simp only [ne_eq, not_true_eq_false, if_false, hsucc, hstop] at h
              obtain ⟨ps, hps, hlen⟩ := ih _ _ h
              refine ⟨inv :: ps, ?_, by simp; omega⟩
              have hcont : inv.MoreItems = 1 ∧ inv.LastAssetID ≠ "" := by
                constructor
                · by_contra h1; exact hstop (Or.inl h1)
                · intro h2; exact hstop (Or.inr h2)
              simp only [AcceptedRun, hs, hsucc, true_and]
              rw [if_pos hcont]
              exact hps
          · exact ⟨[], by simp [AcceptedRun, hs, HttpResult.failing, hsucc], by simp⟩
      · exact ⟨[], by
          cases body <;> simp [AcceptedRun, hs, HttpResult.failing, hc], by simp⟩

theorem acceptedRun_of_servedPages (server : Nat → String → HttpResult)
    (steamID appID contextID : String) (ps : List SteamInventoryResponse) :
    ∀ (n : Nat) (cursor : String),
      ServedPages server steamID appID contextID n cursor ps →
      (server (n + ps.length + 1)
        (apiURL steamID appID contextID (cursorAfter cursor ps))).failing = true →
      AcceptedRun server steamID appID contextID n cursor ps := by
  induction ps with
  | nil =>
    intro n cursor _ hfail
    simpa [AcceptedRun, cursorAfter] using hfail
  | cons p ps ih =>
    intro n cursor hserved hfail
    simp only [ServedPages] at hserved
    obtain ⟨hserve, hsucc, hmore, hlast, hrest⟩ := hserved
    simp only [AcceptedRun]
    refine ⟨hserve, hsucc, ?_⟩
    rw [if_pos ⟨hmore, hlast⟩]
    apply ih (n + 1) p.LastAssetID hrest
    have hcur : cursorAfter cursor (p :: ps) = cursorAfter p.LastAssetID ps := by
      cases ps with
      | nil => simp [cursorAfter]
      | cons q qs =>
        obtain ⟨l, hl⟩ : ∃ l, (q :: qs).getLast? = some l :=
          ⟨_, List.getLast?_eq_getLast _ (by simp)⟩
        simp [cursorAfter, List.getLast?_cons_cons, hl]
    have hidx : n + 1 + ps.length + 1 = n + (p :: ps).length + 1 := by
      simp only [List.length_cons]; omega
    rw [hidx, ← hcur]
    exact hfail

theorem mergeDescriptions_empty_get (ds : List Description) (k : String) :
    (mergeDescriptions [] ds).get k = ds.find? (fun d => descKey d == k) := by
  rw [mergeDescriptions_get]
  simp [GoMap.get]

theorem mergeDescriptions_empty_key (ds : List Description) (k : String) (d : Description)
    (h : (k, d) ∈ mergeDescriptions [] ds) : k = descKey d := by
  have hnd : (mergeDescriptions [] ds).keys.Nodup :=
    mergeDescriptions_nodup ds [] (by simp [GoMap.keys])
  have hget := GoMap.mem_get_of_nodup _ k d hnd h
  rw [mergeDescriptions_empty_get] at hget
  have := List.find?_some hget
  simp only [beq_iff_eq] at this
  exact this.symm

theorem rangeOrder_descKeys (rangeOrder : GoMap Description → GoMap Description)
    (hperm : ∀ m, (rangeOrder m).Perm m) (ds : List Description) :
    ((rangeOrder (mergeDescriptions [] ds)).values.map descKey).Perm
      (mergeDescriptions [] ds).keys := by
  have h1 : (rangeOrder (mergeDescriptions [] ds)).values.map descKey
      = (rangeOrder (mergeDescriptions [] ds)).keys := by
    unfold GoMap.values GoMap.keys
    rw [List.map_map]
    apply List.map_congr_left
    rintro ⟨k, d⟩ hmem
    have := mergeDescriptions_empty_key ds k d ((hperm _).mem_iff.mp hmem)
    simp [this]
  rw [h1]
  exact (hperm _).map Prod.fst

theorem mem_rangeOrder_values (rangeOrder : GoMap Description → GoMap Description)
    (hperm : ∀ m, (rangeOrder m).Perm m) (ds : List Description) (d : Description) :
    d ∈ (rangeOrder (mergeDescriptions [] ds)).values ↔
      ds.find? (fun e => descKey e == descKey d) = some d := by
  have hnd : (mergeDescriptions [] ds).keys.Nodup :=
    mergeDescriptions_nodup ds [] (by simp [GoMap.keys])
  constructor
  · intro hmem
    obtain ⟨⟨k, d'⟩, hkd, hd⟩ := List.mem_map.mp hmem
    simp only at hd
    subst hd
    have hin := (hperm _).mem_iff.mp hkd
    have hk := mergeDescriptions_empty_key ds k d' hin
    subst hk
    rw [← mergeDescriptions_empty_get]
    exact GoMap.mem_get_of_nodup _ _ _ hnd hin
  · intro hfind
    rw [← mergeDescriptions_empty_get] at hfind
    have hin := GoMap.get_eq_some_mem _ _ _ hfind
    exact List.mem_map.mpr ⟨(descKey d, d), (hperm _).mem_iff.mpr hin, rfl⟩

/-- C1. For every run of `fetchAllInventory` that accepts exactly the pages `pages`
(and every iteration order of the map), the call returns, the returned description
list has no two descriptions with the same key `ClassID + "_" + InstanceID`, every
returned description is the first one with its key among the descriptions of the
accepted pages (page order, then within-page order), and every key that occurs in an
accepted page is represented in the result by that first description. -/
theorem fetchAllInventory_descriptions_first_wins
    (rangeOrder : GoMap Description → GoMap Description)
    (server : Nat → String → HttpResult) (steamID appID contextID : String)
    (pages : List SteamInventoryResponse) (fuel : Nat)
    (hperm : ∀ m, (rangeOrder m).Perm m)
    (hrun : AcceptedRun server steamID appID contextID 0 "" pages)
    (hfuel : pages.length < fuel) :
    ∃ assets descs total,
      fetchAllInventory rangeOrder server steamID appID contextID fuel
        = some (assets, descs, total) ∧
      (descs.map descKey).Nodup ∧
      (∀ d ∈ descs,
        (allPageDescriptions pages).find? (fun e => descKey e == descKey d) = some d) ∧
      (∀ e ∈ allPageDescriptions pages, ∃ d ∈ descs, descKey d = descKey e ∧
        (allPageDescriptions pages).find? (fun x => descKey x == descKey e) = some d) := by
  obtain ⟨st, hst, _, hd, _⟩ :=
    fetchLoop_acceptedRun server steamID appID contextID pages FetchState.init fuel hrun hfuel
  have hd' : st.descMap = mergeDescriptions [] (allPageDescriptions pages) := hd
  refine ⟨st.allAssets, (rangeOrder st.descMap).values, st.totalCount, ?_, ?_, ?_, ?_⟩
  · simp [fetchAllInventory, hst]
  · rw [hd']
    exact ((rangeOrder_descKeys rangeOrder hperm _).nodup_iff).mpr
      (mergeDescriptions_nodup _ [] (by simp [GoMap.keys]))
  · intro d hmem
    rw [hd'] at hmem
    exact (mem_rangeOrder_values rangeOrder hperm _ d).mp hmem
  · intro e he
    cases hf : (allPageDescriptions pages).find? (fun x => descKey x == descKey e) with
    | none =>
      have := List.find?_eq_none.mp hf e he
      simp at this
    | some d =>
      have hkey : descKey d = descKey e := by
        have := List.find?_some hf
        simpa using this
      refine ⟨d, ?_, hkey, rfl⟩
      rw [hd']
      apply (mem_rangeOrder_values rangeOrder hperm _ d).mpr
      rw [hkey]
      exact hf

/-- C2. For every run of `fetchAllInventory` that accepts exactly the pages `pages`,
the call returns and the returned asset list is the concatenation of the pages' asset
lists, in page order and with each page's own order. -/
theorem fetchAllInventory_assets_concat
    (rangeOrder : GoMap Description → GoMap Description)
    (server : Nat → String → HttpResult) (steamID appID contextID : String)
    (pages : List SteamInventoryResponse) (fuel : Nat)
    (hrun : AcceptedRun server steamID appID contextID 0 "" pages)
    (hfuel : pages.length < fuel) :
    ∃ descs total,
      fetchAllInventory rangeOrder server steamID appID contextID fuel
        = some ((pages.map (·.Assets)).flatten, descs, total) := by
  obtain ⟨st, hst, ha, _, _⟩ :=
    fetchLoop_acceptedRun server steamID appID contextID pages FetchState.init fuel hrun hfuel
  refine ⟨(rangeOrder st.descMap).values, st.totalCount, ?_⟩
  have ha' : st.allAssets = (pages.map (·.Assets)).flatten := by
    rw [ha]
    simp [FetchState.init, allPageAssets, List.flatMap]
  simp [fetchAllInventory, hst, ha']

/-- C3. For every run of `fetchAllInventory` that accepts exactly the pages `pages`,
the call returns and the returned total count is the `total_inventory_count` of the
last accepted page, and 0 when no page was accepted. -/
theorem fetchAllInventory_total_is_last
    (rangeOrder : GoMap Description → GoMap Description)
    (server : Nat → String → HttpResult) (steamID appID contextID : String)
    (pages : List SteamInventoryResponse) (fuel : Nat)
    (hrun : AcceptedRun server steamID appID contextID 0 "" pages)
    (hfuel : pages.length < fuel) :
    ∃ assets descs,
      fetchAllInventory rangeOrder server steamID appID contextID fuel
        = some (assets, descs,
            match pages.getLast? with
            | some last => last.TotalCount
            | none => 0) := by
  obtain ⟨st, hst, _, _, ht⟩ :=
    fetchLoop_acceptedRun server steamID appID contextID pages FetchState.init fuel hrun hfuel
  refine ⟨st.allAssets, (rangeOrder st.descMap).values, ?_⟩
  have ht' : st.totalCount = (match pages.getLast? with
      | some last => last.TotalCount
      | none => 0) := by
    rw [ht]
    cases hl : pages.getLast? <;> simp [lastTotal, FetchState.init, hl]
  simp [fetchAllInventory, hst, ht']

/-- C4. When the server hands out the pages `pages`, each accepted and each reporting
more items and a cursor, and then answers the next request with a failing response,
`fetchAllInventory` returns exactly what those pages accumulated: their assets, the
first-wins merge of their descriptions and the total of the last of them. -/
theorem fetchAllInventory_keeps_accumulated
    (rangeOrder : GoMap Description → GoMap Description)
    (server : Nat → String → HttpResult) (steamID appID contextID : String)
    (pages : List SteamInventoryResponse) (fuel : Nat)
    (hserved : ServedPages server steamID appID contextID 0 "" pages)
    (hfail : (server (pages.length + 1)
      (apiURL steamID appID contextID (cursorAfter "" pages))).failing = true)
    (hfuel : pages.length < fuel) :
    fetchAllInventory rangeOrder server steamID appID contextID fuel
      = some (allPageAssets pages,
          (rangeOrder (mergeDescriptions [] (allPageDescriptions pages))).values,
          lastTotal 0 pages) := by
  have hrun : AcceptedRun server steamID appID contextID 0 "" pages :=
    acceptedRun_of_servedPages server steamID appID contextID pages 0 "" hserved
      (by simpa using hfail)
  obtain ⟨st, hst, ha, hd, ht⟩ :=
    fetchLoop_acceptedRun server steamID appID contextID pages FetchState.init fuel hrun hfuel
  have ha' : st.allAssets = allPageAssets pages := by rw [ha]; simp [FetchState.init]
  have hd' : st.descMap = mergeDescriptions [] (allPageDescriptions pages) := hd
  have ht' : st.totalCount = lastTotal 0 pages := ht
  simp [fetchAllInventory, hst, ha', hd', ht']

/-- Witness for C1: two pages, the second redefining the key `c1_i1`, map ranged in reverse. -/
theorem fetchAllInventory_descriptions_first_wins_witness :
    ∃ assets descs total,
      fetchAllInventory List.reverse demoServer "765" "730" "2" 3
        = some (assets, descs, total) ∧
      (descs.map descKey).Nodup ∧
      (∀ d ∈ descs,
        (allPageDescriptions [demoPage1, demoPage2]).find?
          (fun e => descKey e == descKey d) = some d) ∧
      (∀ e ∈ allPageDescriptions [demoPage1, demoPage2], ∃ d ∈ descs,
        descKey d = descKey e ∧
        (allPageDescriptions [demoPage1, demoPage2]).find?
          (fun x => descKey x == descKey e) = some d) :=
  fetchAllInventory_descriptions_first_wins List.reverse demoServer "765" "730" "2"
    [demoPage1, demoPage2] 3 (fun m => List.reverse_perm m)
    (by simp [AcceptedRun, demoServer, apiURL, demoPage1, demoPage2]) (by decide)

/-- Witness for C2: the assets of the two demo pages, in page order. -/
theorem fetchAllInventory_assets_concat_witness :
    ∃ descs total,
      fetchAllInventory id demoServer "765" "730" "2" 3
        = some (([demoPage1, demoPage2].map (·.Assets)).flatten, descs, total) :=
  fetchAllInventory_assets_concat id demoServer "765" "730" "2" [demoPage1, demoPage2] 3
    (by simp [AcceptedRun, demoServer, apiURL, demoPage1, demoPage2]) (by decide)

/-- Witness for C3: the pages report totals 3 and 7; the result carries the last one. -/
theorem fetchAllInventory_total_is_last_witness :
    ∃ assets descs,
      fetchAllInventory id demoServer "765" "730" "2" 3
        = some (assets, descs,
            match [demoPage1, demoPage2].getLast? with
            | some last => last.TotalCount
            | none => 0) :=
  fetchAllInventory_total_is_last id demoServer "765" "730" "2" [demoPage1, demoPage2] 3
    (by simp [AcceptedRun, demoServer, apiURL, demoPage1, demoPage2]) (by decide)

/-- Witness for C4: two continuing pages, then a body with success flag 0. -/
theorem fetchAllInventory_keeps_accumulated_witness :
    fetchAllInventory id demoFailingServer "765" "730" "2" 3
      = some (allPageAssets [demoPage1, demoPage2More],
          (id (mergeDescriptions [] (allPageDescriptions [demoPage1, demoPage2More]))).values,
          lastTotal 0 [demoPage1, demoPage2More]) :=
  fetchAllInventory_keeps_accumulated id demoFailingServer "765" "730" "2"
    [demoPage1, demoPage2More] 3
    (by simp [ServedPages, demoFailingServer, demoPage1, demoPage2More, demoPage2])
    (by simp [demoFailingServer, HttpResult.failing, demoRejectedPage]) (by decide)

/-- The demo run evaluated: the first description of `c1_i1` is the one returned and the
total is that of the last page, not the sum 10. -/
theorem fetchAllInventory_demo_eval :
    fetchAllInventory List.reverse demoServer "765" "730" "2" 3
      = some ([demoAsset "A1" "c1" "i1", demoAsset "A2" "c2" "i0", demoAsset "A3" "c1" "i1"],
          [demoDesc "c1" "i1" "first" "AK" 1, demoDesc "c2" "i0" "case" "" 1], 7) := by
  decide

/-- The failing demo run evaluated: nothing of the rejected body is in the result. -/
theorem fetchAllInventory_demo_failing_eval :
    fetchAllInventory List.reverse demoFailingServer "765" "730" "2" 3
      = some ([demoAsset "A1" "c1" "i1", demoAsset "A2" "c2" "i0", demoAsset "A3" "c1" "i1"],
          [demoDesc "c1" "i1" "first" "AK" 1, demoDesc "c2" "i0" "case" "" 1], 7) := by
  decide

/-! ## Result cache -/

theorem Cache.run_ttl {F : Type} (ops : List (CacheOp F)) (c : Cache F) :
    (c.run ops).ttl = c.ttl := by
  induction ops generalizing c with
  | nil => rfl
  | cons op ops ih =>
    have : c.run (op :: ops) = (c.step op).run ops := rfl
    rw [this, ih]
    cases op <;> rfl

theorem Cache.run_keys_nodup {F : Type} (ops : List (CacheOp F)) (c : Cache F)
    (hnd : c.items.keys.Nodup) : (c.run ops).items.keys.Nodup := by
  induction ops generalizing c with
  | nil => exact hnd
  | cons op ops ih =>
    have : c.run (op :: ops) = (c.step op).run ops := rfl
    rw [this]
    apply ih
    cases op with
    | Set now now2 key data => exact GoMap.keys_set_nodup _ _ _ hnd
    | Get now key => exact hnd
    | cleanupTick now => exact GoMap.keys_filter_nodup _ _ hnd

/-- A binding that no operation overwrites and no sweep is late enough to delete survives. -/
theorem Cache.run_get_preserved {F : Type} (ops : List (CacheOp F)) (c : Cache F) (k : String)
    (e : CachedInventory F) (bound : Int) (hget : c.items.get k = some e)
    (hexp : bound ≤ e.ExpiresAt)
    (hno : ∀ op ∈ ops, op.setsKey k = false) (htime : ∀ op ∈ ops, op.time ≤ bound) :
    (c.run ops).items.get k = some e := by
  induction ops generalizing c with
  | nil => exact hget
  | cons op ops ih =>
    have hrun : c.run (op :: ops) = (c.step op).run ops := rfl
    rw [hrun]
    apply ih
    · have h1 := hno op (List.mem_cons_self _ _)
      have h2 := htime op (List.mem_cons_self _ _)
      cases op with
      | Set now now2 key data =>
        have hne : k ≠ key := by
          intro h
          simp [CacheOp.setsKey, h] at h1
        simp only [Cache.step, Cache.Set]
        rw [GoMap.get_set, if_neg hne]
        exact hget
      | Get now key => exact hget
      | cleanupTick now =>
        simp only [Cache.step, Cache.cleanupTick]
        apply GoMap.get_filter_of_pass _ _ _ _ hget
        simp only [CacheOp.time] at h2
        simp only [gt_iff_lt, Bool.not_eq_true', decide_eq_false_iff_not, not_lt]
        omega
    · intro op' hop'
      exact hno op' (List.mem_cons_of_mem _ hop')
    · intro op' hop'
      exact htime op' (List.mem_cons_of_mem _ hop')

/-- As long as `k` is not set again, every binding of `k` keeps the given expiry. -/
theorem Cache.run_expiry_invariant {F : Type} (ops : List (CacheOp F)) (c : Cache F) (k : String)
    (x : Int) (hinv : ∀ e, (k, e) ∈ c.items → e.ExpiresAt = x)
    (hno : ∀ op ∈ ops, op.setsKey k = false) :
    ∀ e, (k, e) ∈ (c.run ops).items → e.ExpiresAt = x := by
  induction ops generalizing c with
  | nil => exact hinv
  | cons op ops ih =>
    have hrun : c.run (op :: ops) = (c.step op).run ops := rfl
    rw [hrun]
    apply ih
    · have h1 := hno op (List.mem_cons_self _ _)
      cases op with
      | Set now now2 key data =>
        have hne : k ≠ key := by
          intro h
          simp [CacheOp.setsKey, h] at h1
        intro e he
        simp only [Cache.step, Cache.Set, GoMap.set] at he
        rcases List.mem_cons.mp he with heq | hmem
        · exact absurd (congrArg Prod.fst heq) hne
        · exact hinv e (List.mem_filter.mp hmem).1
      | Get now key => exact hinv
      | cleanupTick now =>
        intro e he
        simp only [Cache.step, Cache.cleanupTick] at he
        exact hinv e (List.mem_filter.mp he).1
    · intro op' hop'
      exact hno op' (List.mem_cons_of_mem _ hop')

/-- C5. For every cache state, key `k`, value `v`, TTL at least 0 and instants
`t ≤ t' ≤ t + TTL`: after `Set(k, v)` at `t`, followed by any operations up to `t'`
of which none is a `Set` for `k` (sets of other keys, reads, sweeps), `Get(k)` at
`t'` returns `(v, true)`, whatever `k` was bound to before. -/
theorem Cache_Get_after_Set {F : Type} (c : Cache F) (k : String) (v : List (InventoryItem F))
    (t t2 t' : Int) (ops : List (CacheOp F))
    (_httl : 0 ≤ c.ttl) (_htt' : t ≤ t') (hwithin : t' ≤ t + c.ttl)
    (hno : ∀ op ∈ ops, op.setsKey k = false)
    (hbetween : ∀ op ∈ ops, op.time ≤ t') :
    ((c.Set t t2 k v).run ops).Get t' k = (v, true) := by
  have hget : (c.Set t t2 k v).items.get k
      = some { Data := v, ExpiresAt := t + c.ttl, CreatedAt := t2 } := by
    simp [Cache.Set, GoMap.get_set]
  have hkeep := Cache.run_get_preserved ops (c.Set t t2 k v) k _ t' hget hwithin hno hbetween
  unfold Cache.Get
  rw [hkeep]
  simp only [gt_iff_lt]
  rw [if_neg (by omega)]

/-- C6 (amended). For every cache state, key and instant `now`, `Get` returns the
stored data with found = true exactly when a binding for the key is present and
`now` is not after its expiry instant (`now ≤ ExpiresAt`, the expiry instant itself
included); in every other case, a binding still physically present included, it
returns the empty result with found = false. -/
theorem Cache_Get_found_iff {F : Type} (c : Cache F) (now : Int) (key : String) :
    (∀ item, c.items.get key = some item → now ≤ item.ExpiresAt →
      c.Get now key = (item.Data, true)) ∧
    ((¬ ∃ item, c.items.get key = some item ∧ now ≤ item.ExpiresAt) →
      c.Get now key = ([], false)) := by
  constructor
  · intro item hitem hle
    unfold Cache.Get
    rw [hitem]
    simp only [gt_iff_lt]
    rw [if_neg (by omega)]
  · intro hnone
    unfold Cache.Get
    cases hitem : c.items.get key with
    | none => rfl
    | some item =>
      simp only [gt_iff_lt]
      have : item.ExpiresAt < now := by
        by_contra hlt
        exact hnone ⟨item, hitem, by omega⟩
      rw [if_pos this]

/-- C7. In every run of the cache from `NewCache`: (1) a `Get` that reports found
returns the data of a binding whose expiry instant is not earlier than the instant
of the read; (2) after `Set(k, v)` at `t0` and any further operations without a
`Set` for `k` (any number of sweeps, at any instants), `Get(k)` at an instant later
than `t0 + TTL` reports not-found; (3) a sweep at instant `s` does not change the
result of a `Get` at an instant `t' ≥ s`. -/
theorem Cache_never_returns_expired {F : Type} (ttl : Int) (ops0 ops1 : List (CacheOp F))
    (k k' : String) (v : List (InventoryItem F)) (t0 t02 t s t' : Int)
    (hno : ∀ op ∈ ops1, op.setsKey k = false)
    (hlate : t0 + ttl < t) (hs : s ≤ t') :
    (∀ key now data, ((NewCache F ttl).run ops0).Get now key = (data, true) →
      ∃ item, ((NewCache F ttl).run ops0).items.get key = some item ∧
        item.Data = data ∧ ¬ item.ExpiresAt < now) ∧
    ((((NewCache F ttl).run ops0).Set t0 t02 k v).run ops1).Get t k = ([], false) ∧
    (((NewCache F ttl).run ops0).cleanupTick s).Get t' k' = ((NewCache F ttl).run ops0).Get t' k' := by
  have hnd : ((NewCache F ttl).run ops0).items.keys.Nodup :=
    Cache.run_keys_nodup ops0 _ (by simp [NewCache, GoMap.keys])
  have httl : ((NewCache F ttl).run ops0).ttl = ttl := Cache.run_ttl ops0 _
  generalize (NewCache F ttl).run ops0 = c at hnd httl
  refine ⟨?_, ?_, ?_⟩
  · intro key now data hget
    unfold Cache.Get at hget
    cases hitem : c.items.get key with
    | none => simp [hitem] at hget
    | some item =>
      simp only [hitem, gt_iff_lt] at hget
      by_cases hlt : item.ExpiresAt < now
      · simp [hlt] at hget
      · rw [if_neg hlt] at hget
        exact ⟨item, rfl, (Prod.mk.inj hget).1, hlt⟩
  · have hinv := Cache.run_expiry_invariant ops1 (c.Set t0 t02 k v) k (t0 + ttl)
      (by
        intro e he
        simp only [Cache.Set, GoMap.set] at he
        rcases List.mem_cons.mp he with heq | hmem
        · cases heq
          simp [httl]
        · have := (List.mem_filter.mp hmem).2
          simp at this) hno
    unfold Cache.Get
    cases hitem : ((c.Set t0 t02 k v).run ops1).items.get k with
    | none => rfl
    | some item =>
      have hexp := hinv item (GoMap.get_eq_some_mem _ _ _ hitem)
      simp only [gt_iff_lt]
      rw [if_pos (by omega)]
  · unfold Cache.Get
    simp only [Cache.cleanupTick]
    rw [GoMap.get_filter_nodup _ _ _ hnd]
    cases hitem : c.items.get k' with
    | none => rfl
    | some item =>
      simp only [gt_iff_lt, Bool.not_eq_true', decide_eq_false_iff_not, not_lt]
      by_cases hexp : s ≤ item.ExpiresAt
      · simp [hexp]
      · have h1 : item.ExpiresAt < t' := by omega
        simp [hexp, h1]

/-- Witness for C5: `k` is overwritten at instant 5; reads, a set of another key and a
sweep follow; the read at instant 15 = 5 + TTL still finds the new value. -/
theorem Cache_Get_after_Set_witness :
    ((demoCache.Set 5 5 "k" [demoItem, demoItem]).run
        [.Get 6 "k", .Set 7 7 "other" [], .cleanupTick 12]).Get 15 "k"
      = ([demoItem, demoItem], true) :=
  Cache_Get_after_Set demoCache "k" [demoItem, demoItem] 5 5 15
    [.Get 6 "k", .Set 7 7 "other" [], .cleanupTick 12]
    (by decide) (by decide) (by decide) (by decide) (by decide)

/-- Witness for C6 (amended): the binding of `k` expires at instant 10 and is read at 10. -/
theorem Cache_Get_found_iff_witness :
    demoCache.Get 10 "k" = ([demoItem], true) :=
  (Cache_Get_found_iff demoCache 10 "k").1
    { Data := [demoItem], ExpiresAt := 10, CreatedAt := 0 } (by decide) (by decide)

/-- Counterexample for C6 as stated: `Set` at instant 0 with TTL 10 gives expiry instant 10;
`Get` at instant 10 reports found although 10 is not before 10, so found does not
coincide with "present and read before the expiry instant". -/
theorem Cache_Get_at_expiry_instant :
    demoCache.items.get "k" = some { Data := [demoItem], ExpiresAt := 10, CreatedAt := 0 } ∧
    demoCache.Get 10 "k" = ([demoItem], true) ∧
    ¬ ((demoCache.Get 10 "k").2 = true ↔
        ∃ item, demoCache.items.get "k" = some item ∧ 10 < item.ExpiresAt) := by
  refine ⟨by decide, by decide, ?_⟩
  intro h
  obtain ⟨item, hitem, hlt⟩ := h.mp (by decide)
  have hk : demoCache.items.get "k"
      = some { Data := [demoItem], ExpiresAt := 10, CreatedAt := 0 } := by decide
  rw [hk] at hitem
  cases hitem
  exact absurd hlt (by decide)

/-- Witness for C7: TTL 10, `k` set at instant 1, sweeps at instants 3 and 40 in between,
read at instant 12; and a sweep at instant 11 before a read of `a` at instant 11. -/
theorem Cache_never_returns_expired_witness :
    (∀ key now data,
      ((NewCache Int 10).run [.Set 0 0 "a" [demoItem]]).Get now key = (data, true) →
      ∃ item, ((NewCache Int 10).run [.Set 0 0 "a" [demoItem]]).items.get key = some item ∧
        item.Data = data ∧ ¬ item.ExpiresAt < now) ∧
    ((((NewCache Int 10).run [.Set 0 0 "a" [demoItem]]).Set 1 1 "k" [demoItem]).run
        [.cleanupTick 3, .cleanupTick 40, .Get 4 "k"]).Get 12 "k" = ([], false) ∧
    (((NewCache Int 10).run [.Set 0 0 "a" [demoItem]]).cleanupTick 11).Get 11 "a"
      = ((NewCache Int 10).run [.Set 0 0 "a" [demoItem]]).Get 11 "a" :=
  Cache_never_returns_expired 10 [.Set 0 0 "a" [demoItem]]
    [.cleanupTick 3, .cleanupTick 40, .Get 4 "k"] "k" "a" [demoItem] 1 1 12 11 11
    (by decide) (by decide) (by decide)

/-! ## Join of assets and descriptions -/

theorem foldl_set_get (ds : List Description) (m : GoMap Description) (k : String) :
    GoMap.get (ds.foldl (fun m desc => m.set (descKey desc) desc) m) k =
      (ds.reverse.find? (fun d => descKey d == k)).or (m.get k) := by
  induction ds generalizing m with
  | nil => simp
  | cons d ds ih =>
    rw [List.foldl_cons, ih, GoMap.get_set, List.reverse_cons, List.find?_append]
    by_cases hk : k = descKey d
    · subst hk
      cases List.find? (fun e => descKey e == descKey d) ds.reverse <;> simp
    · have hb : (descKey d == k) = false := by simpa using Ne.symm hk
      rw [if_neg hk]
      simp [List.find?_cons, hb]

theorem buildDescMap_get (ds : List Description) (k : String) :
    (buildDescMap ds).get k = ds.reverse.find? (fun d => descKey d == k) := by
  unfold buildDescMap
  rw [foldl_set_get]
  simp [GoMap.get]

theorem find?_reverse_of_nodup_keys (ds : List Description) (k : String)
    (hnd : (ds.map descKey).Nodup) :
    ds.reverse.find? (fun d => descKey d == k) = ds.find? (fun d => descKey d == k) := by
  induction ds with
  | nil => rfl
  | cons d ds ih =>
    simp only [List.map_cons, List.nodup_cons] at hnd
    rw [List.reverse_cons, List.find?_append, ih hnd.2, List.find?_cons]
    by_cases hk : descKey d = k
    · have hnone : ds.find? (fun e => descKey e == k) = none := by
        apply List.find?_eq_none.mpr
        intro e he hq
        apply hnd.1
        have : descKey e = k := by simpa using hq
        exact List.mem_map.mpr ⟨e, he, by rw [this, hk]⟩
      simp [hk, hnone]
    · have hb : (descKey d == k) = false := by simpa using hk
      simp [hb]

theorem buildDescMap_get_of_nodup (ds : List Description) (k : String)
    (hnd : (ds.map descKey).Nodup) :
    (buildDescMap ds).get k = ds.find? (fun d => descKey d == k) := by
  rw [buildDescMap_get, find?_reverse_of_nodup_keys ds k hnd]

theorem buildDescMap_get_none (ds : List Description) (k : String)
    (h : ∀ d ∈ ds, descKey d ≠ k) : (buildDescMap ds).get k = none := by
  rw [buildDescMap_get]
  apply List.find?_eq_none.mpr
  intro d hd
  have := h d (List.mem_reverse.mp hd)
  simpa using this

/-- C8. In the CLI join loop, for every asset and every loop state: when no description
has the asset's composite key, the step only adds 1 to the no-description counter; when
the description is found with a marketable flag other than 1 (0 in particular), it only
adds 1 to the not-marketable counter; when it is found with marketable = 1 and an empty
market-hash name, it only adds 1 to the no-hash counter.  Every other variable (the
other counters, the priced-item count, the running total, the extrema, the price cache
and the lookup log) keeps its value. -/
theorem cliProcessAsset_skip_counters {F : Type} (ops : Float64Ops F)
    (getMarketPrice : Nat → String → String → String) (parsePrice : String → F)
    (appID : String) (descriptions : List Description) (st : CliState F) (asset : Asset) :
    ((∀ d ∈ descriptions, descKey d ≠ assetKey asset) →
      cliProcessAsset ops getMarketPrice parsePrice appID (buildDescMap descriptions) st asset
        = { st with skippedNoDesc := st.skippedNoDesc + 1 }) ∧
    (∀ desc, (buildDescMap descriptions).get (assetKey asset) = some desc →
      desc.Marketable ≠ 1 →
      cliProcessAsset ops getMarketPrice parsePrice appID (buildDescMap descriptions) st asset
        = { st with skippedNotMarketable := st.skippedNotMarketable + 1 }) ∧
    (∀ desc, (buildDescMap descriptions).get (assetKey asset) = some desc →
      desc.Marketable = 1 → desc.MarketHashName = "" →
      cliProcessAsset ops getMarketPrice parsePrice appID (buildDescMap descriptions) st asset
        = { st with skippedNoHash := st.skippedNoHash + 1 }) := by
  refine ⟨?_, ?_, ?_⟩
  · intro hnone
    have := buildDescMap_get_none descriptions (assetKey asset) hnone
    simp [cliProcessAsset, this]
  · intro desc hget hm
    simp [cliProcessAsset, hget, hm]
  · intro desc hget hm hh
    simp [cliProcessAsset, hget, hm, hh]

/-- The price-cache consultation keeps the lookup log free of repetitions and in step
with the keys of the price cache. -/
theorem cachedPrice_inv (getMarketPrice : Nat → String → String → String) (appID : String)
    (priceCache : GoMap String) (lookups : List String) (name : String) (P : String → Prop)
    (hP : P name) (hnd : lookups.Nodup)
    (hiff : ∀ n, n ∈ lookups ↔ (priceCache.get n).isSome = true)
    (hall : ∀ n ∈ lookups, P n) :
    (cachedPrice getMarketPrice appID priceCache lookups name).2.2.Nodup ∧
    (∀ n, n ∈ (cachedPrice getMarketPrice appID priceCache lookups name).2.2 ↔
      ((cachedPrice getMarketPrice appID priceCache lookups name).2.1.get n).isSome = true) ∧
    (∀ n ∈ (cachedPrice getMarketPrice appID priceCache lookups name).2.2, P n) := by
  unfold cachedPrice
  cases hget : priceCache.get name with
  | some price => exact ⟨hnd, hiff, hall⟩
  | none =>
    have hnot : name ∉ lookups := by
      intro hmem
      have := (hiff name).mp hmem
      simp [hget] at this
    refine ⟨?_, ?_, ?_⟩
    · simp only
      rw [List.nodup_append]
      refine ⟨hnd, List.nodup_singleton _, ?_⟩
      intro a ha hb
      simp only [List.mem_singleton] at hb
      subst hb
      exact hnot ha
    · intro n
      simp only [List.mem_append, List.mem_singleton, GoMap.get_set]
      by_cases hn : n = name
      · simp [hn]
      · simp [hn, hiff n]
    · intro n hn
      simp only [List.mem_append, List.mem_singleton] at hn
      rcases hn with h | h
      · exact hall n h
      · rw [h]; exact hP

theorem processAsset_inv {F : Type} (getMarketPrice : Nat → String → String → String)
    (parsePrice : String → F) (appID : String) (descMap : GoMap Description)
    (st : JoinState F) (asset : Asset) (P : String → Prop)
    (hP : ∀ desc, descMap.get (assetKey asset) = some desc → desc.Marketable = 1 →
      desc.MarketHashName ≠ "" → P desc.MarketHashName)
    (hnd : st.lookups.Nodup)
    (hiff : ∀ n, n ∈ st.lookups ↔ (st.priceCache.get n).isSome = true)
    (hall : ∀ n ∈ st.lookups, P n) :
    (processAsset getMarketPrice parsePrice appID descMap st asset).lookups.Nodup ∧
    (∀ n, n ∈ (processAsset getMarketPrice parsePrice appID descMap st asset).lookups ↔
      ((processAsset getMarketPrice parsePrice appID descMap st asset).priceCache.get n).isSome
        = true) ∧
    (∀ n ∈ (processAsset getMarketPrice parsePrice appID descMap st asset).lookups, P n) := by
  unfold processAsset
  simp only
  cases hget : descMap.get (assetKey asset) with
  | none => exact ⟨hnd, hiff, hall⟩
  | some desc =>
    simp only
    by_cases hskip : desc.Marketable ≠ 1 ∨ desc.MarketHashName = ""
    · rw [if_pos hskip]
      exact ⟨hnd, hiff, hall⟩
    · rw [if_neg hskip]
      have hm : desc.Marketable = 1 := by
        by_contra h; exact hskip (Or.inl h)
      have hh : desc.MarketHashName ≠ "" := fun h => hskip (Or.inr h)
      have hcp := cachedPrice_inv getMarketPrice appID st.priceCache st.lookups
        desc.MarketHashName P (hP desc hget hm hh) hnd hiff hall
      split <;> exact hcp

theorem cliProcessAsset_inv {F : Type} (ops : Float64Ops F)
    (getMarketPrice : Nat → String → String → String)
    (parsePrice : String → F) (appID : String) (descMap : GoMap Description)
    (st : CliState F) (asset : Asset) (P : String → Prop)
    (hP : ∀ desc, descMap.get (assetKey asset) = some desc → desc.Marketable = 1 →
      desc.MarketHashName ≠ "" → P desc.MarketHashName)
    (hnd : st.lookups.Nodup)
    (hiff : ∀ n, n ∈ st.lookups ↔ (st.priceCache.get n).isSome = true)
    (hall : ∀ n ∈ st.lookups, P n) :
    (cliProcessAsset ops getMarketPrice parsePrice appID descMap st asset).lookups.Nodup ∧
    (∀ n, n ∈ (cliProcessAsset ops getMarketPrice parsePrice appID descMap st asset).lookups ↔
      ((cliProcessAsset ops getMarketPrice parsePrice appID descMap st asset).priceCache.get
        n).isSome = true) ∧
    (∀ n ∈ (cliProcessAsset ops getMarketPrice parsePrice appID descMap st asset).lookups,
      P n) := by
  unfold cliProcessAsset
  simp only
  cases hget : descMap.get (assetKey asset) with
  | none => exact ⟨hnd, hiff, hall⟩
  | some desc =>
    simp only
    by_cases hm : desc.Marketable ≠ 1
    · rw [if_pos hm]
      exact ⟨hnd, hiff, hall⟩
    · rw [if_neg hm]
      by_cases hh : desc.MarketHashName = ""
      · rw [if_pos hh]
        exact ⟨hnd, hiff, hall⟩
      · rw [if_neg hh]
        have hcp := cachedPrice_inv getMarketPrice appID st.priceCache st.lookups
          desc.MarketHashName P (hP desc hget (by simpa using hm) hh) hnd hiff hall
        split
        · exact hcp
        · split
          · exact hcp
          · split <;> split <;> exact hcp

theorem foldl_processAsset_inv {F : Type} (getMarketPrice : Nat → String → String → String)
    (parsePrice : String → F) (appID : String) (descMap : GoMap Description)
    (P : String → Prop) (assets : List Asset) :
    ∀ (st : JoinState F),
      (∀ a ∈ assets, ∀ desc, descMap.get (assetKey a) = some desc → desc.Marketable = 1 →
        desc.MarketHashName ≠ "" → P desc.MarketHashName) →
      st.lookups.Nodup →
      (∀ n, n ∈ st.lookups ↔ (st.priceCache.get n).isSome = true) →
      (∀ n ∈ st.lookups, P n) →
      (assets.foldl (processAsset getMarketPrice parsePrice appID descMap) st).lookups.Nodup ∧
      (∀ n ∈ (assets.foldl (processAsset getMarketPrice parsePrice appID descMap) st).lookups,
        P n) := by
  induction assets with
  | nil => intro st _ hnd _ hall; exact ⟨hnd, hall⟩
  | cons a as ih =>
    intro st hP hnd hiff hall
    obtain ⟨h1, h2, h3⟩ := processAsset_inv getMarketPrice parsePrice appID descMap st a P
      (hP a (List.mem_cons_self _ _)) hnd hiff hall
    exact ih _ (fun b hb => hP b (List.mem_cons_of_mem _ hb)) h1 h2 h3

theorem foldl_cliProcessAsset_inv {F : Type} (ops : Float64Ops F)
    (getMarketPrice : Nat → String → String → String)
    (parsePrice : String → F) (appID : String) (descMap : GoMap Description)
    (P : String → Prop) (assets : List Asset) :
    ∀ (st : CliState F),
      (∀ a ∈ assets, ∀ desc, descMap.get (assetKey a) = some desc → desc.Marketable = 1 →
        desc.MarketHashName ≠ "" → P desc.MarketHashName) →
      st.lookups.Nodup →
      (∀ n, n ∈ st.lookups ↔ (st.priceCache.get n).isSome = true) →
      (∀ n ∈ st.lookups, P n) →
      (assets.foldl (cliProcessAsset ops getMarketPrice parsePrice appID descMap)
        st).lookups.Nodup ∧
      (∀ n ∈ (assets.foldl (cliProcessAsset ops getMarketPrice parsePrice appID descMap)
        st).lookups, P n) := by
  induction assets with
  | nil => intro st _ hnd _ hall; exact ⟨hnd, hall⟩
  | cons a as ih =>
    intro st hP hnd hiff hall
    obtain ⟨h1, h2, h3⟩ := cliProcessAsset_inv ops getMarketPrice parsePrice appID descMap st a P
      (hP a (List.mem_cons_self _ _)) hnd hiff hall
    exact ih _ (fun b hb => hP b (List.mem_cons_of_mem _ hb)) h1 h2 h3

/-- C9. For every asset list, description list and behaviour of the price endpoint
(empty answers included), the names passed to `getMarketPrice` during one run of
`processInventoryItems`, and during one run of the CLI join loop, contain no name twice,
and every one of them is the market-hash name of a description that was found for some
asset, has marketable = 1 and a non-empty market-hash name. -/
theorem join_price_lookups_distinct {F : Type} (ops : Float64Ops F)
    (getMarketPrice : Nat → String → String → String) (parsePrice : String → F)
    (assets : List Asset) (descriptions : List Description) (appID : String) :
    (processInventoryLookups getMarketPrice parsePrice assets descriptions appID).Nodup ∧
    (∀ n ∈ processInventoryLookups getMarketPrice parsePrice assets descriptions appID,
      ∃ a ∈ assets, ∃ desc, (buildDescMap descriptions).get (assetKey a) = some desc ∧
        desc.Marketable = 1 ∧ desc.MarketHashName ≠ "" ∧ desc.MarketHashName = n) ∧
    (cliJoin ops getMarketPrice parsePrice assets descriptions appID).lookups.Nodup ∧
    (∀ n ∈ (cliJoin ops getMarketPrice parsePrice assets descriptions appID).lookups,
      ∃ a ∈ assets, ∃ desc, (buildDescMap descriptions).get (assetKey a) = some desc ∧
        desc.Marketable = 1 ∧ desc.MarketHashName ≠ "" ∧ desc.MarketHashName = n) := by
  have h1 := foldl_processAsset_inv getMarketPrice parsePrice appID (buildDescMap descriptions)
    (fun n => ∃ a ∈ assets, ∃ desc, (buildDescMap descriptions).get (assetKey a) = some desc ∧
        desc.Marketable = 1 ∧ desc.MarketHashName ≠ "" ∧ desc.MarketHashName = n)
    assets (JoinState.init F)
    (fun a ha desc hget hm hh => ⟨a, ha, desc, hget, hm, hh, rfl⟩)
    (by simp [JoinState.init])
    (by simp [JoinState.init, GoMap.get])
    (by simp [JoinState.init])
  have h2 := foldl_cliProcessAsset_inv ops getMarketPrice parsePrice appID
    (buildDescMap descriptions)
    (fun n => ∃ a ∈ assets, ∃ desc, (buildDescMap descriptions).get (assetKey a) = some desc ∧
        desc.Marketable = 1 ∧ desc.MarketHashName ≠ "" ∧ desc.MarketHashName = n)
    assets (CliState.init ops)
    (fun a ha desc hget hm hh => ⟨a, ha, desc, hget, hm, hh, rfl⟩)
    (by simp [CliState.init])
    (by simp [CliState.init, GoMap.get])
    (by simp [CliState.init])
  exact ⟨h1.1, h1.2, h2.1, h2.2⟩

theorem processAsset_items {F : Type} (p : String → String) (parsePrice : String → F)
    (appID : String) (descMap : GoMap Description) (st : JoinState F) (asset : Asset)
    (hcons : ∀ n v, st.priceCache.get n = some v → v = p n) :
    (processAsset (fun _ _ name => p name) parsePrice appID descMap st asset).items =
      st.items ++
        (match descMap.get (assetKey asset) with
          | none => none
          | some desc =>
            if desc.Marketable = 1 ∧ desc.MarketHashName ≠ "" ∧ p desc.MarketHashName ≠ "" then
              some ({ Name := desc.Name, MarketName := desc.MarketName, Type_ := desc.Type_,
                      Price := p desc.MarketHashName,
                      PriceValue := parsePrice (p desc.MarketHashName),
                      AssetID := asset.AssetID } : InventoryItem F)
            else none).toList ∧
    (∀ n v, (processAsset (fun _ _ name => p name) parsePrice appID descMap st asset).priceCache.get
      n = some v → v = p n) := by
  unfold processAsset
  simp only
  cases hget : descMap.get (assetKey asset) with
  | none => exact ⟨by simp, hcons⟩
  | some desc =>
    simp only
    by_cases hskip : desc.Marketable ≠ 1 ∨ desc.MarketHashName = ""
    · rw [if_pos hskip]
      refine ⟨?_, hcons⟩
      have : ¬ (desc.Marketable = 1 ∧ desc.MarketHashName ≠ "" ∧ p desc.MarketHashName ≠ "") := by
        rintro ⟨h1, h2, _⟩
        rcases hskip with h | h
        · exact h h1
        · exact h2 h
      rw [if_neg this]
      simp
    · rw [if_neg hskip]
      have hm : desc.Marketable = 1 := by
        by_contra h; exact hskip (Or.inl h)
      have hh : desc.MarketHashName ≠ "" := fun h => hskip (Or.inr h)
      have hprice : (cachedPrice (fun _ _ name => p name) appID st.priceCache st.lookups
          desc.MarketHashName).1 = p desc.MarketHashName := by
        unfold cachedPrice
        cases hc : st.priceCache.get desc.MarketHashName with
        | none => rfl
        | some v => exact hcons _ _ hc
      have hcache : ∀ n v, (cachedPrice (fun _ _ name => p name) appID st.priceCache st.lookups
          desc.MarketHashName).2.1.get n = some v → v = p n := by
        unfold cachedPrice
        cases hc : st.priceCache.get desc.MarketHashName with
        | none =>
          intro n v
          simp only [GoMap.get_set]
          by_cases hn : n = desc.MarketHashName
          · rw [if_pos hn]
            intro hv
            cases hv
            rw [hn]
          · rw [if_neg hn]
            exact hcons n v
        | some v => exact hcons
      rw [hprice]
      by_cases hp : p desc.MarketHashName = ""
      · rw [if_pos hp]
        refine ⟨?_, hcache⟩
        have : ¬ (desc.Marketable = 1 ∧ desc.MarketHashName ≠ "" ∧
            p desc.MarketHashName ≠ "") := fun h => h.2.2 hp
        rw [if_neg this]
        simp
      · rw [if_neg hp]
        refine ⟨?_, hcache⟩
        rw [if_pos ⟨hm, hh, hp⟩]
        simp

theorem foldl_processAsset_items {F : Type} (p : String → String) (parsePrice : String → F)
    (appID : String) (descMap : GoMap Description) (assets : List Asset) :
    ∀ (st : JoinState F), (∀ n v, st.priceCache.get n = some v → v = p n) →
      (assets.foldl (processAsset (fun _ _ name => p name) parsePrice appID descMap) st).items =
        st.items ++ assets.filterMap (fun asset =>
          match descMap.get (assetKey asset) with
          | none => none
          | some desc =>
            if desc.Marketable = 1 ∧ desc.MarketHashName ≠ "" ∧ p desc.MarketHashName ≠ "" then
              some ({ Name := desc.Name, MarketName := desc.MarketName, Type_ := desc.Type_,
                      Price := p desc.MarketHashName,
                      PriceValue := parsePrice (p desc.MarketHashName),
                      AssetID := asset.AssetID } : InventoryItem F)
            else none) := by
  induction assets with
  | nil => intro st _; simp
  | cons a as ih =>
    intro st hcons
    obtain ⟨hitems, hcons'⟩ := processAsset_items p parsePrice appID descMap st a hcons
    rw [List.foldl_cons, ih _ hcons', hitems, List.filterMap_cons, List.append_assoc]
    congr 1
    cases (match descMap.get (assetKey a) with
          | none => none
          | some desc =>
            if desc.Marketable = 1 ∧ desc.MarketHashName ≠ "" ∧ p desc.MarketHashName ≠ "" then
              some ({ Name := desc.Name, MarketName := desc.MarketName, Type_ := desc.Type_,
                      Price := p desc.MarketHashName,
                      PriceValue := parsePrice (p desc.MarketHashName),
                      AssetID := a.AssetID } : InventoryItem F)
            else none) <;> simp

/-- C10. For every asset list, description list with pairwise distinct composite keys and
price lookup function `p`, `processInventoryItems` returns, in asset order, exactly one
item for each asset whose description is found, has marketable = 1, a non-empty
market-hash name and a non-empty price `p(MarketHashName)`, and nothing for any other
asset; the item carries the description's Name, MarketName and Type, the price
`p(MarketHashName)`, its parsed value and the asset's AssetID. -/
theorem processInventoryItems_exact {F : Type} (p : String → String) (parsePrice : String → F)
    (assets : List Asset) (descriptions : List Description) (appID : String)
    (hdistinct : (descriptions.map descKey).Nodup) :
    processInventoryItems (fun _ _ name => p name) parsePrice assets descriptions appID =
      assets.filterMap (fun asset =>
        match descriptions.find? (fun d => descKey d == assetKey asset) with
        | none => none
        | some desc =>
          if desc.Marketable = 1 ∧ desc.MarketHashName ≠ "" ∧ p desc.MarketHashName ≠ "" then
            some { Name := desc.Name, MarketName := desc.MarketName, Type_ := desc.Type_,
                   Price := p desc.MarketHashName,
                   PriceValue := parsePrice (p desc.MarketHashName),
                   AssetID := asset.AssetID }
          else none) := by
  unfold processInventoryItems processInventoryState
  rw [foldl_processAsset_items p parsePrice appID (buildDescMap descriptions) assets
    (JoinState.init F) (by simp [JoinState.init, GoMap.get])]
  simp only [JoinState.init, List.nil_append]
  congr 1
  funext asset
  rw [buildDescMap_get_of_nodup descriptions (assetKey asset) hdistinct]

/-- Witness for C8: an asset without description, one whose description has marketable = 0,
and one whose description has marketable = 1 and no market-hash name. -/
theorem cliProcessAsset_skip_counters_witness :
    cliProcessAsset demoOps (fun _ _ n => demoPrices n) demoParsePrice "730"
        (buildDescMap demoDescriptions) (CliState.init demoOps) (demoAsset "A4" "c9" "i9")
      = { CliState.init demoOps with skippedNoDesc := 0 + 1 } ∧
    cliProcessAsset demoOps (fun _ _ n => demoPrices n) demoParsePrice "730"
        (buildDescMap demoDescriptions) (CliState.init demoOps) (demoAsset "A5" "c3" "i0")
      = { CliState.init demoOps with skippedNotMarketable := 0 + 1 } ∧
    cliProcessAsset demoOps (fun _ _ n => demoPrices n) demoParsePrice "730"
        (buildDescMap demoDescriptions) (CliState.init demoOps) (demoAsset "A2" "c2" "i0")
      = { CliState.init demoOps with skippedNoHash := 0 + 1 } :=
  ⟨(cliProcessAsset_skip_counters demoOps (fun _ _ n => demoPrices n) demoParsePrice "730"
      demoDescriptions (CliState.init demoOps) (demoAsset "A4" "c9" "i9")).1 (by decide),
   (cliProcessAsset_skip_counters demoOps (fun _ _ n => demoPrices n) demoParsePrice "730"
      demoDescriptions (CliState.init demoOps) (demoAsset "A5" "c3" "i0")).2.1
      (demoDesc "c3" "i0" "medal" "MEDAL" 0) (by decide) (by decide),
   (cliProcessAsset_skip_counters demoOps (fun _ _ n => demoPrices n) demoParsePrice "730"
      demoDescriptions (CliState.init demoOps) (demoAsset "A2" "c2" "i0")).2.2
      (demoDesc "c2" "i0" "case" "" 1) (by decide) (by decide) (by decide)⟩

/-- Witness for C9: the demo scan, in which `STICKER` has an empty price and two assets. -/
theorem join_price_lookups_distinct_witness :
    (processInventoryLookups (fun _ _ n => demoPrices n) demoParsePrice demoAssets
      demoDescriptions "730").Nodup ∧
    (cliJoin demoOps (fun _ _ n => demoPrices n) demoParsePrice demoAssets
      demoDescriptions "730").lookups.Nodup :=
  ⟨(join_price_lookups_distinct demoOps (fun _ _ n => demoPrices n) demoParsePrice demoAssets
      demoDescriptions "730").1,
   (join_price_lookups_distinct demoOps (fun _ _ n => demoPrices n) demoParsePrice demoAssets
      demoDescriptions "730").2.2.1⟩

/-- The lookups of the demo scan evaluated: each name once, the unpriced one included. -/
theorem join_demo_lookups_eval :
    processInventoryLookups (fun _ _ n => demoPrices n) demoParsePrice demoAssets
      demoDescriptions "730" = ["AK", "STICKER"] ∧
    (cliJoin demoOps (fun _ _ n => demoPrices n) demoParsePrice demoAssets
      demoDescriptions "730").lookups = ["AK", "STICKER"] := by
  decide

/-- Witness for C10: the demo scan yields the two stacks of `c1_i1` and nothing else. -/
theorem processInventoryItems_exact_witness :
    processInventoryItems (fun _ _ name => demoPrices name) demoParsePrice demoAssets
        demoDescriptions "730" =
      demoAssets.filterMap (fun asset =>
        match demoDescriptions.find? (fun d => descKey d == assetKey asset) with
        | none => none
        | some desc =>
          if desc.Marketable = 1 ∧ desc.MarketHashName ≠ "" ∧
              demoPrices desc.MarketHashName ≠ "" then
            some { Name := desc.Name, MarketName := desc.MarketName, Type_ := desc.Type_,
                   Price := demoPrices desc.MarketHashName,
                   PriceValue := demoParsePrice (demoPrices desc.MarketHashName),
                   AssetID := asset.AssetID }
          else none) :=
  processInventoryItems_exact demoPrices demoParsePrice demoAssets demoDescriptions "730"
    (by decide)

/-- The items of the demo scan evaluated. -/
theorem processInventoryItems_demo_eval :
    processInventoryItems (fun _ _ name => demoPrices name) demoParsePrice demoAssets
        demoDescriptions "730" =
      [{ Name := "first", MarketName := "first", Type_ := "Rifle", Price := "15,50 (lowest)",
         PriceValue := 14, AssetID := "A1" },
       { Name := "first", MarketName := "first", Type_ := "Rifle", Price := "15,50 (lowest)",
         PriceValue := 14, AssetID := "A3" }] := by
  decide

/-! ## The comparisons of `float64` -/

theorem nanOps_ordered : nanOps.Ordered Option.isNone := by
  refine ⟨?_, ?_, ?_, ?_, ?_⟩
  · intro a b ha
    cases a with
    | none => rfl
    | some x => simp at ha
  · intro a b hb
    cases b with
    | none => cases a <;> rfl
    | some y => simp at hb
  · intro a
    cases a with
    | none => rfl
    | some x => simp [nanOps]
  · intro a b c hab hbc
    cases a <;> cases b <;> cases c <;> simp_all [nanOps]
    omega
  · intro a b c hb hac
    cases a <;> cases b <;> cases c <;> simp_all [nanOps]
    omega

theorem Float64Ops.le_iff {F : Type} (ops : Float64Ops F) (isNaN : F → Bool) (a b : F) :
    ops.le isNaN a b = true ↔ isNaN a = false ∧ isNaN b = false ∧ ops.lt b a = false := by
  simp [Float64Ops.le, and_assoc]

/-! ## Statistics -/

theorem Float64Ops.eq_iff {F : Type} (ops : Float64Ops F) (isNaN : F → Bool) (a b : F) :
    ops.eq isNaN a b = true ↔
      isNaN a = false ∧ isNaN b = false ∧ ops.lt a b = false ∧ ops.lt b a = false := by
  simp only [Float64Ops.eq, Bool.and_eq_true, Float64Ops.le_iff]
  tauto

theorem statisticsStep_spec {F : Type} (ops : Float64Ops F) (d : InventoryData F)
    (x : InventoryItem F) :
    (statisticsStep ops d x).TotalValue = ops.add d.TotalValue x.PriceValue ∧
    (statisticsStep ops d x).MarketableItems = d.MarketableItems ∧
    (statisticsStep ops d x).MinPrice = (if ops.lt x.PriceValue d.MinPrice then x.PriceValue
      else d.MinPrice) ∧
    (statisticsStep ops d x).MinPriceItem = (if ops.lt x.PriceValue d.MinPrice then x.Name
      else d.MinPriceItem) ∧
    (statisticsStep ops d x).MaxPrice = (if ops.lt d.MaxPrice x.PriceValue then x.PriceValue
      else d.MaxPrice) ∧
    (statisticsStep ops d x).MaxPriceItem = (if ops.lt d.MaxPrice x.PriceValue then x.Name
      else d.MaxPriceItem) := by
  unfold statisticsStep
  by_cases h1 : ops.lt x.PriceValue d.MinPrice = true <;>
    by_cases h2 : ops.lt d.MaxPrice x.PriceValue = true <;>
    simp [h1, h2]

/-- The loop of `calculateStatistics` keeps, over the items seen so far, a least and a
greatest price value and the names of the first items that have them, when no price value
is NaN. -/
theorem statistics_foldl {F : Type} (ops : Float64Ops F) (isNaN : F → Bool)
    (hord : ops.Ordered isNaN) (l : List (InventoryItem F)) :
    ∀ (seen : List (InventoryItem F)) (d : InventoryData F),
      (∀ it ∈ seen ++ l, isNaN it.PriceValue = false) →
      (∀ it ∈ seen, ops.lt it.PriceValue d.MinPrice = false) →
      (∀ it ∈ seen, ops.lt d.MaxPrice it.PriceValue = false) →
      (∃ it, seen.find? (fun it => ops.eq isNaN it.PriceValue d.MinPrice) = some it ∧
        d.MinPriceItem = it.Name ∧ d.MinPrice = it.PriceValue) →
      (∃ it, seen.find? (fun it => ops.eq isNaN it.PriceValue d.MaxPrice) = some it ∧
        d.MaxPriceItem = it.Name ∧ d.MaxPrice = it.PriceValue) →
      (l.foldl (statisticsStep ops) d).TotalValue =
        l.foldl (fun acc it => ops.add acc it.PriceValue) d.TotalValue ∧
      (l.foldl (statisticsStep ops) d).MarketableItems = d.MarketableItems ∧
      (∀ it ∈ seen ++ l,
        ops.lt it.PriceValue (l.foldl (statisticsStep ops) d).MinPrice = false) ∧
      (∀ it ∈ seen ++ l,
        ops.lt (l.foldl (statisticsStep ops) d).MaxPrice it.PriceValue = false) ∧
      (∃ it, (seen ++ l).find?
          (fun it => ops.eq isNaN it.PriceValue (l.foldl (statisticsStep ops) d).MinPrice)
          = some it ∧ (l.foldl (statisticsStep ops) d).MinPriceItem = it.Name ∧
          (l.foldl (statisticsStep ops) d).MinPrice = it.PriceValue) ∧
      (∃ it, (seen ++ l).find?
          (fun it => ops.eq isNaN it.PriceValue (l.foldl (statisticsStep ops) d).MaxPrice)
          = some it ∧ (l.foldl (statisticsStep ops) d).MaxPriceItem = it.Name ∧
          (l.foldl (statisticsStep ops) d).MaxPrice = it.PriceValue) := by
  induction l with
  | nil =>
    intro seen d _ hmin hmax hminName hmaxName
    simp only [List.foldl_nil, List.append_nil]
    exact ⟨trivial, trivial, hmin, hmax, hminName, hmaxName⟩
  | cons x xs ih =>
    intro seen d hnan hmin hmax hminName hmaxName
    obtain ⟨hT, hC, hMin, hMinN, hMax, hMaxN⟩ := statisticsStep_spec ops d x
    have happ : seen ++ [x] ++ xs = seen ++ x :: xs := by simp
    have hx : isNaN x.PriceValue = false := hnan x (by simp)
    have hseen : ∀ it ∈ seen, isNaN it.PriceValue = false :=
      fun it hit => hnan it (List.mem_append_left _ hit)
    have hself : ops.eq isNaN x.PriceValue x.PriceValue = true :=
      (Float64Ops.eq_iff ops isNaN _ _).mpr ⟨hx, hx, hord.lt_irrefl _, hord.lt_irrefl _⟩
    have key := ih (seen ++ [x]) (statisticsStep ops d x)
      (by rw [happ]; exact hnan)
      (by
        intro it hit
        rw [hMin]
        rcases List.mem_append.mp hit with h | h
        · by_cases hlt : ops.lt x.PriceValue d.MinPrice = true
          · rw [if_pos hlt]
            cases hix : ops.lt it.PriceValue x.PriceValue with
            | false => rfl
            | true =>
              have := hord.lt_trans _ _ _ hix hlt
              rw [hmin it h] at this
              exact absurd this (by decide)
          · rw [if_neg hlt]
            exact hmin it h
        · simp only [List.mem_singleton] at h
          subst h
          by_cases hlt : ops.lt it.PriceValue d.MinPrice = true
          · rw [if_pos hlt]
            exact hord.lt_irrefl _
          · rw [if_neg hlt]
            exact (Bool.not_eq_true _).mp hlt)
      (by
        intro it hit
        rw [hMax]
        rcases List.mem_append.mp hit with h | h
        · by_cases hlt : ops.lt d.MaxPrice x.PriceValue = true
          · rw [if_pos hlt]
            cases hix : ops.lt x.PriceValue it.PriceValue with
            | false => rfl
            | true =>
              have := hord.lt_trans _ _ _ hlt hix
              rw [hmax it h] at this
              exact absurd this (by decide)
          · rw [if_neg hlt]
            exact hmax it h
        · simp only [List.mem_singleton] at h
          subst h
          by_cases hlt : ops.lt d.MaxPrice it.PriceValue = true
          · rw [if_pos hlt]
            exact hord.lt_irrefl _
          · rw [if_neg hlt]
            exact (Bool.not_eq_true _).mp hlt)
      (by
        rw [hMin, hMinN]
        by_cases hlt : ops.lt x.PriceValue d.MinPrice = true
        · simp only [if_pos hlt]
          refine ⟨x, ?_, rfl, rfl⟩
          rw [List.find?_append]
          have hnone : seen.find? (fun it => ops.eq isNaN it.PriceValue x.PriceValue)
              = none := by
            apply List.find?_eq_none.mpr
            intro it hit heq
            obtain ⟨_, _, h1, h2⟩ := (Float64Ops.eq_iff ops isNaN _ _).mp heq
            rcases hord.lt_cotrans _ it.PriceValue _ (hseen it hit) hlt with h | h
            · rw [h2] at h
              exact absurd h (by decide)
            · rw [hmin it hit] at h
              exact absurd h (by decide)
          simp [hnone, hself]
        · simp only [if_neg hlt]
          obtain ⟨it, hfind, hname⟩ := hminName
          refine ⟨it, ?_, hname⟩
          rw [List.find?_append, hfind]
          rfl)
      (by
        rw [hMax, hMaxN]
        by_cases hlt : ops.lt d.MaxPrice x.PriceValue = true
        · simp only [if_pos hlt]
          refine ⟨x, ?_, rfl, rfl⟩
          rw [List.find?_append]
          have hnone : seen.find? (fun it => ops.eq isNaN it.PriceValue x.PriceValue)
              = none := by
            apply List.find?_eq_none.mpr
            intro it hit heq
            obtain ⟨_, _, h1, h2⟩ := (Float64Ops.eq_iff ops isNaN _ _).mp heq
            rcases hord.lt_cotrans _ it.PriceValue _ (hseen it hit) hlt with h | h
            · rw [hmax it hit] at h
              exact absurd h (by decide)
            · rw [h1] at h
              exact absurd h (by decide)
          simp [hnone, hself]
        · simp only [if_neg hlt]
          obtain ⟨it, hfind, hname⟩ := hmaxName
          refine ⟨it, ?_, hname⟩
          rw [List.find?_append, hfind]
          rfl)
    simp only [List.foldl_cons]
    rw [happ] at key
    obtain ⟨k1, k2, k3, k4, k5, k6⟩ := key
    exact ⟨by rw [k1, hT], by rw [k2, hC], k3, k4, k5, k6⟩

/-- C11 (amended). For every non-empty list of priced items none of whose price values is
NaN, in a fresh record, `calculateStatistics` sets the count to the list length, the total
to the sum of the price values added up in list order from 0, `MinPrice` / `MaxPrice` to
a least / greatest price value of the list (`<=` every value / `>=` every value, and the
value of an item of the list), and `MinPriceItem` / `MaxPriceItem` to the name of the first
item in list order whose price value equals (`==`) `MinPrice` / `MaxPrice`, which is the
item the extreme was taken from. The comparison `<` is any one with the properties of the
`float64` comparison, the addition is any function. -/
theorem calculateStatistics_spec {F : Type} (ops : Float64Ops F) (isNaN : F → Bool)
    (items : List (InventoryItem F)) (totalItems : Int)
    (hord : ops.Ordered isNaN) (hnan : ∀ it ∈ items, isNaN it.PriceValue = false)
    (hne : items ≠ []) :
    (calculateStatistics ops (InventoryData.fresh ops items totalItems)).MarketableItems
      = items.length ∧
    (calculateStatistics ops (InventoryData.fresh ops items totalItems)).TotalValue
      = items.foldl (fun acc it => ops.add acc it.PriceValue) ops.zero ∧
    (∀ it ∈ items, ops.le isNaN
      (calculateStatistics ops (InventoryData.fresh ops items totalItems)).MinPrice
      it.PriceValue = true) ∧
    (∀ it ∈ items, ops.le isNaN it.PriceValue
      (calculateStatistics ops (InventoryData.fresh ops items totalItems)).MaxPrice = true) ∧
    (∃ it, items.find? (fun it => ops.eq isNaN it.PriceValue
        (calculateStatistics ops (InventoryData.fresh ops items totalItems)).MinPrice)
        = some it ∧
      (calculateStatistics ops (InventoryData.fresh ops items totalItems)).MinPriceItem
        = it.Name ∧
      (calculateStatistics ops (InventoryData.fresh ops items totalItems)).MinPrice
        = it.PriceValue) ∧
    (∃ it, items.find? (fun it => ops.eq isNaN it.PriceValue
        (calculateStatistics ops (InventoryData.fresh ops items totalItems)).MaxPrice)
        = some it ∧
      (calculateStatistics ops (InventoryData.fresh ops items totalItems)).MaxPriceItem
        = it.Name ∧
      (calculateStatistics ops (InventoryData.fresh ops items totalItems)).MaxPrice
        = it.PriceValue) := by
  cases items with
  | nil => exact absurd rfl hne
  | cons first xs =>
    have hfirst : isNaN first.PriceValue = false := hnan first (List.mem_cons_self _ _)
    have hself : ops.eq isNaN first.PriceValue first.PriceValue = true :=
      (Float64Ops.eq_iff ops isNaN _ _).mpr
        ⟨hfirst, hfirst, hord.lt_irrefl _, hord.lt_irrefl _⟩
    have hfold := statistics_foldl ops isNaN hord (first :: xs) [first]
      { InventoryData.fresh ops (first :: xs) totalItems with
        MarketableItems := ((first :: xs).length : Int)
        MinPrice := first.PriceValue
        MaxPrice := first.PriceValue
        MinPriceItem := first.Name
        MaxPriceItem := first.Name }
      (by
        intro it hit
        rcases List.mem_append.mp hit with h | h
        · simp only [List.mem_singleton] at h
          rw [h]; exact hfirst
        · exact hnan it h)
      (by
        intro it hit
        simp only [List.mem_singleton] at hit
        rw [hit]; exact hord.lt_irrefl _)
      (by
        intro it hit
        simp only [List.mem_singleton] at hit
        rw [hit]; exact hord.lt_irrefl _)
      ⟨first, by simp [List.find?_cons, hself], rfl, rfl⟩
      ⟨first, by simp [List.find?_cons, hself], rfl, rfl⟩
    have hcalc : calculateStatistics ops (InventoryData.fresh ops (first :: xs) totalItems)
        = (first :: xs).foldl (statisticsStep ops)
          { InventoryData.fresh ops (first :: xs) totalItems with
            MarketableItems := ((first :: xs).length : Int)
            MinPrice := first.PriceValue
            MaxPrice := first.PriceValue
            MinPriceItem := first.Name
            MaxPriceItem := first.Name } := rfl
    rw [hcalc]
    obtain ⟨k1, k2, k3, k4, k5, k6⟩ := hfold
    have hdup : ∀ p : InventoryItem F → Bool,
        ([first] ++ first :: xs).find? p = (first :: xs).find? p := by
      intro p
      cases hp : p first <;> simp [List.find?_cons, hp]
    rw [hdup] at k5 k6
    have hminNaN : isNaN ((first :: xs).foldl (statisticsStep ops)
          { InventoryData.fresh ops (first :: xs) totalItems with
            MarketableItems := ((first :: xs).length : Int)
            MinPrice := first.PriceValue
            MaxPrice := first.PriceValue
            MinPriceItem := first.Name
            MaxPriceItem := first.Name }).MinPrice = false := by
      obtain ⟨it, hfind, _, hval⟩ := k5
      rw [hval]
      exact hnan it (List.mem_of_find?_eq_some hfind)
    have hmaxNaN : isNaN ((first :: xs).foldl (statisticsStep ops)
          { InventoryData.fresh ops (first :: xs) totalItems with
            MarketableItems := ((first :: xs).length : Int)
            MinPrice := first.PriceValue
            MaxPrice := first.PriceValue
            MinPriceItem := first.Name
            MaxPriceItem := first.Name }).MaxPrice = false := by
      obtain ⟨it, hfind, _, hval⟩ := k6
      rw [hval]
      exact hnan it (List.mem_of_find?_eq_some hfind)
    refine ⟨k2, k1, ?_, ?_, k5, k6⟩
    · intro it hit
      rw [Float64Ops.le_iff]
      exact ⟨hminNaN, hnan it hit, k3 it (List.mem_append_right _ hit)⟩
    · intro it hit
      rw [Float64Ops.le_iff]
      exact ⟨hnan it hit, hmaxNaN, k4 it (List.mem_append_right _ hit)⟩

/-- Witness for C11: values 10, 5, 20, 20, 5, 7, 30 in the model with a NaN. -/
theorem calculateStatistics_spec_witness :
    (∀ it ∈ nanFreeItems, Option.isNone it.PriceValue = false) ∧ nanFreeItems ≠ [] ∧
    (calculateStatistics nanOps (InventoryData.fresh nanOps nanFreeItems 9)).MarketableItems
      = nanFreeItems.length ∧
    (calculateStatistics nanOps (InventoryData.fresh nanOps nanFreeItems 9)).TotalValue
      = nanFreeItems.foldl (fun acc it => nanOps.add acc it.PriceValue) nanOps.zero ∧
    (∀ it ∈ nanFreeItems, nanOps.le Option.isNone
      (calculateStatistics nanOps (InventoryData.fresh nanOps nanFreeItems 9)).MinPrice
      it.PriceValue = true) ∧
    (∀ it ∈ nanFreeItems, nanOps.le Option.isNone it.PriceValue
      (calculateStatistics nanOps (InventoryData.fresh nanOps nanFreeItems 9)).MaxPrice
      = true) ∧
    (∃ it, nanFreeItems.find? (fun it => nanOps.eq Option.isNone it.PriceValue
        (calculateStatistics nanOps (InventoryData.fresh nanOps nanFreeItems 9)).MinPrice)
        = some it ∧
      (calculateStatistics nanOps (InventoryData.fresh nanOps nanFreeItems 9)).MinPriceItem
        = it.Name ∧
      (calculateStatistics nanOps (InventoryData.fresh nanOps nanFreeItems 9)).MinPrice
        = it.PriceValue) ∧
    (∃ it, nanFreeItems.find? (fun it => nanOps.eq Option.isNone it.PriceValue
        (calculateStatistics nanOps (InventoryData.fresh nanOps nanFreeItems 9)).MaxPrice)
        = some it ∧
      (calculateStatistics nanOps (InventoryData.fresh nanOps nanFreeItems 9)).MaxPriceItem
        = it.Name ∧
      (calculateStatistics nanOps (InventoryData.fresh nanOps nanFreeItems 9)).MaxPrice
        = it.PriceValue) :=
  ⟨by decide, by decide,
    calculateStatistics_spec nanOps Option.isNone nanFreeItems 9 nanOps_ordered (by decide)
      (by decide)⟩

/-- Counterexample for C11 as stated, with a NaN price value: for the price values NaN,
5, 20 the minimum and the maximum stay NaN, which is neither the least nor the greatest
value of the list; and for 5, NaN, 20 the minimum 5 is not `<=` every value. -/
theorem calculateStatistics_nan_extremes :
    (calculateStatistics nanOps (InventoryData.fresh nanOps
      [nanPriced "n" none, nanPriced "b" (some 5), nanPriced "c" (some 20)] 3)).MinPrice
      = none ∧
    (calculateStatistics nanOps (InventoryData.fresh nanOps
      [nanPriced "n" none, nanPriced "b" (some 5), nanPriced "c" (some 20)] 3)).MaxPrice
      = none ∧
    (calculateStatistics nanOps (InventoryData.fresh nanOps
      [nanPriced "n" none, nanPriced "b" (some 5), nanPriced "c" (some 20)] 3)).MinPriceItem
      = "n" ∧
    nanOps.le Option.isNone
      (calculateStatistics nanOps (InventoryData.fresh nanOps
        [nanPriced "n" none, nanPriced "b" (some 5), nanPriced "c" (some 20)] 3)).MinPrice
      (some 5) = false ∧
    nanOps.le Option.isNone (some 20)
      (calculateStatistics nanOps (InventoryData.fresh nanOps
        [nanPriced "n" none, nanPriced "b" (some 5), nanPriced "c" (some 20)] 3)).MaxPrice
      = false ∧
    (calculateStatistics nanOps (InventoryData.fresh nanOps
      [nanPriced "b" (some 5), nanPriced "n" none, nanPriced "c" (some 20)] 3)).MinPrice
      = some 5 ∧
    nanOps.le Option.isNone (some 5) none = false := by
  decide

/-- The example of the specification evaluated: values 10, 5, 20 give count 3, sum 35,
minimum 5 and maximum 20; with a later tie at either extreme the first name stays. -/
theorem calculateStatistics_demo_eval :
    calculateStatistics demoOps (InventoryData.fresh demoOps
      [demoPriced "a" 10, demoPriced "b" 5, demoPriced "c" 20] 3)
      = { InventoryData.fresh demoOps
            [demoPriced "a" 10, demoPriced "b" 5, demoPriced "c" 20] 3 with
          MarketableItems := 3, TotalValue := 35, MinPrice := 5, MaxPrice := 20,
          MinPriceItem := "b", MaxPriceItem := "c" } ∧
    (calculateStatistics demoOps (InventoryData.fresh demoOps
      [demoPriced "a" 10, demoPriced "b" 5, demoPriced "c" 20, demoPriced "d" 20,
       demoPriced "e" 5] 9)).MinPriceItem = "b" ∧
    (calculateStatistics demoOps (InventoryData.fresh demoOps
      [demoPriced "a" 10, demoPriced "b" 5, demoPriced "c" 20, demoPriced "d" 20,
       demoPriced "e" 5] 9)).MaxPriceItem = "c" := by
  decide

/-! ## Go library functions -/

theorem strings.TrimSpace_of_no_space (s : List Char) (h : ∀ c ∈ s, isSpace c = false) :
    strings.TrimSpace s = s := by
  unfold strings.TrimSpace
  have h1 : s.dropWhile isSpace = s := by
    cases s with
    | nil => rfl
    | cons a t => simp [List.dropWhile_cons, h a (List.mem_cons_self _ _)]
  rw [h1]
  unfold List.rdropWhile
  have h2 : s.reverse.dropWhile isSpace = s.reverse := by
    cases hr : s.reverse with
    | nil => rfl
    | cons a t =>
      have ha : a ∈ s := by
        have : a ∈ s.reverse := by rw [hr]; exact List.mem_cons_self _ _
        exact List.mem_reverse.mp this
      simp [List.dropWhile_cons, h a ha]
  rw [h2, List.reverse_reverse]

theorem dropWhile_isSpace_append (pre rest : List Char) (hpre : ∀ c ∈ pre, isSpace c = true) :
    (pre ++ rest).dropWhile isSpace = rest.dropWhile isSpace := by
  induction pre with
  | nil => rfl
  | cons a t ih =>
    have ha := hpre a (List.mem_cons_self _ _)
    simp only [List.cons_append, List.dropWhile_cons, ha, if_true]
    exact ih (fun c hc => hpre c (List.mem_cons_of_mem _ hc))

/-- Trimming removes white space around a text that begins and ends with other characters. -/
theorem strings.TrimSpace_sandwich (pre post mid : List Char) (a z : Char)
    (hpre : ∀ c ∈ pre, isSpace c = true) (hpost : ∀ c ∈ post, isSpace c = true)
    (ha : isSpace a = false) (hz : isSpace z = false) :
    strings.TrimSpace (pre ++ (a :: mid ++ [z]) ++ post) = a :: mid ++ [z] := by
  unfold strings.TrimSpace
  rw [List.append_assoc, dropWhile_isSpace_append pre _ hpre]
  have h1 : ((a :: mid ++ [z]) ++ post).dropWhile isSpace = (a :: mid ++ [z]) ++ post := by
    simp [List.dropWhile_cons, ha]
  rw [h1]
  unfold List.rdropWhile
  have h2 : ((a :: mid ++ [z]) ++ post).reverse = post.reverse ++ (z :: (a :: mid).reverse) := by
    simp
  rw [h2, dropWhile_isSpace_append post.reverse _
    (fun c hc => hpost c (List.mem_reverse.mp hc))]
  simp [List.dropWhile_cons, hz]

/-- The result of trimming does not begin with white space. -/
theorem strings.TrimSpace_head (s : List Char) (c : Char) (cs : List Char)
    (h : strings.TrimSpace s = c :: cs) : isSpace c = false := by
  unfold strings.TrimSpace at h
  have hpre : (c :: cs) <+: s.dropWhile isSpace := by
    rw [← h]
    exact List.rdropWhile_prefix _ _
  obtain ⟨t, ht⟩ := hpre
  cases hd : s.dropWhile isSpace with
  | nil => rw [hd] at ht; simp at ht
  | cons b bs =>
    rw [hd] at ht
    have hb : b = c := by
      have := congrArg List.head? ht
      simpa using this.symm
    have hnot := List.head_dropWhile_not isSpace s (by rw [hd]; simp)
    simp only [hd, List.head_cons] at hnot
    rw [← hb]
    simpa using hnot

theorem strings.replaceCount_zero (old new : List Char) (s : List Char) :
    ∀ skip, strings.replaceCount old new 0 skip s = s.drop skip := by
  induction s with
  | nil => intro skip; simp [strings.replaceCount]
  | cons c cs ih =>
    intro skip
    cases skip with
    | zero => simp [strings.replaceCount]
    | succ k => simp [strings.replaceCount, ih k]

theorem strings.replaceCount_skip (old new : List Char) (n : Nat) (t rest : List Char) :
    strings.replaceCount old new n t.length (t ++ rest) = strings.replaceCount old new n 0 rest := by
  induction t with
  | nil => rfl
  | cons c cs ih => simp [strings.replaceCount, ih]

/-- At an occurrence of `old` the replacement is made and the count goes down by one. -/
theorem strings.replaceCount_match (a : Char) (t new rest : List Char) (n : Nat) :
    strings.replaceCount (a :: t) new (n + 1) 0 ((a :: t) ++ rest) =
      new ++ strings.replaceCount (a :: t) new n 0 rest := by
  have hpre : (a :: t).isPrefixOf (a :: (t ++ rest)) = true := by
    simp
  simp only [List.cons_append, strings.replaceCount, hpre, if_true, List.length_cons,
    Nat.add_sub_cancel, List.append_eq]
  rw [strings.replaceCount_skip]

/-- A stretch in which the second character of `old` does not occur, followed by a text
that does not begin with it, holds no occurrence of `old` and is copied. -/
theorem strings.replaceCount_copy (a b : Char) (t new : List Char) (n : Nat)
    (ds rest : List Char) (hds : ∀ c ∈ ds, c ≠ b) (hrest : rest.head? ≠ some b) :
    strings.replaceCount (a :: b :: t) new (n + 1) 0 (ds ++ rest) =
      ds ++ strings.replaceCount (a :: b :: t) new (n + 1) 0 rest := by
  induction ds with
  | nil => rfl
  | cons c cs ih =>
    have hnext : (cs ++ rest).head? ≠ some b := by
      cases cs with
      | nil => simpa using hrest
      | cons e es =>
        have := hds e (List.mem_cons_of_mem _ (List.mem_cons_self _ _))
        simpa using this
    have hpre : (a :: b :: t).isPrefixOf (c :: (cs ++ rest)) = false := by
      cases hcr : cs ++ rest with
      | nil => simp [List.isPrefixOf]
      | cons e es =>
        have hne : e ≠ b := by
          rw [hcr] at hnext
          simpa using hnext
        have hbe : (b == e) = false := by simpa using Ne.symm hne
        simp [List.isPrefixOf, hbe]
    simp only [List.cons_append, strings.replaceCount, hpre, List.append_eq]
    rw [ih (fun x hx => hds x (List.mem_cons_of_mem _ hx))]
    simp

/-- A stretch without the single character `a` is copied when `[a]` is replaced. -/
theorem strings.replaceCount_copy_char (a : Char) (new : List Char) (n : Nat)
    (ds rest : List Char) (hds : ∀ c ∈ ds, c ≠ a) :
    strings.replaceCount [a] new (n + 1) 0 (ds ++ rest) =
      ds ++ strings.replaceCount [a] new (n + 1) 0 rest := by
  induction ds with
  | nil => rfl
  | cons c cs ih =>
    have hca : (a == c) = false := by
      simpa using Ne.symm (hds c (List.mem_cons_self _ _))
    have hpre : [a].isPrefixOf (c :: (cs ++ rest)) = false := by
      simp [List.isPrefixOf, hca]
    simp only [List.cons_append, strings.replaceCount, hpre, List.append_eq]
    rw [ih (fun x hx => hds x (List.mem_cons_of_mem _ hx))]
    simp

/-- Replacing every occurrence of a single character by nothing filters it out. -/
theorem strings.replaceCount_delete_char (a : Char) (s : List Char) :
    ∀ n, s.length < n → strings.replaceCount [a] [] n 0 s = s.filter (fun c => c != a) := by
  induction s with
  | nil => intro n _; simp [strings.replaceCount]
  | cons c cs ih =>
    intro n hn
    obtain ⟨m, rfl⟩ : ∃ m, n = m + 1 := ⟨n - 1, by simp at hn; omega⟩
    have hlen : cs.length < m := by simp at hn; omega
    by_cases hca : c = a
    · subst hca
      have hpre : [c].isPrefixOf (c :: cs) = true := by simp [List.isPrefixOf]
      simp only [strings.replaceCount, hpre, if_true, List.length_singleton, Nat.sub_self,
        List.nil_append]
      rw [ih m hlen]
      simp
    · have hb : (a == c) = false := by simpa using Ne.symm hca
      have hpre : [a].isPrefixOf (c :: cs) = false := by simp [List.isPrefixOf, hb]
      simp only [strings.replaceCount, hpre]
      rw [ih (m + 1) (by omega)]
      simp [List.filter_cons, hca]

theorem fmt.accept_mem (ok buf : List Char) (c : Char) (cs : List Char) (h : c ∈ ok) :
    fmt.accept ok (buf, c :: cs) = (true, buf ++ [c], cs) := by
  simp [fmt.accept, h]

theorem fmt.accept_not_mem (ok buf : List Char) (c : Char) (cs : List Char) (h : c ∉ ok) :
    fmt.accept ok (buf, c :: cs) = (false, buf, c :: cs) := by
  simp [fmt.accept, h]

theorem fmt.accept_nil (ok buf : List Char) :
    fmt.accept ok (buf, []) = (false, buf, []) := by
  simp [fmt.accept]

/-- The accepting loop consumes a stretch of accepted characters up to the first other one. -/
theorem fmt.acceptAll_append (ok xs rest : List Char) (hxs : ∀ c ∈ xs, c ∈ ok)
    (hrest : ∀ c, rest.head? = some c → c ∉ ok) :
    ∀ buf, fmt.acceptAll ok buf (xs ++ rest) = (buf ++ xs, rest) := by
  induction xs with
  | nil =>
    intro buf
    cases rest with
    | nil => simp [fmt.acceptAll]
    | cons r rs =>
      have := hrest r rfl
      simp [fmt.acceptAll, this]
  | cons x xs ih =>
    intro buf
    have hx := hxs x (List.mem_cons_self _ _)
    simp only [List.cons_append, fmt.acceptAll, hx, if_true, List.append_eq]
    rw [ih (fun c hc => hxs c (List.mem_cons_of_mem _ hc))]
    simp

/-! ## `parsePrice` -/

/-- What the scanner and the normalisation need to know about the decimal digits. -/
theorem decimalDigits_facts :
    ∀ c ∈ fmt.decimalDigits,
      isSpace c = false ∧ c.toNat ≠ 10 ∧ c ≠ '(' ∧ c ≠ 'у' ∧ c ≠ ',' ∧ c ≠ ' ' ∧
      c ∉ "nN".data ∧ c ∉ "+-".data ∧ c ∉ "iI".data ∧ c ∉ "xX".data ∧
      c ∈ fmt.decimalDigits ++ "_".data := by
  decide

/-- The normalisation of a price of the form digits, comma, digits, currency suffix and
lowest-price annotation, with white space around it and spaces among the digits. -/
theorem normalizePrice_price_form (pre post ip fp : List Char) (d : Char)
    (hpre : ∀ c ∈ pre, isSpace c = true) (hpost : ∀ c ∈ post, isSpace c = true)
    (hd : d ∈ fmt.decimalDigits)
    (hip : ∀ c ∈ ip, c ∈ fmt.decimalDigits ∨ c = ' ')
    (hfp : ∀ c ∈ fp, c ∈ fmt.decimalDigits ∨ c = ' ') :
    normalizePrice (String.mk (pre ++ (d :: ip ++ ',' :: fp ++ " руб. (lowest)".data) ++ post))
      = d :: ip.filter (fun c => c != ' ') ++ '.' :: fp.filter (fun c => c != ' ') := by
  have hdig := decimalDigits_facts
  have hipne : ∀ c ∈ ip, c ≠ '(' ∧ c ≠ 'у' ∧ c ≠ ',' := by
    intro c hc
    rcases hip c hc with h | h
    · exact ⟨(hdig c h).2.2.1, (hdig c h).2.2.2.1, (hdig c h).2.2.2.2.1⟩
    · subst h; decide
  have hfpne : ∀ c ∈ fp, c ≠ '(' ∧ c ≠ 'у' := by
    intro c hc
    rcases hfp c hc with h | h
    · exact ⟨(hdig c h).2.2.1, (hdig c h).2.2.2.1⟩
    · subst h; decide
  have hall : ∀ (P : Char → Prop) (suffix : List Char), P d → (∀ c ∈ ip, P c) → P ',' →
      (∀ c ∈ fp, P c) → (∀ c ∈ suffix, P c) → ∀ c ∈ d :: ip ++ ',' :: fp ++ suffix, P c := by
    intro P suffix p1 p2 p3 p4 p5 c hc
    simp only [List.mem_append, List.mem_cons] at hc
    rcases hc with ((h | h) | h | h) | h
    · rw [h]; exact p1
    · exact p2 c h
    · rw [h]; exact p3
    · exact p4 c h
    · exact p5 c h
  unfold normalizePrice
  simp only
  -- first trim
  have h1 : strings.TrimSpace
      (pre ++ (d :: ip ++ ',' :: fp ++ " руб. (lowest)".data) ++ post)
      = d :: ip ++ ',' :: fp ++ " руб. (lowest)".data := by
    have hshape : d :: ip ++ ',' :: fp ++ " руб. (lowest)".data
        = d :: (ip ++ ',' :: fp ++ " руб. (lowest".data) ++ [')'] := by
      simp
    rw [hshape]
    exact strings.TrimSpace_sandwich pre post _ d ')' hpre hpost (hdig d hd).1 (by decide)
  rw [h1]
  -- the lowest-price annotation
  have h2 : strings.Replace (d :: ip ++ ',' :: fp ++ " руб. (lowest)".data)
      " (lowest)".data [] 1 = d :: ip ++ ',' :: fp ++ " руб.".data := by
    have hsplit : d :: ip ++ ',' :: fp ++ " руб. (lowest)".data
        = (d :: ip ++ ',' :: fp ++ " руб.".data) ++ (" (lowest)".data ++ []) := by
      simp
    have hold : " (lowest)".data = ' ' :: '(' :: "lowest)".data := rfl
    unfold strings.Replace
    rw [if_neg (by decide), if_neg (by decide)]
    rw [hsplit, hold]
    have hone : (1 : Int).toNat = 0 + 1 := rfl
    rw [hone, strings.replaceCount_copy ' ' '(' _ [] 0 _ _ ?_ (by simp),
      strings.replaceCount_match, strings.replaceCount_zero]
    · simp
    · exact hall (fun c => c ≠ '(') _ (hdig d hd).2.2.1 (fun c h => (hipne c h).1) (by decide)
        (fun c h => (hfpne c h).1) (by decide)
  rw [h2]
  -- the currency suffix
  have h3 : strings.Replace (d :: ip ++ ',' :: fp ++ " руб.".data) "руб.".data [] 1
      = d :: ip ++ ',' :: fp ++ [' '] := by
    have hsplit : d :: ip ++ ',' :: fp ++ " руб.".data
        = (d :: ip ++ ',' :: fp ++ [' ']) ++ ("руб.".data ++ []) := by
      simp
    have hold : "руб.".data = 'р' :: 'у' :: "б.".data := rfl
    unfold strings.Replace
    rw [if_neg (by decide), if_neg (by decide)]
    rw [hsplit, hold]
    have hone : (1 : Int).toNat = 0 + 1 := rfl
    rw [hone, strings.replaceCount_copy 'р' 'у' _ [] 0 _ _ ?_ (by simp),
      strings.replaceCount_match, strings.replaceCount_zero]
    · simp
    · exact hall (fun c => c ≠ 'у') _ (hdig d hd).2.2.2.1 (fun c h => (hipne c h).2.1)
        (by decide) (fun c h => (hfpne c h).2) (by decide)
  rw [h3]
  -- the decimal comma
  have h4 : strings.Replace (d :: ip ++ ',' :: fp ++ [' ']) ",".data ".".data 1
      = d :: ip ++ '.' :: fp ++ [' '] := by
    have hsplit : d :: ip ++ ',' :: fp ++ [' ']
        = (d :: ip) ++ ([','] ++ (fp ++ [' '])) := by
      simp
    unfold strings.Replace
    rw [if_neg (by decide), if_neg (by decide)]
    rw [hsplit]
    have hone : (1 : Int).toNat = 0 + 1 := rfl
    have hold : ",".data = [','] := rfl
    rw [hone, hold, strings.replaceCount_copy_char ',' _ 0 _ _ ?_,
      strings.replaceCount_match, strings.replaceCount_zero]
    · simp
    · intro c hc
      rcases List.mem_cons.mp hc with h | h
      · rw [h]; exact (hdig d hd).2.2.2.2.1
      · exact (hipne c h).2.2
  rw [h4]
  -- the spaces
  have h5 : strings.Replace (d :: ip ++ '.' :: fp ++ [' ']) " ".data [] (-1)
      = d :: ip.filter (fun c => c != ' ') ++ '.' :: fp.filter (fun c => c != ' ') := by
    unfold strings.Replace
    rw [if_neg (by decide), if_pos (by decide)]
    have hold : " ".data = [' '] := rfl
    rw [hold, strings.replaceCount_delete_char ' ' _ _ (by omega)]
    have hdne : (d != ' ') = true := by simpa using (hdig d hd).2.2.2.2.2.1
    simp [List.filter_cons, List.filter_append, hdne]
  rw [h5]
  -- second trim
  apply strings.TrimSpace_of_no_space
  intro c hc
  simp only [List.mem_cons, List.mem_append, List.mem_filter] at hc
  rcases hc with (h | h) | h | h
  · rw [h]; exact (hdig d hd).1
  · rcases hip c h.1 with h' | h'
    · exact (hdig c h').1
    · simp [h'] at h
  · rw [h]; decide
  · rcases hfp c h.1 with h' | h'
    · exact (hdig c h').1
    · simp [h'] at h

/-- The float token of a plain decimal literal is the whole literal. -/
theorem fmt.floatToken_decimal (d : Char) (ip fp : List Char) (hd : d ∈ fmt.decimalDigits)
    (hip : ∀ c ∈ ip, c ∈ fmt.decimalDigits) (hfp : ∀ c ∈ fp, c ∈ fmt.decimalDigits) :
    fmt.floatToken (d :: ip ++ '.' :: fp) = d :: ip ++ '.' :: fp := by
  have hdig := decimalDigits_facts
  obtain ⟨_, _, _, _, _, _, hn, hs, hi, _, hdd⟩ := hdig d hd
  have hipd : ∀ c ∈ ip, c ∈ fmt.decimalDigits ++ "_".data := fun c hc => (hdig c (hip c hc)).2.2.2.2.2.2.2.2.2.2
  have hfpd : ∀ c ∈ fp, c ∈ fmt.decimalDigits ++ "_".data := fun c hc => (hdig c (hfp c hc)).2.2.2.2.2.2.2.2.2.2
  have hdot : ∀ c, ('.' :: fp).head? = some c → c ∉ fmt.decimalDigits ++ "_".data := by
    intro c hc
    simp only [List.head?_cons, Option.some.injEq] at hc
    rw [← hc]
    decide
  have hend : ∀ c, ([] : List Char).head? = some c → c ∉ fmt.decimalDigits ++ "_".data := by
    intro c hc
    simp at hc
  have hfrac : ∀ buf, fmt.acceptAll (fmt.decimalDigits ++ "_".data) buf fp = (buf ++ fp, []) := by
    intro buf
    have := fmt.acceptAll_append (fmt.decimalDigits ++ "_".data) fp [] hfpd hend buf
    simpa using this
  have hx : ∀ buf, fmt.accept "xX".data (buf, ip ++ '.' :: fp) = (false, buf, ip ++ '.' :: fp) := by
    intro buf
    cases ip with
    | nil => exact fmt.accept_not_mem _ _ _ _ (by decide)
    | cons a as =>
      exact fmt.accept_not_mem _ _ _ _ (hdig a (hip a (List.mem_cons_self _ _))).2.2.2.2.2.2.2.2.2.1
  unfold fmt.floatToken
  simp only [List.cons_append, fmt.accept_not_mem _ _ _ _ hn, Bool.false_eq_true, if_false,
    fmt.accept_not_mem _ _ _ _ hs, fmt.accept_not_mem _ _ _ _ hi]
  by_cases hz : d ∈ "0".data
  · simp only [fmt.accept_mem _ _ _ _ hz, if_true, hx, Bool.false_eq_true, if_false,
      List.nil_append]
    rw [fmt.acceptAll_append _ ip ('.' :: fp) hipd hdot]
    simp only [fmt.accept_mem _ _ _ _ (by decide : '.' ∈ ".".data), if_true, hfrac,
      fmt.accept_nil, Bool.false_eq_true, if_false]
    simp
  · simp only [fmt.accept_not_mem _ _ _ _ hz, Bool.false_eq_true, if_false]
    have hcons : d :: (ip ++ '.' :: fp) = (d :: ip) ++ '.' :: fp := rfl
    rw [hcons, fmt.acceptAll_append _ (d :: ip) ('.' :: fp)
      (by
        intro c hc
        rcases List.mem_cons.mp hc with h | h
        · rw [h]; exact hdd
        · exact hipd c h) hdot]
    simp only [fmt.accept_mem _ _ _ _ (by decide : '.' ∈ ".".data), if_true, hfrac,
      fmt.accept_nil, Bool.false_eq_true, if_false]
    simp

/-- A text that begins with a character no float token can begin with has an empty token. -/
theorem fmt.floatToken_no_start (c : Char) (cs : List Char)
    (hc : c ∉ "nN+-iI0123456789_.eEpP".data) : fmt.floatToken (c :: cs) = [] := by
  have h1 : c ∉ "nN".data := fun h => hc
    ((by decide : ∀ x ∈ "nN".data, x ∈ "nN+-iI0123456789_.eEpP".data) c h)
  have h2 : c ∉ "+-".data := fun h => hc
    ((by decide : ∀ x ∈ "+-".data, x ∈ "nN+-iI0123456789_.eEpP".data) c h)
  have h3 : c ∉ "iI".data := fun h => hc
    ((by decide : ∀ x ∈ "iI".data, x ∈ "nN+-iI0123456789_.eEpP".data) c h)
  have h4 : c ∉ "0".data := fun h => hc
    ((by decide : ∀ x ∈ "0".data, x ∈ "nN+-iI0123456789_.eEpP".data) c h)
  have h5 : c ∉ fmt.decimalDigits ++ "_".data := fun h => hc
    ((by decide : ∀ x ∈ fmt.decimalDigits ++ "_".data,
      x ∈ "nN+-iI0123456789_.eEpP".data) c h)
  have h6 : c ∉ ".".data := fun h => hc
    ((by decide : ∀ x ∈ ".".data, x ∈ "nN+-iI0123456789_.eEpP".data) c h)
  have h7 : c ∉ "eEpP".data := fun h => hc
    ((by decide : ∀ x ∈ "eEpP".data, x ∈ "nN+-iI0123456789_.eEpP".data) c h)
  unfold fmt.floatToken
  simp only [fmt.accept_not_mem _ _ _ _ h1, Bool.false_eq_true, if_false,
    fmt.accept_not_mem _ _ _ _ h2, fmt.accept_not_mem _ _ _ _ h3,
    fmt.accept_not_mem _ _ _ _ h4]
  have hall : fmt.acceptAll (fmt.decimalDigits ++ "_".data) [] (c :: cs) = ([], c :: cs) := by
    simp [fmt.acceptAll, h5]
  rw [hall]
  simp only [fmt.accept_not_mem _ _ _ _ h6, Bool.false_eq_true, if_false,
    fmt.accept_not_mem _ _ _ _ h7]

theorem fmt.accept_inv (input ok : List Char) (st : List Char × List Char)
    (h : st.1 ++ st.2 = input) :
    (fmt.accept ok st).2.1 ++ (fmt.accept ok st).2.2 = input := by
  unfold fmt.accept
  cases hs : st.2 with
  | nil => simpa [hs] using h
  | cons c cs =>
    by_cases hc : c ∈ ok
    · rw [← h, hs]
      simp [hc]
    · rw [← h, hs]
      simp [hc, hs]

theorem fmt.accept_if_inv (input : List Char) (b : Bool) (ok : List Char)
    (st : List Char × List Char) (h : st.1 ++ st.2 = input) :
    (if b = true then fmt.accept ok st else (false, st)).2.1 ++
      (if b = true then fmt.accept ok st else (false, st)).2.2 = input := by
  cases b
  · exact h
  · exact fmt.accept_inv input ok st h

theorem fmt.acceptAll_inv (input ok : List Char) (s : List Char) :
    ∀ buf, buf ++ s = input →
      (fmt.acceptAll ok buf s).1 ++ (fmt.acceptAll ok buf s).2 = input := by
  induction s with
  | nil => intro buf h; exact h
  | cons c cs ih =>
    intro buf h
    by_cases hc : c ∈ ok
    · simp only [fmt.acceptAll, hc, if_true]
      exact ih _ (by rw [← h]; simp)
    · simpa [fmt.acceptAll, hc] using h

theorem fmt.acceptAll_if_inv (input : List Char) (b : Bool) (ok : List Char)
    (st : List Char × List Char) (h : st.1 ++ st.2 = input) :
    (if b = true then fmt.acceptAll ok st.1 st.2 else st).1 ++
      (if b = true then fmt.acceptAll ok st.1 st.2 else st).2 = input := by
  cases b
  · exact h
  · exact fmt.acceptAll_inv input ok st.2 st.1 h

/-- The token of `floatToken` is the beginning of the input. -/
theorem fmt.floatToken_prefix (input : List Char) : fmt.floatToken input <+: input := by
  have h0 : (([] : List Char), input).1 ++ (([] : List Char), input).2 = input := rfl
  unfold fmt.floatToken
  lift_lets
  intro a1 a2 a3 b0 b1 b2 b3 z x digits exp d p f e s
  have h1 : a1.2.1 ++ a1.2.2 = input := fmt.accept_inv _ _ _ h0
  have h2 : a2.2.1 ++ a2.2.2 = input := fmt.accept_if_inv _ _ _ _ h1
  have h3 : a3.2.1 ++ a3.2.2 = input := fmt.accept_if_inv _ _ _ _ h2
  have g0 : b0.2.1 ++ b0.2.2 = input := fmt.accept_inv _ _ _ h3
  have g1 : b1.2.1 ++ b1.2.2 = input := fmt.accept_inv _ _ _ g0
  have g2 : b2.2.1 ++ b2.2.2 = input := fmt.accept_if_inv _ _ _ _ g1
  have g3 : b3.2.1 ++ b3.2.2 = input := fmt.accept_if_inv _ _ _ _ g2
  have hz : z.2.1 ++ z.2.2 = input := fmt.accept_inv _ _ _ g3
  have hx : x.2.1 ++ x.2.2 = input := fmt.accept_if_inv _ _ _ _ hz
  have hd : d.1 ++ d.2 = input := fmt.acceptAll_inv _ _ _ _ hx
  have hp : p.2.1 ++ p.2.2 = input := fmt.accept_inv _ _ _ hd
  have hf : f.1 ++ f.2 = input := fmt.acceptAll_if_inv _ _ _ _ hp
  have he : e.2.1 ++ e.2.2 = input := fmt.accept_inv _ _ _ hf
  have hs : s.2.1 ++ s.2.2 = input := fmt.accept_inv _ _ _ he
  split
  · exact ⟨_, h3⟩
  · split
    · exact ⟨_, g3⟩
    · split
      · exact ⟨_, fmt.acceptAll_inv _ _ _ _ hs⟩
      · exact ⟨_, he⟩

/-- A special text that begins the input makes the input begin with `nan`, `inf`, `+inf`
or `-inf`. -/
theorem strconv.startsSpecial_of_prefix (tok t : List Char)
    (h : strconv.isSpecial tok = true) (hp : tok <+: t) : strconv.startsSpecial t = true := by
  have hmem : tok.map Char.toLower ∈ strconv.specialTokens := by
    unfold strconv.isSpecial at h
    exact List.elem_iff.mp h
  have hpre : tok.map Char.toLower <+: t.map Char.toLower := hp.map _
  have key : ∀ p ∈ strconv.specialTokens,
      ∃ q ∈ ["nan".data, "inf".data, "+inf".data, "-inf".data], q.isPrefixOf p = true := by
    decide
  obtain ⟨q, hq, hqp⟩ := key _ hmem
  unfold strconv.startsSpecial
  rw [List.any_eq_true]
  exact ⟨q, hq, List.isPrefixOf_iff_prefix.mpr ((List.isPrefixOf_iff_prefix.mp hqp).trans hpre)⟩

/-- The scan fails, and `parsePrice` returns 0, for every input whose normalised text has
no decimal digit and does not begin with `nan`, `inf`, `+inf` or `-inf`. -/
theorem parsePrice_no_digit {F : Type} (convertFloat : String → Option F) (zero : F)
    (input : String)
    (hreject : ∀ tok : List Char, (∀ c ∈ tok, c.isDigit = false) →
      strconv.isSpecial tok = false → convertFloat (String.mk tok) = none)
    (hnodigit : ∀ c ∈ normalizePrice input, c.isDigit = false)
    (hstart : strconv.startsSpecial (normalizePrice input) = false) :
    parsePrice convertFloat zero input = zero := by
  unfold parsePrice fmt.Sscanf_f
  cases ht : normalizePrice input with
  | nil => simp [fmt.SkipSpace]
  | cons c cs =>
    have hsp : isSpace c = false := by
      unfold normalizePrice at ht
      exact strings.TrimSpace_head _ c cs ht
    have hnl : c.toNat ≠ 10 := by
      intro h10
      have : isSpace c = true := by simp [isSpace, h10]
      rw [hsp] at this
      exact absurd this (by decide)
    have hskip : fmt.SkipSpace (c :: cs) = some (c :: cs) := by
      simp [fmt.SkipSpace, hsp, hnl]
    rw [hskip]
    simp only
    have hpre := fmt.floatToken_prefix (c :: cs)
    have hdig : ∀ x ∈ fmt.floatToken (c :: cs), x.isDigit = false := by
      intro x hx
      exact hnodigit x (by rw [ht]; exact hpre.subset hx)
    have hspec : strconv.isSpecial (fmt.floatToken (c :: cs)) = false := by
      cases hs : strconv.isSpecial (fmt.floatToken (c :: cs)) with
      | false => rfl
      | true =>
        have := strconv.startsSpecial_of_prefix _ _ hs hpre
        rw [← ht, hstart] at this
        exact absurd this (by decide)
    rw [hreject _ hdig hspec]
    rfl

/-- The stand-in `nanLiteral` rejects what `strconv.ParseFloat` rejects among the texts
without a digit. -/
theorem nanLiteral_rejects (tok : List Char) (hdig : ∀ c ∈ tok, c.isDigit = false)
    (hspec : strconv.isSpecial tok = false) : nanLiteral (String.mk tok) = none := by
  have hnan : tok.map Char.toLower ≠ "nan".data := by
    intro h
    have : strconv.isSpecial tok = true := by
      unfold strconv.isSpecial
      rw [h]
      decide
    rw [hspec] at this
    exact absurd this (by decide)
  unfold nanLiteral
  simp only [hnan, if_false]
  have hdec : decimalLiteral (String.mk tok) = none := by
    unfold decimalLiteral
    cases tok with
    | nil => rfl
    | cons c cs =>
      have hc : c.isDigit = false := hdig c (List.mem_cons_self _ _)
      simp only [List.takeWhile_cons, List.dropWhile_cons, hc, Bool.false_eq_true, if_false]
      have hcs : ¬ (c = '.' ∧ (cs.all Char.isDigit = true) ∧
          (([] : List Char) ≠ [] ∨ cs ≠ [])) := by
        rintro ⟨_, hall, hne⟩
        rcases hne with hne | hne
        · exact hne rfl
        · cases cs with
          | nil => exact hne rfl
          | cons y ys =>
            have hy := hdig y (List.mem_cons_of_mem _ (List.mem_cons_self _ _))
            simp [hy] at hall
      rw [if_neg hcs]
  rw [hdec]
  rfl

/-- C12 (amended). For every price string made of white space, a digit, further digits and
spaces, a comma, digits and spaces, the suffix ` руб. (lowest)` and white space,
`parsePrice` (steam_api.go) returns what the conversion of `strconv.ParseFloat` gives for
the decimal literal made of the digits before the comma, a dot and the digits after the
comma, and 0 should that conversion report an error; and it returns 0 for every input
whose normalised form is empty, or begins with a character that cannot begin a number
token, or has no decimal digit and does not begin with `nan`, `inf`, `+inf` or `-inf` in
any letter case. The conversion is any function that rejects the texts without a digit
other than the special ones, as `strconv.ParseFloat` does. -/
theorem parsePrice_spec {F : Type} (convertFloat : String → Option F) (zero : F)
    (pre post ip fp : List Char) (d : Char) (input : String)
    (hpre : ∀ c ∈ pre, isSpace c = true) (hpost : ∀ c ∈ post, isSpace c = true)
    (hd : d ∈ fmt.decimalDigits)
    (hip : ∀ c ∈ ip, c ∈ fmt.decimalDigits ∨ c = ' ')
    (hfp : ∀ c ∈ fp, c ∈ fmt.decimalDigits ∨ c = ' ')
    (hreject : ∀ tok : List Char, (∀ c ∈ tok, c.isDigit = false) →
      strconv.isSpecial tok = false → convertFloat (String.mk tok) = none)
    (hnone : (normalizePrice input = [] ∨
        ∃ c cs, normalizePrice input = c :: cs ∧ c ∉ "nN+-iI0123456789_.eEpP".data) ∨
      ((∀ c ∈ normalizePrice input, c.isDigit = false) ∧
        strconv.startsSpecial (normalizePrice input) = false)) :
    parsePrice convertFloat zero
        (String.mk (pre ++ (d :: ip ++ ',' :: fp ++ " руб. (lowest)".data) ++ post))
      = (convertFloat (String.mk
          (d :: ip.filter (fun c => c != ' ') ++ '.' :: fp.filter (fun c => c != ' ')))).getD
          zero ∧
    parsePrice convertFloat zero input = zero := by
  have hempty : convertFloat "" = none :=
    hreject [] (fun c hc => absurd hc (List.not_mem_nil c)) (by decide)
  constructor
  · unfold parsePrice
    rw [normalizePrice_price_form pre post ip fp d hpre hpost hd hip hfp]
    have hfilter : ∀ (l : List Char), (∀ c ∈ l, c ∈ fmt.decimalDigits ∨ c = ' ') →
        ∀ c ∈ l.filter (fun c => c != ' '), c ∈ fmt.decimalDigits := by
      intro l hl c hc
      obtain ⟨hmem, hne⟩ := List.mem_filter.mp hc
      rcases hl c hmem with h | h
      · exact h
      · simp [h] at hne
    have htok := fmt.floatToken_decimal d _ _ hd (hfilter ip hip) (hfilter fp hfp)
    have hskip : fmt.SkipSpace
        (d :: ip.filter (fun c => c != ' ') ++ '.' :: fp.filter (fun c => c != ' '))
        = some (d :: (ip.filter (fun c => c != ' ') ++ '.' :: fp.filter (fun c => c != ' '))) := by
      have h1 := (decimalDigits_facts d hd).1
      have h2 := (decimalDigits_facts d hd).2.1
      simp [fmt.SkipSpace, h1, h2]
    unfold fmt.Sscanf_f
    rw [hskip]
    simp only
    rw [← List.cons_append, htok]
  · rcases hnone with (h | ⟨c, cs, h, hc⟩) | ⟨hdig, hstart⟩
    · unfold parsePrice fmt.Sscanf_f
      rw [h]
      simp [fmt.SkipSpace]
    · unfold parsePrice fmt.Sscanf_f
      rw [h]
      have hsp : isSpace c = false := by
        unfold normalizePrice at h
        exact strings.TrimSpace_head _ c cs h
      have hnl : c.toNat ≠ 10 := by
        intro h10
        have : isSpace c = true := by simp [isSpace, h10]
        rw [hsp] at this
        exact absurd this (by decide)
      have hskip : fmt.SkipSpace (c :: cs) = some (c :: cs) := by
        simp [fmt.SkipSpace, hsp, hnl]
      rw [hskip]
      simp only
      rw [fmt.floatToken_no_start c cs hc]
      have : String.mk [] = "" := rfl
      rw [this, hempty]
      rfl
    · exact parsePrice_no_digit convertFloat zero input hreject hdig hstart

/-- Witness for C12: `15,50 руб. (lowest)` gives 15.50 and `n/a`, a text without a digit
whose token `n` is rejected, gives 0, with a conversion that reads decimal literals exactly
and knows NaN. -/
theorem parsePrice_spec_witness :
    parsePrice nanLiteral (some { mantissa := 0, scale := 0 })
        (String.mk ([] ++ ('1' :: "5".data ++ ',' :: "50".data ++ " руб. (lowest)".data) ++ []))
      = (nanLiteral (String.mk
          ('1' :: "5".data.filter (fun c => c != ' ') ++
            '.' :: "50".data.filter (fun c => c != ' ')))).getD
          (some { mantissa := 0, scale := 0 }) ∧
    parsePrice nanLiteral (some { mantissa := 0, scale := 0 }) "n/a"
      = some { mantissa := 0, scale := 0 } :=
  parsePrice_spec nanLiteral (some { mantissa := 0, scale := 0 }) [] [] "5".data "50".data '1'
    "n/a" (by decide) (by decide) (by decide) (by decide) (by decide) nanLiteral_rejects
    (Or.inr ⟨by decide, by decide⟩)

/-- Counterexample for C12 as stated, with inputs that leave no number but begin with `nan`
or `inf`: the token handed to the conversion is `NaN`, `nan` or `Inf`, which
`strconv.ParseFloat` accepts, so `parsePrice` returns NaN or +Inf and not 0. With the
conversion that knows NaN, `nanogram` and `NaN (lowest)` give NaN (`none`). -/
theorem parsePrice_nan_not_zero :
    (∀ (F : Type) (convertFloat : String → Option F) (zero : F),
      parsePrice convertFloat zero "NaN (lowest)" = (convertFloat "NaN").getD zero ∧
      parsePrice convertFloat zero "nanogram" = (convertFloat "nan").getD zero ∧
      parsePrice convertFloat zero "Info" = (convertFloat "Inf").getD zero) ∧
    (∀ c ∈ normalizePrice "nanogram", c.isDigit = false) ∧
    parsePrice nanLiteral (some { mantissa := 0, scale := 0 }) "nanogram" = none ∧
    parsePrice nanLiteral (some { mantissa := 0, scale := 0 }) "NaN (lowest)" = none ∧
    parsePrice nanLiteral (some { mantissa := 0, scale := 0 }) "nanogram"
      ≠ some { mantissa := 0, scale := 0 } := by
  refine ⟨fun F convertFloat zero => ⟨rfl, rfl, rfl⟩, by decide, by decide, by decide,
    by decide⟩

/-- The examples evaluated: 15.50 and 1234.50 as exact decimals, 0 for `garbage`. -/
theorem parsePrice_demo_eval :
    parsePrice decimalLiteral { mantissa := 0, scale := 0 } "15,50 руб. (lowest)"
      = { mantissa := 1550, scale := 2 } ∧
    parsePrice decimalLiteral { mantissa := 0, scale := 0 } "  1 234,50 руб. (lowest) "
      = { mantissa := 123450, scale := 2 } ∧
    parsePrice decimalLiteral { mantissa := 0, scale := 0 } "garbage"
      = { mantissa := 0, scale := 0 } := by
  decide

/-- Inputs that leave no number evaluated with the conversion that knows NaN: 0 for
`garbage`, `n/a`, `-`, `error`, `pending` and the empty string. -/
theorem parsePrice_no_number_eval :
    parsePrice nanLiteral (some { mantissa := 0, scale := 0 }) "garbage"
      = some { mantissa := 0, scale := 0 } ∧
    parsePrice nanLiteral (some { mantissa := 0, scale := 0 }) "n/a"
      = some { mantissa := 0, scale := 0 } ∧
    parsePrice nanLiteral (some { mantissa := 0, scale := 0 }) "-"
      = some { mantissa := 0, scale := 0 } ∧
    parsePrice nanLiteral (some { mantissa := 0, scale := 0 }) "error"
      = some { mantissa := 0, scale := 0 } ∧
    parsePrice nanLiteral (some { mantissa := 0, scale := 0 }) "pending"
      = some { mantissa := 0, scale := 0 } ∧
    parsePrice nanLiteral (some { mantissa := 0, scale := 0 }) ""
      = some { mantissa := 0, scale := 0 } := by
  decide

set_option maxRecDepth 100000 in
/-- An amount beyond the range of `float64` evaluated with the conversion that reports the
range error: a price of the form with 310 digits before the comma gives 0, not the decimal
number written. -/
theorem parsePrice_out_of_range_eval :
    parsePrice rangedLiteral { mantissa := 0, scale := 0 }
      (String.mk ('1' :: List.replicate 309 '0' ++ ",50 руб. (lowest)".data))
      = { mantissa := 0, scale := 0 } ∧
    parsePrice rangedLiteral { mantissa := 0, scale := 0 } "15,50 руб. (lowest)"
      = { mantissa := 1550, scale := 2 } := by
  decide

/-! ## Identity resolution -/

theorem findAfter_here (pat : List Char) (p : Char → Bool) (c2 : Char) (rest2 : List Char) :
    (pat.isPrefixOf (pat ++ c2 :: rest2) &&
      (((pat ++ c2 :: rest2).drop pat.length).head?.map p).getD false) = p c2 := by
  have h1 : pat.isPrefixOf (pat ++ c2 :: rest2) = true := by simp
  simp [h1]

/-- A match found by `findAfter` is the leftmost place where the pattern is followed by a
character of the class, and the capture is the longest run of such characters there. -/
theorem findAfter_sound (pat : List Char) (p : Char → Bool) (s : List Char) :
    ∀ cap, findAfter pat p s = some cap →
      ∃ pre rest, s = pre ++ pat ++ cap ++ rest ∧ cap ≠ [] ∧ (∀ c ∈ cap, p c = true) ∧
        (∀ c, rest.head? = some c → p c = false) ∧
        (∀ pre2 c2 rest2, s = pre2 ++ pat ++ c2 :: rest2 → p c2 = true →
          pre.length ≤ pre2.length) := by
  induction s with
  | nil => intro cap h; simp [findAfter] at h
  | cons c cs ih =>
    intro cap h
    by_cases hcond : (pat.isPrefixOf (c :: cs) &&
        (((c :: cs).drop pat.length).head?.map p).getD false) = true
    · simp only [findAfter, hcond, if_true, Option.some.injEq] at h
      simp only [Bool.and_eq_true] at hcond
      obtain ⟨hpre, hhead⟩ := hcond
      obtain ⟨r, hr⟩ := List.isPrefixOf_iff_prefix.mp hpre
      have hdrop : (c :: cs).drop pat.length = r := by
        rw [← hr]; simp
      rw [hdrop] at h hhead
      refine ⟨[], r.dropWhile p, ?_, ?_, ?_, ?_, ?_⟩
      · rw [← h, ← hr]
        simp [List.takeWhile_append_dropWhile]
      · rw [← h]
        cases r with
        | nil => simp at hhead
        | cons a as =>
          simp only [List.head?_cons, Option.map_some', Option.getD_some] at hhead
          simp [List.takeWhile_cons, hhead]
      · intro x hx
        rw [← h] at hx
        exact (List.mem_takeWhile_imp hx)
      · intro x hx
        cases hd : r.dropWhile p with
        | nil => rw [hd] at hx; simp at hx
        | cons a as =>
          rw [hd] at hx
          simp only [List.head?_cons, Option.some.injEq] at hx
          have hnot := List.head_dropWhile_not p r (by rw [hd]; simp)
          simp only [hd, List.head_cons] at hnot
          rw [← hx]
          simpa using hnot
      · intro pre2 c2 rest2 _ _
        simp
    · have hfalse : (pat.isPrefixOf (c :: cs) &&
          (((c :: cs).drop pat.length).head?.map p).getD false) = false :=
        (Bool.not_eq_true _).mp hcond
      simp only [findAfter, hfalse, Bool.false_eq_true, if_false] at h
      obtain ⟨pre, rest, hs, hne, hall, hstop, hleft⟩ := ih cap h
      refine ⟨c :: pre, rest, by rw [hs]; simp, hne, hall, hstop, ?_⟩
      intro pre2 c2 rest2 hs2 hp2
      cases pre2 with
      | nil =>
        exfalso
        simp only [List.nil_append] at hs2
        have := findAfter_here pat p c2 rest2
        rw [← hs2, hfalse, hp2] at this
        exact absurd this (by decide)
      | cons a as =>
        simp only [List.cons_append, List.cons.injEq] at hs2
        have := hleft as c2 rest2 (by simp [hs2.2]) hp2
        simp only [List.length_cons]
        omega

/-- Wherever the pattern is followed by a character of the class, `findAfter` finds a match. -/
theorem findAfter_complete (pat : List Char) (p : Char → Bool) (s : List Char) :
    ∀ pre c rest, s = pre ++ pat ++ c :: rest → p c = true →
      ∃ cap, findAfter pat p s = some cap := by
  induction s with
  | nil =>
    intro pre c rest hs _
    have := congrArg List.length hs
    simp at this
    omega
  | cons a as ih =>
    intro pre c rest hs hp
    by_cases hcond : (pat.isPrefixOf (a :: as) &&
        (((a :: as).drop pat.length).head?.map p).getD false) = true
    · exact ⟨((a :: as).drop pat.length).takeWhile p, by simp only [findAfter, hcond, if_true]⟩
    · have hfalse : (pat.isPrefixOf (a :: as) &&
          (((a :: as).drop pat.length).head?.map p).getD false) = false :=
        (Bool.not_eq_true _).mp hcond
      simp only [findAfter, hfalse, Bool.false_eq_true, if_false]
      cases pre with
      | nil =>
        exfalso
        simp only [List.nil_append] at hs
        have := findAfter_here pat p c rest
        rw [← hs, hfalse, hp] at this
        exact absurd this (by decide)
      | cons b bs =>
        simp only [List.cons_append, List.cons.injEq] at hs
        exact ih bs c rest (by simp [hs.2]) hp

theorem findAfter_none (pat : List Char) (p : Char → Bool) (s : List Char)
    (h : ¬ ∃ pre c rest, s = pre ++ pat ++ c :: rest ∧ p c = true) :
    findAfter pat p s = none := by
  cases hf : findAfter pat p s with
  | none => rfl
  | some cap =>
    exfalso
    obtain ⟨pre, rest, hs, hne, hall, _, _⟩ := findAfter_sound pat p s cap hf
    cases cap with
    | nil => exact hne rfl
    | cons c cs =>
      exact h ⟨pre, c, cs ++ rest, by rw [hs]; simp, hall c (List.mem_cons_self _ _)⟩

theorem matchAllDigits_iff (s : List Char) :
    matchAllDigits s = true ↔ s ≠ [] ∧ ∀ c ∈ s, c.isDigit = true := by
  unfold matchAllDigits
  cases s with
  | nil => simp
  | cons a as => simp [List.all_eq_true]

/-- A match of `findBetween` consists of one or more characters of the class between
the two literals. -/
theorem findBetween_sound (openTag closeTag : List Char) (p : Char → Bool) (s : List Char) :
    ∀ cap, findBetween openTag closeTag p s = some cap →
      cap ≠ [] ∧ (∀ c ∈ cap, p c = true) ∧
      ∃ pre rest, s = pre ++ openTag ++ cap ++ closeTag ++ rest := by
  induction s with
  | nil => intro cap h; simp [findBetween] at h
  | cons c cs ih =>
    intro cap h
    by_cases hcond : (openTag.isPrefixOf (c :: cs) &&
        !(((c :: cs).drop openTag.length).takeWhile p).isEmpty &&
        closeTag.isPrefixOf (((c :: cs).drop openTag.length).dropWhile p)) = true
    · simp only [findBetween, hcond, if_true, Option.some.injEq] at h
      simp only [Bool.and_eq_true] at hcond
      obtain ⟨⟨hopen, hne⟩, hclose⟩ := hcond
      obtain ⟨r, hr⟩ := List.isPrefixOf_iff_prefix.mp hopen
      obtain ⟨t, ht⟩ := List.isPrefixOf_iff_prefix.mp hclose
      have hdrop : (c :: cs).drop openTag.length = r := by
        rw [← hr]; simp
      rw [hdrop] at h hne ht
      refine ⟨?_, ?_, [], t, ?_⟩
      · rw [← h]
        intro hnil
        simp [hnil] at hne
      · intro x hx
        rw [← h] at hx
        exact List.mem_takeWhile_imp hx
      · have hsplit := List.takeWhile_append_dropWhile p r
        rw [← ht, h] at hsplit
        rw [← hr, ← hsplit]
        simp
    · have hfalse : (openTag.isPrefixOf (c :: cs) &&
          !(((c :: cs).drop openTag.length).takeWhile p).isEmpty &&
          closeTag.isPrefixOf (((c :: cs).drop openTag.length).dropWhile p)) = false :=
        (Bool.not_eq_true _).mp hcond
      simp only [findBetween, hfalse, Bool.false_eq_true, if_false] at h
      obtain ⟨hne, hall, pre, rest, hs⟩ := ih cap h
      exact ⟨hne, hall, c :: pre, rest, by rw [hs]; simp⟩

/-- Without a place where `open`, one or more characters of the class and `close` follow
one another, `findBetween` finds nothing. -/
theorem findBetween_none (openTag closeTag : List Char) (p : Char → Bool) (s : List Char)
    (h : ¬ ∃ pre cap rest, s = pre ++ openTag ++ cap ++ closeTag ++ rest ∧ cap ≠ [] ∧
      ∀ c ∈ cap, p c = true) :
    findBetween openTag closeTag p s = none := by
  cases hf : findBetween openTag closeTag p s with
  | none => rfl
  | some cap =>
    exfalso
    obtain ⟨hne, hall, pre, rest, hs⟩ := findBetween_sound openTag closeTag p s cap hf
    exact h ⟨pre, cap, rest, hs, hne, hall⟩

/-- C13. On the trimmed input `s`, `resolveSteamID` follows the four-step cascade:
(1) when `s` is one or more decimal digits it returns `s` and makes no lookup;
(2) otherwise, when `s` contains `profiles/` followed by a digit, it returns the digit run
captured at the leftmost such place and makes no lookup, whatever `id/` segments `s` has;
(3) otherwise, when `s` contains `id/` followed by a character other than a slash, it
returns the vanity lookup of the run of non-slash characters captured at the leftmost
such place; (4) otherwise it returns the vanity lookup of `s`. -/
theorem resolveSteamID_cascade (net : String → VanityResult) (input : String) :
    (matchAllDigits (strings.TrimSpace input.data) = true →
      resolveSteamID net input = (String.mk (strings.TrimSpace input.data), [])) ∧
    (matchAllDigits (strings.TrimSpace input.data) = false →
      (∃ pre d rest, strings.TrimSpace input.data = pre ++ "profiles/".data ++ d :: rest ∧
        d.isDigit = true) →
      ∃ pre digits rest,
        strings.TrimSpace input.data = pre ++ "profiles/".data ++ digits ++ rest ∧
        digits ≠ [] ∧ (∀ c ∈ digits, c.isDigit = true) ∧
        (∀ c, rest.head? = some c → c.isDigit = false) ∧
        (∀ pre2 d2 rest2,
          strings.TrimSpace input.data = pre2 ++ "profiles/".data ++ d2 :: rest2 →
          d2.isDigit = true → pre.length ≤ pre2.length) ∧
        resolveSteamID net input = (String.mk digits, [])) ∧
    (matchAllDigits (strings.TrimSpace input.data) = false →
      (¬ ∃ pre d rest, strings.TrimSpace input.data = pre ++ "profiles/".data ++ d :: rest ∧
        d.isDigit = true) →
      (∃ pre c rest, strings.TrimSpace input.data = pre ++ "id/".data ++ c :: rest ∧
        (c != '/') = true) →
      ∃ pre name rest,
        strings.TrimSpace input.data = pre ++ "id/".data ++ name ++ rest ∧
        name ≠ [] ∧ (∀ c ∈ name, (c != '/') = true) ∧
        (∀ c, rest.head? = some c → (c != '/') = false) ∧
        (∀ pre2 c2 rest2,
          strings.TrimSpace input.data = pre2 ++ "id/".data ++ c2 :: rest2 →
          (c2 != '/') = true → pre.length ≤ pre2.length) ∧
        resolveSteamID net input =
          (getSteamIDFromVanity net (String.mk name), [String.mk name])) ∧
    (matchAllDigits (strings.TrimSpace input.data) = false →
      (¬ ∃ pre d rest, strings.TrimSpace input.data = pre ++ "profiles/".data ++ d :: rest ∧
        d.isDigit = true) →
      (¬ ∃ pre c rest, strings.TrimSpace input.data = pre ++ "id/".data ++ c :: rest ∧
        (c != '/') = true) →
      resolveSteamID net input =
        (getSteamIDFromVanity net (String.mk (strings.TrimSpace input.data)),
          [String.mk (strings.TrimSpace input.data)])) := by
  refine ⟨?_, ?_, ?_, ?_⟩
  · intro h1
    simp [resolveSteamID, h1]
  · intro h1 ⟨pre, d, rest, hs, hd⟩
    obtain ⟨cap, hcap⟩ := findAfter_complete "profiles/".data Char.isDigit _ pre d rest hs hd
    obtain ⟨pre', rest', hs', hne, hall, hstop, hleft⟩ :=
      findAfter_sound "profiles/".data Char.isDigit _ cap hcap
    refine ⟨pre', cap, rest', hs', hne, hall, hstop, hleft, ?_⟩
    simp [resolveSteamID, h1, findProfilesID, hcap]
  · intro h1 h2 ⟨pre, c, rest, hs, hc⟩
    have hnone := findAfter_none "profiles/".data Char.isDigit _ h2
    obtain ⟨cap, hcap⟩ :=
      findAfter_complete "id/".data (fun c => c != '/') _ pre c rest hs hc
    obtain ⟨pre', rest', hs', hne, hall, hstop, hleft⟩ :=
      findAfter_sound "id/".data (fun c => c != '/') _ cap hcap
    refine ⟨pre', cap, rest', hs', hne, hall, hstop, hleft, ?_⟩
    simp [resolveSteamID, h1, findProfilesID, hnone, findVanityName, hcap]
  · intro h1 h2 h3
    have hnone := findAfter_none "profiles/".data Char.isDigit _ h2
    have hnone' := findAfter_none "id/".data (fun c => c != '/') _ h3
    simp [resolveSteamID, h1, findProfilesID, hnone, findVanityName, hnone']

/-- Witness for C13: one input for each of the four steps; the second one also holds an
`id/` segment, before the `profiles/` segment. -/
theorem resolveSteamID_cascade_witness :
    resolveSteamID demoVanityNet " 76561198111717059 " = ("76561198111717059", []) ∧
    (∃ pre digits rest,
        strings.TrimSpace "id/gaben/profiles/123/".data
          = pre ++ "profiles/".data ++ digits ++ rest ∧
        digits ≠ [] ∧ (∀ c ∈ digits, c.isDigit = true) ∧
        (∀ c, rest.head? = some c → c.isDigit = false) ∧
        (∀ pre2 d2 rest2,
          strings.TrimSpace "id/gaben/profiles/123/".data
            = pre2 ++ "profiles/".data ++ d2 :: rest2 →
          d2.isDigit = true → pre.length ≤ pre2.length) ∧
        resolveSteamID demoVanityNet "id/gaben/profiles/123/" = (String.mk digits, [])) ∧
    resolveSteamID demoVanityNet "gaben" =
      (getSteamIDFromVanity demoVanityNet (String.mk (strings.TrimSpace "gaben".data)),
        [String.mk (strings.TrimSpace "gaben".data)]) :=
  ⟨(resolveSteamID_cascade demoVanityNet " 76561198111717059 ").1 (by decide),
   (resolveSteamID_cascade demoVanityNet "id/gaben/profiles/123/").2.1 (by decide)
     ⟨"id/gaben/".data, '1', "23/".data, by decide, by decide⟩,
   (resolveSteamID_cascade demoVanityNet "gaben").2.2.2 (by decide)
     (by
       rintro ⟨pre, d, rest, hs, _⟩
       have hlen := congrArg List.length hs
       have htrim : strings.TrimSpace "gaben".data = "gaben".data := by decide
       rw [htrim] at hlen
       simp at hlen
       omega)
     (by
       rintro ⟨pre, c, rest, hs, _⟩
       have htrim : strings.TrimSpace "gaben".data = "gaben".data := by decide
       rw [htrim] at hs
       have hmem : '/' ∈ "gaben".data := by
         rw [hs]
         simp
       exact absurd hmem (by decide))⟩

/-- The four steps evaluated on examples. -/
theorem resolveSteamID_demo_eval :
    resolveSteamID demoVanityNet " 76561198111717059 " = ("76561198111717059", []) ∧
    resolveSteamID demoVanityNet "https://steamcommunity.com/profiles/76561198111717059/"
      = ("76561198111717059", []) ∧
    resolveSteamID demoVanityNet "https://steamcommunity.com/id/gaben/profiles/123"
      = ("123", []) ∧
    resolveSteamID demoVanityNet "https://steamcommunity.com/id/gaben/"
      = ("76561197960287930", ["gaben"]) ∧
    resolveSteamID demoVanityNet "gaben" = ("76561197960287930", ["gaben"]) ∧
    resolveSteamID demoVanityNet "https://steamcommunity.com/id/ghost" = ("", ["ghost"]) := by
  decide

/-- A result of `getSteamIDFromVanity` is empty or one or more digits. -/
theorem getSteamIDFromVanity_digits (net : String → VanityResult) (vanityName : String) :
    getSteamIDFromVanity net vanityName = "" ∨
    matchAllDigits (getSteamIDFromVanity net vanityName).data = true := by
  unfold getSteamIDFromVanity
  simp only
  cases net (vanityURL (String.mk (strings.TrimSpace vanityName.data))) with
  | requestError => left; rfl
  | transportError => left; rfl
  | response code body =>
    simp only
    by_cases hc : code = 200
    · rw [if_neg (by simpa using hc)]
      cases hf : findSteamID64 body.data with
      | none => left; rfl
      | some digits =>
        right
        obtain ⟨hne, hall, _⟩ := findBetween_sound _ _ _ _ digits hf
        exact (matchAllDigits_iff digits).mpr ⟨hne, hall⟩
    · rw [if_pos hc]
      left; rfl

/-- The outcome of a profile request from which no identity can be read: no request, no
answer, a status other than 200, or a text without the identity tag. -/
theorem getSteamIDFromVanity_failure (net : String → VanityResult) (vanityName : String)
    (h : net (vanityURL (String.mk (strings.TrimSpace vanityName.data))) = .requestError ∨
      net (vanityURL (String.mk (strings.TrimSpace vanityName.data))) = .transportError ∨
      ∃ code body,
        net (vanityURL (String.mk (strings.TrimSpace vanityName.data))) = .response code body ∧
        (code ≠ 200 ∨ ¬ ∃ pre digits rest,
          body.data = pre ++ "<steamID64>".data ++ digits ++ "</steamID64>".data ++ rest ∧
          digits ≠ [] ∧ ∀ c ∈ digits, c.isDigit = true)) :
    getSteamIDFromVanity net vanityName = "" := by
  unfold getSteamIDFromVanity
  simp only
  rcases h with h | h | ⟨code, body, h, hbad⟩
  · rw [h]
  · rw [h]
  · rw [h]
    simp only
    by_cases hc : code = 200
    · rw [if_neg (by simpa using hc)]
      rcases hbad with hbad | hbad
      · exact absurd hc hbad
      · have hnone : findSteamID64 body.data = none := findBetween_none _ _ _ _ hbad
        rw [hnone]
    · rw [if_pos hc]

/-- C14. For every input and every behaviour of the vanity endpoint, `resolveSteamID`
returns the empty string or a non-empty string of decimal digits; when the vanity lookup
is made and fails (the request cannot be built, transport error, status other than 200, or
a body text without a `<steamID64>digits</steamID64>` tag) it returns the empty string;
and resolving a non-empty result again returns it unchanged, without lookup. -/
theorem resolveSteamID_result (net net2 : String → VanityResult) (input : String) :
    ((resolveSteamID net input).1 = "" ∨
      matchAllDigits (resolveSteamID net input).1.data = true) ∧
    (∀ name, (resolveSteamID net input).2 = [name] →
      (net (vanityURL (String.mk (strings.TrimSpace name.data))) = .requestError ∨
        net (vanityURL (String.mk (strings.TrimSpace name.data))) = .transportError ∨
        ∃ code body,
          net (vanityURL (String.mk (strings.TrimSpace name.data))) = .response code body ∧
          (code ≠ 200 ∨ ¬ ∃ pre digits rest,
            body.data = pre ++ "<steamID64>".data ++ digits ++ "</steamID64>".data ++ rest ∧
            digits ≠ [] ∧ ∀ c ∈ digits, c.isDigit = true)) →
      (resolveSteamID net input).1 = "") ∧
    ((resolveSteamID net input).1 ≠ "" →
      resolveSteamID net2 (resolveSteamID net input).1 = ((resolveSteamID net input).1, [])) := by
  have hcases : (resolveSteamID net input).2 = [] ∧
        matchAllDigits (resolveSteamID net input).1.data = true ∨
      ∃ name, resolveSteamID net input = (getSteamIDFromVanity net name, [name]) := by
    unfold resolveSteamID
    simp only
    by_cases h1 : matchAllDigits (strings.TrimSpace input.data) = true
    · left
      simp [h1]
    · rw [if_neg h1]
      cases hp : findProfilesID (strings.TrimSpace input.data) with
      | some digits =>
        left
        obtain ⟨_, _, _, hne, hall, _, _⟩ := findAfter_sound _ _ _ digits hp
        exact ⟨rfl, (matchAllDigits_iff digits).mpr ⟨hne, hall⟩⟩
      | none =>
        right
        cases findVanityName (strings.TrimSpace input.data) with
        | some name => exact ⟨_, rfl⟩
        | none => exact ⟨_, rfl⟩
  have hdigits : (resolveSteamID net input).1 = "" ∨
      matchAllDigits (resolveSteamID net input).1.data = true := by
    rcases hcases with ⟨_, h⟩ | ⟨name, h⟩
    · right; exact h
    · rw [h]
      exact getSteamIDFromVanity_digits net name
  refine ⟨hdigits, ?_, ?_⟩
  · intro name hname hfail
    rcases hcases with ⟨h, _⟩ | ⟨name', h⟩
    · rw [h] at hname
      exact absurd hname (by simp)
    · rw [h] at hname ⊢
      simp only [List.cons.injEq, and_true] at hname
      subst hname
      exact getSteamIDFromVanity_failure net name' hfail
  · intro hne
    rcases hdigits with h | h
    · exact absurd h hne
    · obtain ⟨_, hall⟩ := (matchAllDigits_iff _).mp h
      have htrim : strings.TrimSpace (resolveSteamID net input).1.data
          = (resolveSteamID net input).1.data := by
        apply strings.TrimSpace_of_no_space
        intro c hc
        have hd := hall c hc
        simp only [Char.isDigit, Bool.and_eq_true, decide_eq_true_eq] at hd
        have h48 : 48 ≤ c.toNat := hd.1
        have h57 : c.toNat ≤ 57 := hd.2
        unfold isSpace
        simp only
        have e1 : (c.toNat == 9) = false := by simp; omega
        have e2 : (c.toNat == 10) = false := by simp; omega
        have e3 : (c.toNat == 11) = false := by simp; omega
        have e4 : (c.toNat == 12) = false := by simp; omega
        have e5 : (c.toNat == 13) = false := by simp; omega
        have e6 : (c.toNat == 32) = false := by simp; omega
        have e7 : (c.toNat == 0x85) = false := by simp; omega
        have e8 : (c.toNat == 0xA0) = false := by simp; omega
        have e9 : (c.toNat == 0x1680) = false := by simp; omega
        have e10 : (decide (0x2000 ≤ c.toNat) && decide (c.toNat ≤ 0x200A)) = false := by
          simp; omega
        have e11 : (c.toNat == 0x2028) = false := by simp; omega
        have e12 : (c.toNat == 0x2029) = false := by simp; omega
        have e13 : (c.toNat == 0x202F) = false := by simp; omega
        have e14 : (c.toNat == 0x205F) = false := by simp; omega
        have e15 : (c.toNat == 0x3000) = false := by simp; omega
        simp [e1, e2, e3, e4, e5, e6, e7, e8, e9, e10, e11, e12, e13, e14, e15]
      show resolveSteamID net2 (resolveSteamID net input).1 = _
      generalize (resolveSteamID net input).1 = r at h htrim
      unfold resolveSteamID
      simp only [htrim, h, if_true]

/-- Witness for C14: the vanity name `ghost` is looked up and the body has no identity tag;
the vanity name `gaben` resolves, and its result resolves to itself. -/
theorem resolveSteamID_result_witness :
    (resolveSteamID demoVanityNet "https://steamcommunity.com/id/ghost").1 = "" ∧
    resolveSteamID demoVanityNet (resolveSteamID demoVanityNet "id/gaben").1
      = ((resolveSteamID demoVanityNet "id/gaben").1, []) :=
  ⟨(resolveSteamID_result demoVanityNet demoVanityNet
      "https://steamcommunity.com/id/ghost").2.1 "ghost" (by decide)
      (Or.inr (Or.inr ⟨200,
        "<response><error>The specified profile could not be found.</error></response>",
        by decide, Or.inr (by
          rintro ⟨pre, digits, rest, hs, _, _⟩
          have hmem : '6' ∈ "<response><error>The specified profile could not be found.</error></response>".data := by
            rw [hs]
            simp
          exact absurd hmem (by decide))⟩)),
   (resolveSteamID_result demoVanityNet demoVanityNet "id/gaben").2.2 (by decide)⟩

/-! ## Price resolver -/

theorem lowest_annotation_ne_empty (l : List Char) : String.mk l ++ " (lowest)" ≠ "" := by
  intro h
  have := congrArg String.length h
  simp [String.length_append] at this
  exact absurd this.2 (by decide)

/-- C15. For every outcome of the price request, `getMarketPrice` returns the trimmed
`lowest_price` followed by ` (lowest)` when the request succeeded with status 200, the
body decoded, `success` is true and `lowest_price` is non-empty, and the empty string in
every other case; the first result is never empty, so the two cases can be told apart. -/
theorem getMarketPrice_result (queryEscape : String → String) (net : String → PriceResult)
    (appID marketHashName : String) :
    (∀ priceResp,
      net (marketURL queryEscape appID marketHashName) = .response 200 (some priceResp) →
      priceResp.Success = true → priceResp.LowestPrice ≠ "" →
      getMarketPrice queryEscape net appID marketHashName =
        String.mk (strings.TrimSpace priceResp.LowestPrice.data) ++ " (lowest)") ∧
    ((¬ ∃ priceResp,
      net (marketURL queryEscape appID marketHashName) = .response 200 (some priceResp) ∧
      priceResp.Success = true ∧ priceResp.LowestPrice ≠ "") →
      getMarketPrice queryEscape net appID marketHashName = "") ∧
    (getMarketPrice queryEscape net appID marketHashName ≠ "" ↔
      ∃ priceResp,
        net (marketURL queryEscape appID marketHashName) = .response 200 (some priceResp) ∧
        priceResp.Success = true ∧ priceResp.LowestPrice ≠ "") := by
  have hpos : ∀ priceResp,
      net (marketURL queryEscape appID marketHashName) = .response 200 (some priceResp) →
      priceResp.Success = true → priceResp.LowestPrice ≠ "" →
      getMarketPrice queryEscape net appID marketHashName =
        String.mk (strings.TrimSpace priceResp.LowestPrice.data) ++ " (lowest)" := by
    intro priceResp hnet hs hl
    simp [getMarketPrice, hnet, hs, hl]
  have hneg : (¬ ∃ priceResp,
      net (marketURL queryEscape appID marketHashName) = .response 200 (some priceResp) ∧
      priceResp.Success = true ∧ priceResp.LowestPrice ≠ "") →
      getMarketPrice queryEscape net appID marketHashName = "" := by
    intro hno
    unfold getMarketPrice
    cases hnet : net (marketURL queryEscape appID marketHashName) with
    | requestError => rfl
    | transportError => rfl
    | response code decoded =>
      simp only
      by_cases hc : code = 200
      · rw [if_neg (by simpa using hc)]
        cases decoded with
        | none => rfl
        | some priceResp =>
          simp only
          by_cases hs : priceResp.Success = true
          · by_cases hl : priceResp.LowestPrice = ""
            · simp [hs, hl]
            · exact absurd ⟨priceResp, by rw [hnet, hc], hs, hl⟩ hno
          · simp [hs]
      · rw [if_pos hc]
  refine ⟨hpos, hneg, ?_⟩
  constructor
  · intro hne
    by_contra hno
    exact hne (hneg hno)
  · rintro ⟨priceResp, hnet, hs, hl⟩
    rw [hpos priceResp hnet hs hl]
    exact lowest_annotation_ne_empty _

/-- Witness for C15: a price answer with white space around the lowest price, and an
answer whose `success` is false. -/
theorem getMarketPrice_result_witness :
    getMarketPrice id (fun _ => .response 200 (some demoPriceAnswer)) "730" "AK"
      = String.mk (strings.TrimSpace demoPriceAnswer.LowestPrice.data) ++ " (lowest)" ∧
    getMarketPrice id (fun _ => .response 200 (some demoPriceRefusal)) "730" "AK" = "" :=
  ⟨(getMarketPrice_result id (fun _ => .response 200 (some demoPriceAnswer)) "730" "AK").1
      demoPriceAnswer rfl rfl (by decide),
   (getMarketPrice_result id (fun _ => .response 200 (some demoPriceRefusal)) "730" "AK").2.1
      (by
        rintro ⟨priceResp, hnet, hs, _⟩
        simp only [PriceResult.response.injEq, true_and, Option.some.injEq] at hnet
        rw [← hnet] at hs
        exact absurd hs (by decide))⟩

/-- The price resolver evaluated: the annotated trimmed price, and nothing for a refusal,
a status 500 or a transport error. -/
theorem getMarketPrice_demo_eval :
    getMarketPrice id (fun _ => .response 200 (some demoPriceAnswer)) "730" "AK"
      = "15,50 руб. (lowest)" ∧
    getMarketPrice id (fun _ => .response 200 (some demoPriceRefusal)) "730" "AK" = "" ∧
    getMarketPrice id (fun _ => .response 500 none) "730" "AK" = "" ∧
    getMarketPrice id (fun _ => .transportError) "730" "AK" = "" := by
  decide

/-! ## Rate limiter -/

theorem RateLimiter.run_append (es fs : List RateEvent) :
    ∀ rl : RateLimiter, rl.run (es ++ fs) = (rl.run es).bind (fun r => r.run fs) := by
  induction es with
  | nil => intro rl; rfl
  | cons e es ih =>
    intro rl
    simp only [List.cons_append, RateLimiter.run]
    cases rl.step e with
    | none => rfl
    | some r => exact ih r

theorem RateLimiter.step_bound (rl rl2 : RateLimiter) (e : RateEvent)
    (h : rl.step e = some rl2) (hcap : rl.requests ≤ rl.capacity) :
    rl2.requests ≤ rl2.capacity ∧ rl2.capacity = rl.capacity := by
  cases e with
  | tick =>
    simp only [RateLimiter.step, Option.some.injEq] at h
    by_cases hlt : rl.requests < rl.capacity
    · rw [if_pos hlt] at h
      subst h
      exact ⟨hlt, rfl⟩
    · rw [if_neg hlt] at h
      subst h
      exact ⟨hcap, rfl⟩
  | waitDone =>
    simp only [RateLimiter.step] at h
    by_cases hpos : 0 < rl.requests
    · rw [if_pos hpos, Option.some.injEq] at h
      subst h
      exact ⟨by simp only; omega, rfl⟩
    · rw [if_neg hpos] at h
      exact absurd h (by simp)

theorem RateLimiter.run_bound (es : List RateEvent) :
    ∀ rl rl2 : RateLimiter, rl.run es = some rl2 → rl.requests ≤ rl.capacity →
      rl2.requests ≤ rl2.capacity ∧ rl2.capacity = rl.capacity := by
  induction es with
  | nil =>
    intro rl rl2 h hcap
    simp only [RateLimiter.run, Option.some.injEq] at h
    subst h
    exact ⟨hcap, rfl⟩
  | cons e es ih =>
    intro rl rl2 h hcap
    simp only [RateLimiter.run] at h
    cases hs : rl.step e with
    | none => rw [hs] at h; exact absurd h (by simp)
    | some r =>
      rw [hs] at h
      obtain ⟨h1, h2⟩ := RateLimiter.step_bound rl r e hs hcap
      obtain ⟨h3, h4⟩ := ih r rl2 h h1
      exact ⟨h3, by rw [h4, h2]⟩

/-- Without a permit and without a tick, no `Wait` completes. -/
theorem RateLimiter.no_tick_blocks (mid : List RateEvent) (hmid : RateEvent.tick ∉ mid) :
    ∀ rl : RateLimiter, rl.requests = 0 →
      rl.run (mid ++ [RateEvent.waitDone]) = none := by
  induction mid with
  | nil =>
    intro rl h0
    simp [RateLimiter.run, RateLimiter.step, h0]
  | cons e es ih =>
    intro rl h0
    cases e with
    | tick => exact absurd (List.mem_cons_self _ _) hmid
    | waitDone => simp [RateLimiter.run, RateLimiter.step, h0]

/-- C16. In every run of the rate limiter from `NewRateLimiter` (a tick puts a permit
into the slot only when the slot is empty, `Wait` completes only by taking the permit out),
the slot holds at most one permit after every step, and between the completions of any two
`Wait` calls there is at least one tick. -/
theorem RateLimiter_one_permit_per_tick (events : List RateEvent) (final : RateLimiter)
    (hrun : NewRateLimiter.run events = some final) :
    (∀ done rest, events = done ++ rest →
      ∃ rl, NewRateLimiter.run done = some rl ∧ rl.requests ≤ 1) ∧
    (∀ done mid rest,
      events = done ++ [RateEvent.waitDone] ++ mid ++ [RateEvent.waitDone] ++ rest →
      RateEvent.tick ∈ mid) := by
  constructor
  · intro done rest hsplit
    rw [hsplit, RateLimiter.run_append] at hrun
    cases hd : NewRateLimiter.run done with
    | none => rw [hd] at hrun; exact absurd hrun (by simp)
    | some rl =>
      obtain ⟨h1, h2⟩ := RateLimiter.run_bound done NewRateLimiter rl hd (by decide)
      refine ⟨rl, rfl, ?_⟩
      rw [h2] at h1
      exact h1
  · intro done mid rest hsplit
    by_contra hno
    have hassoc : events = done ++ ([RateEvent.waitDone] ++ ((mid ++ [RateEvent.waitDone]) ++ rest)) := by
      rw [hsplit]; simp
    rw [hassoc, RateLimiter.run_append] at hrun
    cases hd : NewRateLimiter.run done with
    | none => rw [hd] at hrun; exact absurd hrun (by simp)
    | some rl =>
      rw [hd] at hrun
      simp only [Option.some_bind] at hrun
      obtain ⟨h1, h2⟩ := RateLimiter.run_bound done NewRateLimiter rl hd (by decide)
      have hcap : rl.capacity = 1 := h2
      rw [RateLimiter.run_append] at hrun
      cases hw : rl.run [RateEvent.waitDone] with
      | none => rw [hw] at hrun; exact absurd hrun (by simp)
      | some rl2 =>
        rw [hw] at hrun
        simp only [Option.some_bind] at hrun
        have h0 : rl2.requests = 0 := by
          simp only [RateLimiter.run, RateLimiter.step] at hw
          by_cases hpos : 0 < rl.requests
          · rw [if_pos hpos] at hw
            simp only [Option.some.injEq] at hw
            subst hw
            simp only
            omega
          · rw [if_neg hpos] at hw
            exact absurd hw (by simp)
        rw [RateLimiter.run_append, RateLimiter.no_tick_blocks mid hno rl2 h0] at hrun
        exact absurd hrun (by simp)

/-- Witness for C16: two ticks (the second permit is dropped), a completion, a tick, a
completion. -/
theorem RateLimiter_one_permit_per_tick_witness :
    (∀ done rest,
      [RateEvent.tick, .tick, .waitDone, .tick, .waitDone] = done ++ rest →
      ∃ rl, NewRateLimiter.run done = some rl ∧ rl.requests ≤ 1) ∧
    (∀ done mid rest,
      [RateEvent.tick, .tick, .waitDone, .tick, .waitDone]
        = done ++ [RateEvent.waitDone] ++ mid ++ [RateEvent.waitDone] ++ rest →
      RateEvent.tick ∈ mid) :=
  RateLimiter_one_permit_per_tick [.tick, .tick, .waitDone, .tick, .waitDone]
    { requests := 0, capacity := 1 } (by decide)

/-- The rate limiter evaluated: after two ticks only one `Wait` can complete. -/
theorem RateLimiter_demo_eval :
    NewRateLimiter.run [.tick, .tick, .waitDone] = some { requests := 0, capacity := 1 } ∧
    NewRateLimiter.run [.tick, .tick, .waitDone, .waitDone] = none ∧
    NewRateLimiter.run [.tick, .waitDone, .tick, .waitDone]
      = some { requests := 0, capacity := 1 } := by
  decide

/-! ## Cache key of a scan -/

/-- A scan reads the cache once and writes it at most once, under the key it read. -/
theorem scanInventory_ops_shape {F : Type} (env : ScanEnv F) (cache : Cache F)
    (steamID appID : String) :
    (scanInventory env cache steamID appID).1
        = [.Get env.nowGet (scanCacheKey steamID appID)] ∨
    ∃ items, (scanInventory env cache steamID appID).1
        = [.Get env.nowGet (scanCacheKey steamID appID),
           .Set env.nowSet env.nowSet2 (scanCacheKey steamID appID) items] := by
  unfold scanInventory
  simp only
  repeat' split
  all_goals first
    | exact Or.inl rfl
    | exact Or.inr ⟨_, rfl⟩

/-- Every cache operation of a scan is about the key built from the input as given. -/
theorem scanInventory_ops_key {F : Type} (env : ScanEnv F) (cache : Cache F)
    (steamID appID : String) :
    ∀ op ∈ (scanInventory env cache steamID appID).1,
      op.key = some (steamID ++ "_" ++ appID) := by
  intro op hop
  rcases scanInventory_ops_shape env cache steamID appID with h | ⟨items, h⟩
  · rw [h] at hop
    simp only [List.mem_singleton] at hop
    rw [hop]; rfl
  · rw [h] at hop
    simp only [List.mem_cons, List.mem_singleton, List.not_mem_nil, or_false] at hop
    rcases hop with h' | h' <;> (rw [h']; rfl)

/-- C17 (amended). The cache key of `scanInventory` is determined by the identity input as
it is passed in (before resolution) and the application id: in any two scans with the same
input string and the same application id, whatever the cache, the clock and the network
do, every cache read and write is about the same key, `steamID + "_" + appID`. -/
theorem scanInventory_same_input_same_key {F : Type} (env1 env2 : ScanEnv F)
    (cache1 cache2 : Cache F) (steamID1 steamID2 appID1 appID2 : String)
    (hid : steamID1 = steamID2) (happ : appID1 = appID2) :
    ∀ op1 ∈ (scanInventory env1 cache1 steamID1 appID1).1,
    ∀ op2 ∈ (scanInventory env2 cache2 steamID2 appID2).1,
      op1.key = op2.key ∧ op1.key = some (steamID1 ++ "_" ++ appID1) := by
  intro op1 h1 op2 h2
  have k1 := scanInventory_ops_key env1 cache1 steamID1 appID1 op1 h1
  have k2 := scanInventory_ops_key env2 cache2 steamID2 appID2 op2 h2
  rw [k1, k2, hid, happ]
  exact ⟨rfl, rfl⟩

/-- Witness for C17 (amended): the write of a scan that misses, and the read of the same
scan run again on the cache it left. -/
theorem scanInventory_same_input_same_key_witness :
    (CacheOp.Set 130 130 "76561198111717059_730"
        (processInventoryItems (fun _ _ name => demoPrices name) demoParsePrice demoAssets
          demoDescriptions "730")).key
      = (CacheOp.Get 100 "76561198111717059_730" : CacheOp Int).key ∧
    (CacheOp.Set 130 130 "76561198111717059_730"
        (processInventoryItems (fun _ _ name => demoPrices name) demoParsePrice demoAssets
          demoDescriptions "730")).key
      = some ("76561198111717059" ++ "_" ++ "730") :=
  scanInventory_same_input_same_key demoEnv demoEnv (NewCache Int 1800)
    ((NewCache Int 1800).run
      (scanInventory demoEnv (NewCache Int 1800) "76561198111717059" "730").1)
    "76561198111717059" "76561198111717059" "730" "730" rfl rfl
    (CacheOp.Set 130 130 "76561198111717059_730"
      (processInventoryItems (fun _ _ name => demoPrices name) demoParsePrice demoAssets
        demoDescriptions "730")) (by decide)
    (CacheOp.Get 100 "76561198111717059_730") (by decide)

/-- Counterexample for C17 as stated: the identity and the profile URL of the same
profile resolve to the same identity without lookup, yet the two scans use different
cache keys, and the second scan misses the entry the first one wrote. -/
theorem scanInventory_key_differs_for_same_identity :
    (resolveSteamID demoVanityNet "76561198111717059").1
      = (resolveSteamID demoVanityNet
          "https://steamcommunity.com/profiles/76561198111717059").1 ∧
    (scanInventory demoEnv (NewCache Int 1800) "76561198111717059" "730").1.map CacheOp.key
      = [some "76561198111717059_730", some "76561198111717059_730"] ∧
    (scanInventory demoEnv
        ((NewCache Int 1800).run
          (scanInventory demoEnv (NewCache Int 1800) "76561198111717059" "730").1)
        "https://steamcommunity.com/profiles/76561198111717059" "730").1.map CacheOp.key
      = [some "https://steamcommunity.com/profiles/76561198111717059_730",
         some "https://steamcommunity.com/profiles/76561198111717059_730"] ∧
    (scanInventory demoEnv
        ((NewCache Int 1800).run
          (scanInventory demoEnv (NewCache Int 1800) "76561198111717059" "730").1)
        "76561198111717059" "730").2
      = .cacheHit (processInventoryItems (fun _ _ name => demoPrices name) demoParsePrice
          demoAssets demoDescriptions "730") ∧
    (scanInventory demoEnv
        ((NewCache Int 1800).run
          (scanInventory demoEnv (NewCache Int 1800) "76561198111717059" "730").1)
        "https://steamcommunity.com/profiles/76561198111717059" "730").2
      = .scanned (processInventoryItems (fun _ _ name => demoPrices name) demoParsePrice
          demoAssets demoDescriptions "730") := by
  decide

/-! ## Composite keys -/

/-- A text is split in only one way at its first underscore. -/
theorem split_at_first_underscore (a c : List Char) (ha : '_' ∉ a) (hc : '_' ∉ c) :
    ∀ b d : List Char, a ++ '_' :: b = c ++ '_' :: d → a = c ∧ b = d := by
  induction a generalizing c with
  | nil =>
    intro b d h
    cases c with
    | nil => simpa using h
    | cons y ys =>
      simp only [List.nil_append, List.cons_append, List.cons.injEq] at h
      exact absurd (by rw [← h.1]; exact List.mem_cons_self _ _) hc
  | cons x xs ih =>
    intro b d h
    cases c with
    | nil =>
      simp only [List.nil_append, List.cons_append, List.cons.injEq] at h
      exact absurd (by rw [h.1]; exact List.mem_cons_self _ _) ha
    | cons y ys =>
      simp only [List.cons_append, List.cons.injEq] at h
      obtain ⟨h1, h2⟩ := ih ys (fun hm => ha (List.mem_cons_of_mem _ hm))
        (fun hm => hc (List.mem_cons_of_mem _ hm)) b d h.2
      exact ⟨by rw [h.1, h1], h2⟩

theorem split_at_last_underscore (b d : List Char) (hb : '_' ∉ b) (hd : '_' ∉ d)
    (a c : List Char) (h : a ++ '_' :: b = c ++ '_' :: d) : a = c ∧ b = d := by
  have hrev := congrArg List.reverse h
  simp only [List.reverse_append, List.reverse_cons, List.append_assoc, List.singleton_append]
    at hrev
  obtain ⟨h1, h2⟩ := split_at_first_underscore b.reverse d.reverse
    (fun hm => hb (List.mem_reverse.mp hm)) (fun hm => hd (List.mem_reverse.mp hm))
    a.reverse c.reverse hrev
  exact ⟨List.reverse_injective h2, List.reverse_injective h1⟩

theorem descKey_data (d : Description) :
    (descKey d).data = d.ClassID.data ++ '_' :: d.InstanceID.data := by
  simp [descKey, String.data_append]

theorem descKey_injective_of_no_underscore (d1 d2 : Description)
    (hfree : ('_' ∉ d1.ClassID.data ∧ '_' ∉ d2.ClassID.data) ∨
      ('_' ∉ d1.InstanceID.data ∧ '_' ∉ d2.InstanceID.data))
    (hkey : descKey d1 = descKey d2) :
    d1.ClassID = d2.ClassID ∧ d1.InstanceID = d2.InstanceID := by
  have hdata := congrArg String.data hkey
  rw [descKey_data, descKey_data] at hdata
  rcases hfree with ⟨h1, h2⟩ | ⟨h1, h2⟩
  · obtain ⟨ha, hb⟩ := split_at_first_underscore _ _ h1 h2 _ _ hdata
    exact ⟨String.ext ha, String.ext hb⟩
  · obtain ⟨ha, hb⟩ := split_at_last_underscore _ _ h1 h2 _ _ hdata
    exact ⟨String.ext ha, String.ext hb⟩

/-- C18 (amended). For descriptions whose class ids hold no underscore (or whose instance
ids hold none; Steam issues both as decimal digits), the map key
`ClassID + "_" + InstanceID` of two descriptions is equal only if both their class ids and
their instance ids are equal; so, among such descriptions, every pair of ids that occurs in
the pages keeps a description in the map built by `fetchAllInventory`. -/
theorem descKey_unique_without_underscore (d1 d2 : Description) (descs : List Description)
    (hfree : ('_' ∉ d1.ClassID.data ∧ '_' ∉ d2.ClassID.data) ∨
      ('_' ∉ d1.InstanceID.data ∧ '_' ∉ d2.InstanceID.data))
    (hall : ∀ d ∈ descs, '_' ∉ d.ClassID.data) :
    (descKey d1 = descKey d2 → d1.ClassID = d2.ClassID ∧ d1.InstanceID = d2.InstanceID) ∧
    (∀ d ∈ descs, ∃ e ∈ (mergeDescriptions [] descs).values,
      e.ClassID = d.ClassID ∧ e.InstanceID = d.InstanceID) := by
  refine ⟨descKey_injective_of_no_underscore d1 d2 hfree, ?_⟩
  intro d hd
  cases hf : descs.find? (fun x => descKey x == descKey d) with
  | none =>
    have := List.find?_eq_none.mp hf d hd
    simp at this
  | some e =>
    have hkey : descKey e = descKey d := by
      have := List.find?_some hf
      simpa using this
    have he : e ∈ descs := List.mem_of_find?_eq_some hf
    refine ⟨e, ?_, descKey_injective_of_no_underscore e d (Or.inl ⟨hall e he, hall d hd⟩) hkey⟩
    have hmem := (mem_rangeOrder_values id (fun m => List.Perm.refl m) descs e).mpr
      (by rw [hkey]; exact hf)
    exact hmem

/-- Witness for C18 (amended): the demo descriptions, whose ids hold no underscore. -/
theorem descKey_unique_without_underscore_witness :
    (descKey (demoDesc "c1" "i1" "first" "AK" 1) = descKey (demoDesc "c2" "i0" "case" "" 1) →
      (demoDesc "c1" "i1" "first" "AK" 1).ClassID = (demoDesc "c2" "i0" "case" "" 1).ClassID ∧
      (demoDesc "c1" "i1" "first" "AK" 1).InstanceID
        = (demoDesc "c2" "i0" "case" "" 1).InstanceID) ∧
    (∀ d ∈ demoDescriptions, ∃ e ∈ (mergeDescriptions [] demoDescriptions).values,
      e.ClassID = d.ClassID ∧ e.InstanceID = d.InstanceID) :=
  descKey_unique_without_underscore (demoDesc "c1" "i1" "first" "AK" 1)
    (demoDesc "c2" "i0" "case" "" 1) demoDescriptions (Or.inl ⟨by decide, by decide⟩)
    (by decide)

/-- Counterexample for C18 as stated: class id `1_2` with instance id `3` and class id `1`
with instance id `2_3` are different pairs with the same key `1_2_3`, and of the two
descriptions only the first is kept. -/
theorem descKey_collision :
    descKey (demoDesc "1_2" "3" "one" "ONE" 1) = descKey (demoDesc "1" "2_3" "two" "TWO" 1) ∧
    (demoDesc "1_2" "3" "one" "ONE" 1).ClassID ≠ (demoDesc "1" "2_3" "two" "TWO" 1).ClassID ∧
    (demoDesc "1_2" "3" "one" "ONE" 1).InstanceID
      ≠ (demoDesc "1" "2_3" "two" "TWO" 1).InstanceID ∧
    (mergeDescriptions [] [demoDesc "1_2" "3" "one" "ONE" 1,
      demoDesc "1" "2_3" "two" "TWO" 1]).values = [demoDesc "1_2" "3" "one" "ONE" 1] := by
  decide

/-! ## Requests of the fetcher -/

theorem apiURL_forms (steamID appID contextID cursor : String) :
    apiURL steamID appID contextID "" =
      "https://steamcommunity.com/inventory/" ++ steamID ++ "/" ++ appID ++ "/" ++ contextID ∧
    (cursor ≠ "" → apiURL steamID appID contextID cursor =
      "https://steamcommunity.com/inventory/" ++ steamID ++ "/" ++ appID ++ "/" ++ contextID
        ++ "?start_assetid=" ++ cursor) := by
  constructor
  · simp [apiURL]
  · intro h
    simp [apiURL, h]

/-- The requests of a run that accepts exactly `ps`: one for the cursor in force at the
start, then one for the cursor of every accepted page that reports a continuation. -/
theorem fetchLoop_acceptedRun_requests (server : Nat → String → HttpResult)
    (steamID appID contextID : String) (ps : List SteamInventoryResponse) :
    ∀ (st st' : FetchState) (fuel : Nat),
      AcceptedRun server steamID appID contextID st.page st.startAssetID ps →
      fetchLoop server steamID appID contextID fuel st = some st' →
      st'.requests = st.requests ++ apiURL steamID appID contextID st.startAssetID ::
        (ps.filter pageContinues).map (fun p => apiURL steamID appID contextID p.LastAssetID) := by
  induction ps with
  | nil =>
    intro st st' fuel hrun hloop
    cases fuel with
    | zero => simp [fetchLoop] at hloop
    | succ f =>
      simp only [AcceptedRun] at hrun
      simp only [fetchLoop] at hloop
      cases hs : server (st.page + 1) (apiURL steamID appID contextID st.startAssetID) with
      | transportError =>
        rw [hs] at hloop
        simp only [Option.some.injEq] at hloop
        rw [← hloop]
        simp
      | response code body =>
        rw [hs] at hrun hloop
        cases body with
        | none =>
          by_cases hc : code = 200
          · simp only [hc, ne_eq, not_true_eq_false, if_false, Option.some.injEq] at hloop
            rw [← hloop]; simp
          · simp only [ne_eq, hc, not_false_eq_true, if_true, Option.some.injEq] at hloop
            rw [← hloop]; simp
        | some inv =>
          by_cases hc : code = 200
          · have hsx : inv.Success ≠ 1 := by
              simpa [HttpResult.failing, hc] using hrun
            simp only [hc, ne_eq, not_true_eq_false, if_false, hsx, not_false_eq_true, if_true,
              Option.some.injEq] at hloop
            rw [← hloop]; simp
          · simp only [ne_eq, hc, not_false_eq_true, if_true, Option.some.injEq] at hloop
            rw [← hloop]; simp
  | cons p ps ih =>
    intro st st' fuel hrun hloop
    cases fuel with
    | zero => simp [fetchLoop] at hloop
    | succ f =>
      simp only [AcceptedRun] at hrun
      obtain ⟨hserve, hsucc, hrest⟩ := hrun
      simp only [fetchLoop, hserve, ne_eq, not_true_eq_false, if_false, hsucc] at hloop
      by_cases hcont : p.MoreItems = 1 ∧ p.LastAssetID ≠ ""
      · rw [if_pos hcont] at hrest
        have hnot : ¬ (¬ p.MoreItems = 1 ∨ p.LastAssetID = "") := by
          rintro (h | h)
          · exact h hcont.1
          · exact hcont.2 h
        rw [if_neg hnot] at hloop
        have hreq := ih _ st' f hrest hloop
        have hpc : pageContinues p = true := by
          simp [pageContinues, hcont.1, hcont.2]
        rw [hreq]
        simp [List.filter_cons, hpc]
      · rw [if_neg hcont] at hrest
        subst hrest
        have hyes : (¬ p.MoreItems = 1 ∨ p.LastAssetID = "") := by
          by_cases h1 : p.MoreItems = 1
          · right
            by_contra h2
            exact hcont ⟨h1, h2⟩
          · left; exact h1
        rw [if_pos hyes, Option.some.injEq] at hloop
        have hpc : pageContinues p = false := by
          rcases hyes with h | h
          · simp [pageContinues, h]
          · simp [pageContinues, h]
        rw [← hloop]
        simp [List.filter_cons, hpc]

/-- C19. For every run of `fetchAllInventory` that accepts exactly the pages `pages`: the
first request carries no `start_assetid`; after it there is one request for every accepted
page that reports more items and a non-empty `last_assetid`, carrying exactly that
`last_assetid`, in page order, and no other request; so no request follows an accepted page
whose `more_items` is not 1 or whose `last_assetid` is empty, and the assets, descriptions
and total of that page are in the result. -/
theorem fetchAllInventory_requests
    (rangeOrder : GoMap Description → GoMap Description)
    (server : Nat → String → HttpResult) (steamID appID contextID : String)
    (pages : List SteamInventoryResponse) (fuel : Nat)
    (hrun : AcceptedRun server steamID appID contextID 0 "" pages)
    (hfuel : pages.length < fuel) :
    fetchAllInventoryRequests server steamID appID contextID fuel =
      some (("https://steamcommunity.com/inventory/" ++ steamID ++ "/" ++ appID ++ "/"
          ++ contextID) ::
        (pages.filter pageContinues).map (fun p =>
          "https://steamcommunity.com/inventory/" ++ steamID ++ "/" ++ appID ++ "/"
            ++ contextID ++ "?start_assetid=" ++ p.LastAssetID)) ∧
    (∀ last, pages.getLast? = some last → pageContinues last = false →
      (pages.filter pageContinues).length + 1 = pages.length) ∧
    fetchAllInventory rangeOrder server steamID appID contextID fuel =
      some (allPageAssets pages,
        (rangeOrder (mergeDescriptions [] (allPageDescriptions pages))).values,
        lastTotal 0 pages) := by
  obtain ⟨st, hst, ha, hd, ht⟩ :=
    fetchLoop_acceptedRun server steamID appID contextID pages FetchState.init fuel hrun hfuel
  have hreq := fetchLoop_acceptedRun_requests server steamID appID contextID pages
    FetchState.init st fuel hrun hst
  refine ⟨?_, ?_, ?_⟩
  · unfold fetchAllInventoryRequests
    rw [hst]
    simp only [Option.map_some', Option.some.injEq]
    rw [hreq]
    simp only [FetchState.init, List.nil_append, List.cons.injEq]
    refine ⟨(apiURL_forms steamID appID contextID "").1, ?_⟩
    apply List.map_congr_left
    intro p hp
    have hpc := (List.mem_filter.mp hp).2
    have hne : p.LastAssetID ≠ "" := by
      simp only [pageContinues, Bool.and_eq_true, decide_eq_true_eq] at hpc
      exact hpc.2
    exact (apiURL_forms steamID appID contextID p.LastAssetID).2 hne
  · intro last hlast hstop
    clear hst ha hd ht hreq hfuel st
    generalize (0 : Nat) = n at hrun
    generalize ("" : String) = cursor at hrun
    induction pages generalizing n cursor with
    | nil => simp at hlast
    | cons p ps ih =>
      simp only [AcceptedRun] at hrun
      obtain ⟨_, _, hrest⟩ := hrun
      by_cases hcont : p.MoreItems = 1 ∧ p.LastAssetID ≠ ""
      · rw [if_pos hcont] at hrest
        have hpc : pageContinues p = true := by
          simp [pageContinues, hcont.1, hcont.2]
        cases ps with
        | nil =>
          simp only [List.getLast?_singleton, Option.some.injEq] at hlast
          rw [hlast, hstop] at hpc
          exact absurd hpc (by decide)
        | cons q qs =>
          have hlast' : (q :: qs).getLast? = some last := by
            rw [List.getLast?_cons_cons] at hlast
            exact hlast
          have := ih hlast' (n + 1) p.LastAssetID hrest
          have hf : (List.filter pageContinues (p :: q :: qs)).length
              = (List.filter pageContinues (q :: qs)).length + 1 := by
            rw [List.filter_cons_of_pos hpc]; rfl
          have hl : (p :: q :: qs).length = (q :: qs).length + 1 := rfl
          rw [hf, hl, this]
      · rw [if_neg hcont] at hrest
        subst hrest
        have hpc : pageContinues p = false := by
          simp only [pageContinues]
          by_cases h1 : p.MoreItems = 1
          · have h2 : p.LastAssetID = "" := by
              by_contra h2
              exact hcont ⟨h1, h2⟩
            simp [h2]
          · simp [h1]
        simp [List.filter_cons, hpc]
  · have ha' : st.allAssets = allPageAssets pages := by rw [ha]; simp [FetchState.init]
    have hd' : st.descMap = mergeDescriptions [] (allPageDescriptions pages) := hd
    have ht' : st.totalCount = lastTotal 0 pages := ht
    simp [fetchAllInventory, hst, ha', hd', ht']

/-- Witness for C19: the two demo pages; the second reports no continuation. -/
theorem fetchAllInventory_requests_witness :
    fetchAllInventoryRequests demoServer "765" "730" "2" 3 =
      some (("https://steamcommunity.com/inventory/" ++ "765" ++ "/" ++ "730" ++ "/" ++ "2") ::
        ([demoPage1, demoPage2].filter pageContinues).map (fun p =>
          "https://steamcommunity.com/inventory/" ++ "765" ++ "/" ++ "730" ++ "/"
            ++ "2" ++ "?start_assetid=" ++ p.LastAssetID)) ∧
    (∀ last, [demoPage1, demoPage2].getLast? = some last → pageContinues last = false →
      ([demoPage1, demoPage2].filter pageContinues).length + 1
        = [demoPage1, demoPage2].length) ∧
    fetchAllInventory id demoServer "765" "730" "2" 3 =
      some (allPageAssets [demoPage1, demoPage2],
        (id (mergeDescriptions [] (allPageDescriptions [demoPage1, demoPage2]))).values,
        lastTotal 0 [demoPage1, demoPage2]) :=
  fetchAllInventory_requests id demoServer "765" "730" "2" [demoPage1, demoPage2] 3
    (by simp [AcceptedRun, demoServer, apiURL, demoPage1, demoPage2]) (by decide)

/-- The requests of the demo runs evaluated. -/
theorem fetchAllInventory_requests_demo_eval :
    fetchAllInventoryRequests demoServer "765" "730" "2" 3 =
      some ["https://steamcommunity.com/inventory/765/730/2",
            "https://steamcommunity.com/inventory/765/730/2?start_assetid=A2"] ∧
    fetchAllInventoryRequests demoFailingServer "765" "730" "2" 3 =
      some ["https://steamcommunity.com/inventory/765/730/2",
            "https://steamcommunity.com/inventory/765/730/2?start_assetid=A2",
            "https://steamcommunity.com/inventory/765/730/2?start_assetid=A3"] := by
  decide

/-! ## The pagination loop has no cap -/

/-- Against a server that always reports more items the loop uses up any fuel. -/
theorem fetchLoop_endless (steamID appID contextID : String) (fuel : Nat) :
    ∀ st : FetchState, fetchLoop endlessServer steamID appID contextID fuel st = none := by
  induction fuel with
  | zero => intro st; rfl
  | succ f ih =>
    intro st
    simp only [fetchLoop, endlessServer, morePage]
    simp [ih]

/-- Against `cappedServer n` the loop goes on up to request `n + 2`. -/
theorem fetchLoop_capped (steamID appID contextID : String) (n : Nat) (j : Nat) :
    ∀ st : FetchState, st.page + j = n + 1 →
      ∃ st', fetchLoop (cappedServer n) steamID appID contextID (j + 1) st = some st' ∧
        st'.page = n + 2 ∧ st'.requests.length = st.requests.length + j + 1 := by
  induction j with
  | zero =>
    intro st hpage
    have hgt : ¬ (st.page + 1 ≤ n + 1) := by omega
    simp only [fetchLoop, cappedServer, hgt, if_false]
    exact ⟨_, rfl, by simp only; omega, by simp⟩
  | succ k ih =>
    intro st hpage
    have hle : st.page + 1 ≤ n + 1 := by omega
    obtain ⟨st', hloop, hp, hr⟩ := ih
      { allAssets := st.allAssets ++ morePage.Assets
        descMap := mergeDescriptions st.descMap morePage.Descriptions
        totalCount := morePage.TotalCount
        startAssetID := morePage.LastAssetID
        page := st.page + 1
        requests := st.requests ++ [apiURL steamID appID contextID st.startAssetID] }
      (by simp only; omega)
    refine ⟨st', ?_, hp, ?_⟩
    · rw [← hloop]
      conv_lhs => rw [fetchLoop]
      simp only [cappedServer, hle, if_true]
      simp [morePage]
    · rw [hr]
      simp only [List.length_append, List.length_singleton]
      omega

/-- When the loop returns, its last request was answered by a failing response or by an
accepted page without continuation. -/
theorem fetchLoop_stops_only (server : Nat → String → HttpResult)
    (steamID appID contextID : String) (fuel : Nat) :
    ∀ (st st' : FetchState), fetchLoop server steamID appID contextID fuel st = some st' →
      ∃ url, st'.requests.getLast? = some url ∧
        ((server st'.page url).failing = true ∨
          ∃ p, server st'.page url = .response 200 (some p) ∧ p.Success = 1 ∧
            (p.MoreItems ≠ 1 ∨ p.LastAssetID = "")) := by
  induction fuel with
  | zero => intro st st' h; simp [fetchLoop] at h
  | succ f ih =>
    intro st st' h
    simp only [fetchLoop] at h
    cases hs : server (st.page + 1) (apiURL steamID appID contextID st.startAssetID) with
    | transportError =>
      rw [hs] at h
      simp only [Option.some.injEq] at h
      subst h
      exact ⟨apiURL steamID appID contextID st.startAssetID, by simp, Or.inl (by simp [hs, HttpResult.failing])⟩
    | response code body =>
      rw [hs] at h
      by_cases hc : code = 200
      · subst hc
        cases body with
        | none =>
          simp only [ne_eq, not_true_eq_false, if_false, Option.some.injEq] at h
          subst h
          exact ⟨apiURL steamID appID contextID st.startAssetID, by simp, Or.inl (by simp [hs, HttpResult.failing])⟩
        | some inv =>
          by_cases hsucc : inv.Success = 1
          · by_cases hstop : ¬ inv.MoreItems = 1 ∨ inv.LastAssetID = ""
            · simp only [ne_eq, not_true_eq_false, if_false, hsucc, hstop, if_true,
                Option.some.injEq] at h
              subst h
              exact ⟨apiURL steamID appID contextID st.startAssetID, by simp, Or.inr ⟨inv, by simp [hs], hsucc, hstop⟩⟩
            · simp only [ne_eq, not_true_eq_false, if_false, hsucc, hstop] at h
              exact ih _ _ h
          · simp only [ne_eq, not_true_eq_false, if_false, hsucc, not_false_eq_true, if_true,
              Option.some.injEq] at h
            subst h
            exact ⟨apiURL steamID appID contextID st.startAssetID, by simp, Or.inl (by simp [hs, HttpResult.failing, hsucc])⟩
      · simp only [ne_eq, hc, not_false_eq_true, if_true, Option.some.injEq] at h
        subst h
        exact ⟨apiURL steamID appID contextID st.startAssetID, by simp, Or.inl (by cases body <;> simp [hs, HttpResult.failing, hc])⟩

/-- C20. The pagination loop has no page cap: for every `n` there is a server (every
answer accepted, with `more_items` = 1 and a non-empty `last_assetid`, up to request
`n + 1`) under which the fetcher sends `n + 2` requests, more than `n`; under a server
that answers like that for ever the loop never returns, whatever the fuel; and whenever
the loop returns, its last request was answered by a failing response or by an accepted
page that reports no continuation. -/
theorem fetchAllInventory_no_page_cap (server : Nat → String → HttpResult)
    (steamID appID contextID : String) (n fuel : Nat) (st : FetchState)
    (hreturns : fetchLoop server steamID appID contextID fuel FetchState.init = some st) :
    (∃ requests, fetchAllInventoryRequests (cappedServer n) steamID appID contextID (n + 2)
        = some requests ∧ requests.length = n + 2 ∧ n < requests.length) ∧
    fetchLoop endlessServer steamID appID contextID fuel FetchState.init = none ∧
    (∃ url, st.requests.getLast? = some url ∧
      ((server st.page url).failing = true ∨
        ∃ p, server st.page url = .response 200 (some p) ∧ p.Success = 1 ∧
          (p.MoreItems ≠ 1 ∨ p.LastAssetID = ""))) := by
  refine ⟨?_, fetchLoop_endless steamID appID contextID fuel _,
    fetchLoop_stops_only server steamID appID contextID fuel _ _ hreturns⟩
  obtain ⟨st', hloop, _, hr⟩ := fetchLoop_capped steamID appID contextID n (n + 1)
    FetchState.init (by simp [FetchState.init])
  refine ⟨st'.requests, ?_, ?_, ?_⟩
  · simp [fetchAllInventoryRequests, hloop]
  · rw [hr]; simp [FetchState.init]
  · rw [hr]; simp only [FetchState.init, List.length_nil]; omega

/-- Witness for C20: a server that stops after three pages sends four requests, and the
demo run stops at a page without continuation. -/
theorem fetchAllInventory_no_page_cap_witness :
    (∃ requests, fetchAllInventoryRequests (cappedServer 2) "765" "730" "2" (2 + 2)
        = some requests ∧ requests.length = 2 + 2 ∧ 2 < requests.length) ∧
    fetchLoop endlessServer "765" "730" "2" 3 FetchState.init = none ∧
    (∃ url, ({ allAssets := allPageAssets [demoPage1, demoPage2],
               descMap := mergeDescriptions [] (allPageDescriptions [demoPage1, demoPage2]),
               totalCount := 7, startAssetID := "A2", page := 2,
               requests := ["https://steamcommunity.com/inventory/765/730/2",
                 "https://steamcommunity.com/inventory/765/730/2?start_assetid=A2"]
             } : FetchState).requests.getLast? = some url ∧
      ((demoServer 2 url).failing = true ∨
        ∃ p, demoServer 2 url = .response 200 (some p) ∧ p.Success = 1 ∧
          (p.MoreItems ≠ 1 ∨ p.LastAssetID = ""))) :=
  fetchAllInventory_no_page_cap demoServer "765" "730" "2" 2 3 _ (by decide)

/-! ## The two `parsePrice` functions -/

theorem dropWhile_isSpace_filter (l : List Char) :
    (l.filter (fun c => c != ' ')).dropWhile isSpace
      = (l.dropWhile isSpace).filter (fun c => c != ' ') := by
  induction l with
  | nil => rfl
  | cons c cs ih =>
    by_cases hs : isSpace c = true
    · by_cases hc : c = ' '
      · subst hc
        simp only [List.dropWhile_cons, hs, if_true]
        rw [← ih]
        simp
      · have hq : (c != ' ') = true := by simpa using hc
        simp only [List.filter_cons, hq, if_true, List.dropWhile_cons, hs]
        exact ih
    · have hc : c ≠ ' ' := by
        intro h
        subst h
        exact hs (by decide)
      have hq : (c != ' ') = true := by simpa using hc
      simp only [List.filter_cons, hq, if_true, List.dropWhile_cons, hs]
      simp [List.filter_cons, hq]

/-- Removing the spaces and trimming white space can be done in either order. -/
theorem strings.TrimSpace_filter (l : List Char) :
    strings.TrimSpace (l.filter (fun c => c != ' '))
      = (strings.TrimSpace l).filter (fun c => c != ' ') := by
  unfold strings.TrimSpace List.rdropWhile
  rw [dropWhile_isSpace_filter, ← List.filter_reverse, dropWhile_isSpace_filter,
    List.filter_reverse]

/-- The normalisation of `steam_api.go` is the one of `console.go` followed by the removal
of the spaces. -/
theorem normalizePrice_eq_filter_console (priceStr : String) :
    normalizePrice priceStr = (normalizePriceConsole priceStr).filter (fun c => c != ' ') := by
  unfold normalizePrice normalizePriceConsole
  simp only
  rw [← strings.TrimSpace_filter]
  congr 1
  generalize strings.Replace _ ",".data ".".data 1 = t
  unfold strings.Replace
  have h1 : ¬ (" ".data = ([] : List Char) ∨ (-1 : Int) = 0) := by decide
  have h2 : ((-1 : Int) < 0) := by decide
  rw [if_neg h1, if_pos h2]
  exact strings.replaceCount_delete_char ' ' t (t.length + 1) (Nat.lt_succ_self _)

/-- The two functions agree on every price string in which the normalisation of
`console.go` leaves no space. -/
theorem parsePriceConsole_eq_of_no_space {F : Type} (convertFloat : String → Option F)
    (zero : F) (priceStr : String) (h : ∀ c ∈ normalizePriceConsole priceStr, c ≠ ' ') :
    parsePriceConsole convertFloat zero priceStr = parsePrice convertFloat zero priceStr := by
  unfold parsePriceConsole parsePrice
  rw [normalizePrice_eq_filter_console, List.filter_eq_self.mpr]
  intro c hc
  simpa using h c hc

/-- C21. The two `parsePrice` functions do not return the same value for every price
string: on the price string "1 234,50 руб. (lowest)" the function of `console.go`, which
has no step that removes the spaces, scans the token "1", while the function of
`steam_api.go` scans the token "1234.50"; with an exact decimal reading of the tokens the
two values are 1 and 1234.50. -/
theorem parsePrice_console_differs :
    (∀ (F : Type) (convertFloat : String → Option F) (zero : F),
      parsePriceConsole convertFloat zero "1 234,50 руб. (lowest)"
        = (convertFloat "1").getD zero ∧
      parsePrice convertFloat zero "1 234,50 руб. (lowest)"
        = (convertFloat "1234.50").getD zero) ∧
    parsePriceConsole decimalLiteral ⟨0, 0⟩ "1 234,50 руб. (lowest)" = ⟨1, 0⟩ ∧
    parsePrice decimalLiteral ⟨0, 0⟩ "1 234,50 руб. (lowest)" = ⟨123450, 2⟩ ∧
    parsePriceConsole decimalLiteral ⟨0, 0⟩ "1 234,50 руб. (lowest)"
      ≠ parsePrice decimalLiteral ⟨0, 0⟩ "1 234,50 руб. (lowest)" := by
  refine ⟨fun F convertFloat zero => ⟨rfl, rfl⟩, by decide, by decide, by decide⟩

/-! ## The join does not depend on the order of the descriptions -/

/-- Among descriptions with pairwise distinct keys, the search by key finds the one
description that has the key. -/
theorem find?_key_iff_of_nodup (ds : List Description) (k : String)
    (hnd : (ds.map descKey).Nodup) (d : Description) :
    ds.find? (fun x => descKey x == k) = some d ↔ d ∈ ds ∧ descKey d = k := by
  constructor
  · intro h
    have hp := List.find?_some h
    exact ⟨List.mem_of_find?_eq_some h, by simpa using hp⟩
  · rintro ⟨hmem, hkey⟩
    induction ds with
    | nil => simp at hmem
    | cons a as ih =>
      simp only [List.map_cons, List.nodup_cons] at hnd
      rcases List.mem_cons.mp hmem with h | h
      · subst h
        simp [List.find?_cons, hkey]
      · have hne : descKey a ≠ k := by
          intro hak
          apply hnd.1
          exact List.mem_map.mpr ⟨d, h, by rw [hkey, hak]⟩
        have hb : (descKey a == k) = false := by simpa using hne
        simp only [List.find?_cons, hb]
        exact ih hnd.2 h

theorem find?_key_perm (ds1 ds2 : List Description) (k : String) (hperm : ds1.Perm ds2)
    (hnd : (ds1.map descKey).Nodup) :
    ds1.find? (fun x => descKey x == k) = ds2.find? (fun x => descKey x == k) := by
  have hnd2 : (ds2.map descKey).Nodup := ((hperm.map descKey).nodup_iff).mp hnd
  cases h1 : ds1.find? (fun x => descKey x == k) with
  | some d =>
    obtain ⟨hmem, hkey⟩ := (find?_key_iff_of_nodup ds1 k hnd d).mp h1
    exact ((find?_key_iff_of_nodup ds2 k hnd2 d).mpr ⟨hperm.mem_iff.mp hmem, hkey⟩).symm
  | none =>
    cases h2 : ds2.find? (fun x => descKey x == k) with
    | none => rfl
    | some d =>
      obtain ⟨hmem, hkey⟩ := (find?_key_iff_of_nodup ds2 k hnd2 d).mp h2
      have := (find?_key_iff_of_nodup ds1 k hnd d).mpr ⟨hperm.mem_iff.mpr hmem, hkey⟩
      rw [h1] at this
      exact absurd this (by simp)

/-- The loop body reads the description map only through its lookups. -/
theorem processAsset_congr {F : Type} (getMarketPrice : Nat → String → String → String)
    (parsePrice : String → F) (appID : String) (m1 m2 : GoMap Description)
    (hget : ∀ k, m1.get k = m2.get k) (st : JoinState F) (asset : Asset) :
    processAsset getMarketPrice parsePrice appID m1 st asset
      = processAsset getMarketPrice parsePrice appID m2 st asset := by
  unfold processAsset
  simp only [hget]

theorem foldl_processAsset_congr {F : Type} (getMarketPrice : Nat → String → String → String)
    (parsePrice : String → F) (appID : String) (m1 m2 : GoMap Description)
    (hget : ∀ k, m1.get k = m2.get k) (assets : List Asset) :
    ∀ st : JoinState F,
      assets.foldl (processAsset getMarketPrice parsePrice appID m1) st
        = assets.foldl (processAsset getMarketPrice parsePrice appID m2) st := by
  induction assets with
  | nil => intro st; rfl
  | cons a as ih =>
    intro st
    simp only [List.foldl_cons]
    rw [processAsset_congr getMarketPrice parsePrice appID m1 m2 hget st a]
    exact ih _

/-- Two description lists that are rearrangements of each other, with pairwise distinct
keys, give the same join. -/
theorem processInventoryItems_perm {F : Type} (getMarketPrice : Nat → String → String → String)
    (parsePrice : String → F) (assets : List Asset) (ds1 ds2 : List Description)
    (appID : String) (hperm : ds1.Perm ds2) (hnd : (ds1.map descKey).Nodup) :
    processInventoryItems getMarketPrice parsePrice assets ds1 appID
      = processInventoryItems getMarketPrice parsePrice assets ds2 appID := by
  have hnd2 : (ds2.map descKey).Nodup := ((hperm.map descKey).nodup_iff).mp hnd
  unfold processInventoryItems processInventoryState
  rw [foldl_processAsset_congr getMarketPrice parsePrice appID (buildDescMap ds1)
    (buildDescMap ds2) ?_ assets]
  intro k
  rw [buildDescMap_get_of_nodup ds1 k hnd, buildDescMap_get_of_nodup ds2 k hnd2]
  exact find?_key_perm ds1 ds2 k hperm hnd

/-- The description map of the page loop is always the first-wins merge of some list. -/
theorem fetchLoop_descMap_merge (server : Nat → String → HttpResult)
    (steamID appID contextID : String) (fuel : Nat) :
    ∀ (st st' : FetchState) (ds0 : List Description),
      st.descMap = mergeDescriptions [] ds0 →
      fetchLoop server steamID appID contextID fuel st = some st' →
      ∃ ds, st'.descMap = mergeDescriptions [] ds := by
  induction fuel with
  | zero => intro st st' ds0 _ h; simp [fetchLoop] at h
  | succ f ih =>
    intro st st' ds0 hd h
    simp only [fetchLoop] at h
    cases hs : server (st.page + 1) (apiURL steamID appID contextID st.startAssetID) with
    | transportError =>
      rw [hs] at h
      simp only [Option.some.injEq] at h
      subst h
      exact ⟨ds0, hd⟩
    | response code body =>
      rw [hs] at h
      by_cases hc : code = 200
      · subst hc
        cases body with
        | none =>
          simp only [ne_eq, not_true_eq_false, if_false, Option.some.injEq] at h
          subst h
          exact ⟨ds0, hd⟩
        | some inv =>
          have hmerge : mergeDescriptions st.descMap inv.Descriptions
              = mergeDescriptions [] (ds0 ++ inv.Descriptions) := by
            rw [mergeDescriptions_append, hd]
          by_cases hsucc : inv.Success = 1
          · by_cases hstop : ¬ inv.MoreItems = 1 ∨ inv.LastAssetID = ""
            · simp only [ne_eq, not_true_eq_false, if_false, hsucc, hstop, if_true,
                Option.some.injEq] at h
              subst h
              exact ⟨ds0 ++ inv.Descriptions, hmerge⟩
            · simp only [ne_eq, not_true_eq_false, if_false, hsucc, hstop] at h
              exact ih _ _ (ds0 ++ inv.Descriptions) hmerge h
          · simp only [ne_eq, not_true_eq_false, if_false, hsucc, not_false_eq_true, if_true,
              Option.some.injEq] at h
            subst h
            exact ⟨ds0, hd⟩
      · simp only [ne_eq, hc, not_false_eq_true, if_true, Option.some.injEq] at h
        subst h
        exact ⟨ds0, hd⟩

/-- C22. For every asset list and price endpoint, two description lists that are
permutations of each other and hold no two descriptions with the same composite key give
the same item list in `processInventoryItems`; and two runs of `fetchAllInventory` that
differ only in the order in which the description map is ranged over give results on which
`processInventoryItems` returns the same item list. -/
theorem processInventoryItems_description_order {F : Type}
    (getMarketPrice : Nat → String → String → String) (parsePrice : String → F)
    (assets : List Asset) (ds1 ds2 : List Description) (appID : String)
    (rangeOrder1 rangeOrder2 : GoMap Description → GoMap Description)
    (server : Nat → String → HttpResult) (steamID contextID : String) (fuel : Nat)
    (r1 r2 : List Asset × List Description × Int)
    (hperm : ds1.Perm ds2) (hdistinct : (ds1.map descKey).Nodup)
    (horder1 : ∀ m, (rangeOrder1 m).Perm m) (horder2 : ∀ m, (rangeOrder2 m).Perm m)
    (hfetch1 : fetchAllInventory rangeOrder1 server steamID appID contextID fuel = some r1)
    (hfetch2 : fetchAllInventory rangeOrder2 server steamID appID contextID fuel = some r2) :
    processInventoryItems getMarketPrice parsePrice assets ds1 appID
      = processInventoryItems getMarketPrice parsePrice assets ds2 appID ∧
    processInventoryItems getMarketPrice parsePrice r1.1 r1.2.1 appID
      = processInventoryItems getMarketPrice parsePrice r2.1 r2.2.1 appID := by
  refine ⟨processInventoryItems_perm getMarketPrice parsePrice assets ds1 ds2 appID hperm
    hdistinct, ?_⟩
  unfold fetchAllInventory at hfetch1 hfetch2
  cases hloop : fetchLoop server steamID appID contextID fuel FetchState.init with
  | none => rw [hloop] at hfetch1; simp at hfetch1
  | some st =>
    rw [hloop] at hfetch1 hfetch2
    simp only [Option.map_some', Option.some.injEq] at hfetch1 hfetch2
    obtain ⟨ds, hds⟩ := fetchLoop_descMap_merge server steamID appID contextID fuel
      FetchState.init st [] rfl hloop
    rw [← hfetch1, ← hfetch2]
    simp only
    rw [hds]
    apply processInventoryItems_perm
    · have p1 : (rangeOrder1 (mergeDescriptions [] ds)).values.Perm
          (mergeDescriptions [] ds).values := (horder1 _).map Prod.snd
      have p2 : (rangeOrder2 (mergeDescriptions [] ds)).values.Perm
          (mergeDescriptions [] ds).values := (horder2 _).map Prod.snd
      exact p1.trans p2.symm
    · exact ((rangeOrder_descKeys rangeOrder1 horder1 ds).nodup_iff).mpr
        (mergeDescriptions_nodup ds [] (by simp [GoMap.keys]))

/-- Witness for C22: the demo descriptions and their reverse; the demo fetch with the map
ranged over in insertion order and in reverse. -/
theorem processInventoryItems_description_order_witness :
    processInventoryItems (fun _ _ name => demoPrices name) demoParsePrice demoAssets
        demoDescriptions "730"
      = processInventoryItems (fun _ _ name => demoPrices name) demoParsePrice demoAssets
        demoDescriptions.reverse "730" ∧
    processInventoryItems (fun _ _ name => demoPrices name) demoParsePrice
        ([demoAsset "A1" "c1" "i1", demoAsset "A2" "c2" "i0", demoAsset "A3" "c1" "i1"],
          [demoDesc "c2" "i0" "case" "" 1, demoDesc "c1" "i1" "first" "AK" 1],
          (7 : Int)).1
        ([demoAsset "A1" "c1" "i1", demoAsset "A2" "c2" "i0", demoAsset "A3" "c1" "i1"],
          [demoDesc "c2" "i0" "case" "" 1, demoDesc "c1" "i1" "first" "AK" 1],
          (7 : Int)).2.1 "730"
      = processInventoryItems (fun _ _ name => demoPrices name) demoParsePrice
        ([demoAsset "A1" "c1" "i1", demoAsset "A2" "c2" "i0", demoAsset "A3" "c1" "i1"],
          [demoDesc "c1" "i1" "first" "AK" 1, demoDesc "c2" "i0" "case" "" 1],
          (7 : Int)).1
        ([demoAsset "A1" "c1" "i1", demoAsset "A2" "c2" "i0", demoAsset "A3" "c1" "i1"],
          [demoDesc "c1" "i1" "first" "AK" 1, demoDesc "c2" "i0" "case" "" 1],
          (7 : Int)).2.1 "730" :=
  processInventoryItems_description_order (fun _ _ name => demoPrices name) demoParsePrice
    demoAssets demoDescriptions demoDescriptions.reverse "730" id List.reverse demoServer
    "765" "2" 3 _ _ (List.reverse_perm demoDescriptions).symm (by decide)
    (fun m => List.Perm.refl m) (fun m => List.reverse_perm m) (by decide) (by decide)

/-! ## The sort of `sendTopItems` -/

theorem getElem?_append_cons {α : Type} (l1 : List α) (a : α) (l2 : List α) :
    (l1 ++ a :: l2)[l1.length]? = some a := by
  induction l1 with
  | nil => simp
  | cons b bs ih => simpa using ih

theorem set_append_cons {α : Type} (l1 : List α) (a b : α) (l2 : List α) :
    (l1 ++ a :: l2).set l1.length b = l1 ++ b :: l2 := by
  induction l1 with
  | nil => rfl
  | cons c cs ih => simp [ih]

/-- One step of the inner loop with the slice split at `i` and `j`. -/
theorem exchangeIfLess_split {F : Type} (ops : Float64Ops F)
    (pre done todo : List (InventoryItem F)) (x y : InventoryItem F) :
    exchangeIfLess ops (pre ++ x :: (done ++ y :: todo)) pre.length
        (pre.length + 1 + done.length)
      = if ops.lt x.PriceValue y.PriceValue then pre ++ y :: (done ++ x :: todo)
        else pre ++ x :: (done ++ y :: todo) := by
  have hi : (pre ++ x :: (done ++ y :: todo))[pre.length]? = some x :=
    getElem?_append_cons pre x _
  have hshape : ∀ a b : InventoryItem F,
      pre ++ a :: (done ++ b :: todo) = (pre ++ a :: done) ++ b :: todo := by
    intro a b; simp
  have hlen : ∀ a : InventoryItem F, pre.length + 1 + done.length = (pre ++ a :: done).length := by
    intro a; simp; omega
  have hj : (pre ++ x :: (done ++ y :: todo))[pre.length + 1 + done.length]? = some y := by
    rw [hshape, hlen x]
    exact getElem?_append_cons _ y _
  unfold exchangeIfLess
  rw [hi, hj]
  simp only
  by_cases h : ops.lt x.PriceValue y.PriceValue = true
  · rw [if_pos h, if_pos h, set_append_cons pre x y, hshape y y, hlen y,
      set_append_cons (pre ++ y :: done) y x]
    simp
  · rw [if_neg h, if_neg h]

/-- The inner loop carries a greatest price value of the stretch it runs over to
position `i` and rearranges the rest of the stretch, when no value of the stretch is NaN. -/
theorem sortInnerLoop_spec {F : Type} (ops : Float64Ops F) (isNaN : F → Bool)
    (hord : ops.Ordered isNaN) (pre : List (InventoryItem F))
    (todo : List (InventoryItem F)) :
    ∀ (done : List (InventoryItem F)) (x : InventoryItem F),
      (∀ z ∈ x :: todo, isNaN z.PriceValue = false) →
      ∃ m r,
        sortInnerLoop ops pre.length todo.length (pre.length + 1 + done.length)
            (pre ++ x :: (done ++ todo)) = pre ++ m :: (done ++ r) ∧
        (m :: r).Perm (x :: todo) ∧
        (∀ z ∈ x :: todo, ops.lt m.PriceValue z.PriceValue = false) := by
  induction todo with
  | nil =>
    intro done x _
    refine ⟨x, [], by simp [sortInnerLoop], List.Perm.refl _, ?_⟩
    intro z hz
    simp only [List.mem_singleton] at hz
    rw [hz]
    exact hord.lt_irrefl _
  | cons y ys ih =>
    intro done x hnan
    have hx : isNaN x.PriceValue = false := hnan x (List.mem_cons_self _ _)
    simp only [List.length_cons, sortInnerLoop]
    rw [exchangeIfLess_split]
    by_cases hb : ops.lt x.PriceValue y.PriceValue = true
    · rw [if_pos hb]
      obtain ⟨m, r, hrun, hperm, hmax⟩ := ih (done ++ [x]) y
        (fun z hz => hnan z (List.mem_cons_of_mem _ hz))
      have hidx : pre.length + 1 + done.length + 1 = pre.length + 1 + (done ++ [x]).length := by
        simp; omega
      have hlist : pre ++ y :: (done ++ x :: ys) = pre ++ y :: ((done ++ [x]) ++ ys) := by simp
      rw [hidx, hlist, hrun]
      refine ⟨m, x :: r, by simp, ?_, ?_⟩
      · exact (List.Perm.swap x m r).trans (hperm.cons x)
      · intro z hz
        rcases List.mem_cons.mp hz with hzx | hz'
        · rw [hzx]
          cases hmx : ops.lt m.PriceValue x.PriceValue with
          | false => rfl
          | true =>
            have := hord.lt_trans _ _ _ hmx hb
            rw [hmax y (List.mem_cons_self _ _)] at this
            exact absurd this (by decide)
        · exact hmax z hz'
    · rw [if_neg hb]
      obtain ⟨m, r, hrun, hperm, hmax⟩ := ih (done ++ [y]) x
        (by
          intro z hz
          rcases List.mem_cons.mp hz with h | h
          · rw [h]; exact hx
          · exact hnan z (List.mem_cons_of_mem _ (List.mem_cons_of_mem _ h)))
      have hidx : pre.length + 1 + done.length + 1 = pre.length + 1 + (done ++ [y]).length := by
        simp; omega
      have hlist : pre ++ x :: (done ++ y :: ys) = pre ++ x :: ((done ++ [y]) ++ ys) := by simp
      rw [hidx, hlist, hrun]
      refine ⟨m, y :: r, by simp, ?_, ?_⟩
      · have h1 : (m :: y :: r).Perm (y :: m :: r) := List.Perm.swap y m r
        have h2 : (y :: m :: r).Perm (y :: x :: ys) := hperm.cons y
        exact h1.trans (h2.trans (List.Perm.swap x y ys))
      · intro z hz
        rcases List.mem_cons.mp hz with hzx | hz'
        · rw [hzx]; exact hmax x (List.mem_cons_self _ _)
        · rcases List.mem_cons.mp hz' with hzy | hz''
          · rw [hzy]
            cases hmy : ops.lt m.PriceValue y.PriceValue with
            | false => rfl
            | true =>
              rcases hord.lt_cotrans _ x.PriceValue _ hx hmy with h | h
              · rw [hmax x (List.mem_cons_self _ _)] at h
                exact absurd h (by decide)
              · exact absurd h hb
          · exact hmax z (List.mem_cons_of_mem _ hz'')

/-- The outer loop sorts the part of the slice from position `i` on, when none of its
price values is NaN: no entry is less than a later one. -/
theorem sortOuterLoop_spec {F : Type} (ops : Float64Ops F) (isNaN : F → Bool)
    (hord : ops.Ordered isNaN) (n : Nat) :
    ∀ (pre rest : List (InventoryItem F)), rest.length = n + 1 →
      (∀ z ∈ rest, isNaN z.PriceValue = false) →
      ∃ s, sortOuterLoop ops n pre.length (pre ++ rest) = pre ++ s ∧ s.Perm rest ∧
        s.Pairwise (fun a b => ops.lt a.PriceValue b.PriceValue = false) := by
  induction n with
  | zero =>
    intro pre rest hlen _
    refine ⟨rest, by simp [sortOuterLoop], List.Perm.refl _, ?_⟩
    match rest, hlen with
    | [x], _ => simp
  | succ k ih =>
    intro pre rest hlen hnan
    match rest, hlen, hnan with
    | x :: todo, hlen, hnan =>
      obtain ⟨m, r, hrun, hperm, hmax⟩ := sortInnerLoop_spec ops isNaN hord pre todo [] x hnan
      have hcount : (pre ++ x :: todo).length - (pre.length + 1) = todo.length := by
        simp only [List.length_append, List.length_cons]
        omega
      simp only [sortOuterLoop]
      rw [hcount]
      simp only [List.length_nil, Nat.add_zero, List.nil_append] at hrun
      rw [hrun]
      have hr : r.length = k + 1 := by
        have := hperm.length_eq
        simp only [List.length_cons] at this hlen
        omega
      obtain ⟨s, hs, hsperm, hsorted⟩ := ih (pre ++ [m]) r hr
        (fun z hz => hnan z (hperm.mem_iff.mp (List.mem_cons_of_mem _ hz)))
      have hidx : pre.length + 1 = (pre ++ [m]).length := by simp
      have hlist : pre ++ m :: r = (pre ++ [m]) ++ r := by simp
      rw [hidx, hlist, hs]
      refine ⟨m :: s, by simp, ?_, ?_⟩
      · exact (hsperm.cons m).trans hperm
      · rw [List.pairwise_cons]
        refine ⟨?_, hsorted⟩
        intro b hb
        have hbr : b ∈ r := hsperm.mem_iff.mp hb
        have : b ∈ m :: r := List.mem_cons_of_mem _ hbr
        exact hmax b (hperm.mem_iff.mp this)

/-- The sort of `sendTopItems` rearranges a slice without NaN price values into
non-increasing price values. -/
theorem sortByPriceDescending_spec {F : Type} (ops : Float64Ops F) (isNaN : F → Bool)
    (hord : ops.Ordered isNaN) (items : List (InventoryItem F))
    (hnan : ∀ z ∈ items, isNaN z.PriceValue = false) :
    (sortByPriceDescending ops items).Perm items ∧
    (sortByPriceDescending ops items).Pairwise
      (fun a b => ops.le isNaN b.PriceValue a.PriceValue = true) := by
  cases items with
  | nil => simp [sortByPriceDescending, sortOuterLoop]
  | cons x xs =>
    obtain ⟨s, hs, hperm, hsorted⟩ :=
      sortOuterLoop_spec ops isNaN hord xs.length [] (x :: xs) rfl hnan
    have : sortByPriceDescending ops (x :: xs) = s := by
      unfold sortByPriceDescending
      simpa using hs
    rw [this]
    refine ⟨hperm, ?_⟩
    have hmem : ∀ z ∈ s, isNaN z.PriceValue = false :=
      fun z hz => hnan z (hperm.mem_iff.mp hz)
    have hall : s.Pairwise (fun a b =>
        isNaN a.PriceValue = false ∧ isNaN b.PriceValue = false) :=
      List.pairwise_of_forall_mem_list (fun a ha b hb => ⟨hmem a ha, hmem b hb⟩)
    refine (hsorted.and hall).imp ?_
    intro a b hab
    rw [Float64Ops.le_iff]
    exact ⟨hab.2.2, hab.2.1, hab.1⟩

/-- Reading the first `k` entries of a slice by index gives its first `k` entries. -/
theorem filterMap_range_getElem? {α : Type} (l : List α) (k : Nat) (hk : k ≤ l.length) :
    (List.range k).filterMap (fun i => l[i]?) = l.take k := by
  induction k with
  | zero => simp
  | succ n ih =>
    have hn : n < l.length := by omega
    rw [List.range_succ, List.filterMap_append, ih (by omega), List.take_succ]
    simp [List.getElem?_eq_getElem hn]

/-- C23 (amended). For every item list in which no `PriceValue` is NaN, the nested-loop
exchange sort of `sendTopItems` leaves the slice a permutation of its original contents
ordered by non-increasing `PriceValue` (every entry is `>=` each later one in the sense of
`float64`), the report lists exactly the first min(5, length) items of that order, and
every listed item has a price value at least as large as every unlisted one. The
comparison `<` is any one with the properties of the `float64` comparison. -/
theorem sendTopItems_sorted_top5 {F : Type} (ops : Float64Ops F) (isNaN : F → Bool)
    (items : List (InventoryItem F)) (hord : ops.Ordered isNaN)
    (hnan : ∀ z ∈ items, isNaN z.PriceValue = false) :
    (sendTopItems ops items).1.Perm items ∧
    (sendTopItems ops items).1.Pairwise
      (fun a b => ops.le isNaN b.PriceValue a.PriceValue = true) ∧
    (sendTopItems ops items).2 = (sendTopItems ops items).1.take (min 5 items.length) ∧
    (∀ a ∈ (sendTopItems ops items).2,
      ∀ b ∈ (sendTopItems ops items).1.drop (min 5 items.length),
        ops.le isNaN b.PriceValue a.PriceValue = true) := by
  obtain ⟨hperm, hsorted⟩ := sortByPriceDescending_spec ops isNaN hord items hnan
  have hlen : (sortByPriceDescending ops items).length = items.length := hperm.length_eq
  have h1 : (sendTopItems ops items).1 = sortByPriceDescending ops items := rfl
  have hcount : (if (sortByPriceDescending ops items).length < 5 then
      (sortByPriceDescending ops items).length else 5) = min 5 items.length := by
    rw [hlen]
    by_cases h : items.length < 5
    · rw [if_pos h]; omega
    · rw [if_neg h]; omega
  have h2 : (sendTopItems ops items).2
      = (sortByPriceDescending ops items).take (min 5 items.length) := by
    unfold sendTopItems
    simp only
    rw [hcount]
    exact filterMap_range_getElem? _ _ (by rw [hlen]; omega)
  refine ⟨by rw [h1]; exact hperm, by rw [h1]; exact hsorted, by rw [h2, h1], ?_⟩
  intro a ha b hb
  rw [h2] at ha
  rw [h1] at hb
  have hsplit := List.take_append_drop (min 5 items.length) (sortByPriceDescending ops items)
  rw [← hsplit] at hsorted
  exact (List.pairwise_append.mp hsorted).2.2 a ha b hb

/-- Witness for C23: seven items with ties and no NaN, in the model with a NaN; the five
listed are the five dearest. -/
theorem sendTopItems_sorted_top5_witness :
    (∀ z ∈ nanFreeItems, Option.isNone z.PriceValue = false) ∧
    (sendTopItems nanOps nanFreeItems).1.Perm nanFreeItems ∧
    (sendTopItems nanOps nanFreeItems).1.Pairwise
      (fun a b => nanOps.le Option.isNone b.PriceValue a.PriceValue = true) ∧
    (sendTopItems nanOps nanFreeItems).2
      = (sendTopItems nanOps nanFreeItems).1.take (min 5 nanFreeItems.length) ∧
    (∀ a ∈ (sendTopItems nanOps nanFreeItems).2,
      ∀ b ∈ (sendTopItems nanOps nanFreeItems).1.drop (min 5 nanFreeItems.length),
        nanOps.le Option.isNone b.PriceValue a.PriceValue = true) :=
  ⟨by decide, sendTopItems_sorted_top5 nanOps Option.isNone nanFreeItems nanOps_ordered
    (by decide)⟩

/-- Counterexample for C23 as stated, with a NaN price value: with the third of seven
price values NaN the loops leave 6, 5, NaN, 4, 3, 2, 1; the slice is not ordered, and the
report lists the NaN item, which is not at least as large as the unlisted 2 and 1. -/
theorem sendTopItems_nan_unsorted :
    (sendTopItems nanOps nanItems).1.map (fun it => it.PriceValue)
      = [some 6, some 5, none, some 4, some 3, some 2, some 1] ∧
    (sendTopItems nanOps nanItems).2.map (fun it => it.PriceValue)
      = [some 6, some 5, none, some 4, some 3] ∧
    ¬ (sendTopItems nanOps nanItems).1.Pairwise
      (fun a b => nanOps.le Option.isNone b.PriceValue a.PriceValue = true) ∧
    ¬ (∀ a ∈ (sendTopItems nanOps nanItems).2,
      ∀ b ∈ (sendTopItems nanOps nanItems).1.drop (min 5 nanItems.length),
        nanOps.le Option.isNone b.PriceValue a.PriceValue = true) := by
  decide

/-- The sort and the report evaluated: seven items with ties, two items, no item. -/
theorem sendTopItems_demo_eval :
    (sendTopItems demoOps demoTopItems).1
      = [demoPriced "g" 30, demoPriced "d" 20, demoPriced "c" 20, demoPriced "a" 10,
         demoPriced "f" 7, demoPriced "b" 5, demoPriced "e" 5] ∧
    (sendTopItems demoOps demoTopItems).2
      = [demoPriced "g" 30, demoPriced "d" 20, demoPriced "c" 20, demoPriced "a" 10,
         demoPriced "f" 7] ∧
    (sendTopItems demoOps [demoPriced "a" 10, demoPriced "b" 50]).2
      = [demoPriced "b" 50, demoPriced "a" 10] ∧
    (sendTopItems demoOps []).2 = [] := by
  decide

end SteamInventory
